import Mathlib

/-!
Verification of the `data_forest` ordered-container library: a plain binary
search tree, an AVL tree and a left-leaning Red-Black tree, each with cached
minimum/maximum values.  The Rust sources are embedded shallowly: pure
functions become Lean functions, `&mut` loops become structural recursions
with the same branch structure, machine integers become `Nat`/`Int`, and
every `unwrap`/`expect`/`unreachable!` that could panic is modelled by an
`Option` result (`none` = panic).  Keys are compared through an explicit
`partial_cmp` function `c : α → α → Option Ordering`; the derived operators
`<`, `>`, `==` of Rust's `PartialOrd`/`PartialEq` are `c a b = some .lt`,
`c a b = some .gt` and `c a b = some .eq`.  Integer keys use `icmp`, the
total comparison on `Int`.
-/

set_option maxHeartbeats 1000000

namespace DataForest

/-- The comparison on `Int` keys: `partial_cmp` of a totally ordered type,
so it always returns `some`. -/
def icmp (a b : Int) : Option Ordering :=
  some (if a < b then .lt else if a = b then .eq else .gt)

/-! ## Plain binary search tree: `src/binary_search_tree` -/

/-- `BinaryNode<T>`: a value plus two optional children.  `nil` plays the
role of Rust's `None` child slot. -/
inductive BTree (α : Type) where
  | nil
  | node (value : α) (left : BTree α) (right : BTree α)
deriving DecidableEq, Repr

namespace BTree

/-- Number of nodes of a subtree (used as fuel for the breadth-first loops). -/
def tsize : BTree α → Nat
  | .nil => 0
  | .node _ l r => 1 + tsize l + tsize r

end BTree

/-- The `BinarySearchTree<T>` struct: root plus cached extremes. -/
structure BinarySearchTree (α : Type) where
  root : BTree α
  min_value : Option α
  max_value : Option α
deriving DecidableEq, Repr

namespace Bst

variable {α : Type}

/-- `BinarySearchTree::new`. -/
def new : BinarySearchTree α := ⟨.nil, none, none⟩

/-- `BinarySearchTree::is_empty`. -/
def is_empty (t : BinarySearchTree α) : Bool :=
  match t.root with
  | .nil => true
  | _ => false

/-- The cursor loop of `BinarySearchTree::insert`: descend comparing with
`partial_cmp`; `Equal` and `None` (incomparable) return without inserting;
the first empty slot receives a fresh leaf. -/
def insert_go (c : α → α → Option Ordering) (value : α) : BTree α → BTree α
  | .nil => .node value .nil .nil
  | .node x l r =>
    match c value x with
    | some .lt => .node x (insert_go c value l) r
    | some .gt => .node x l (insert_go c value r)
    | some .eq => .node x l r
    | none => .node x l r

/-- `BinarySearchTree::insert`: update the min/max caches first (the
`(None, Some)` / `(Some, None)` arms are `unreachable!()`, modelled by
`none`), then run the descent loop. -/
def insert (c : α → α → Option Ordering) (t : BinarySearchTree α) (value : α) :
    Option (BinarySearchTree α) :=
  match t.min_value, t.max_value with
  | none, none =>
      some ⟨insert_go c value t.root, some value, some value⟩
  | some mn, some mx =>
      some ⟨insert_go c value t.root,
            if c value mn = some .lt then some value else some mn,
            if c value mx = some .gt then some value else some mx⟩
  | _, _ => none

/-- `BinarySearchTree::pass_and_detach_local_minimum`: detach the leftmost
node of the subtree, reattaching its right child in its place; returns the
detached value (or `none` on an empty subtree) alongside the new subtree. -/
def pass_and_detach_local_minimum : BTree α → Option α × BTree α
  | .nil => (none, .nil)
  | .node x .nil r => (some x, r)
  | .node x (.node y yl yr) r =>
      let p := pass_and_detach_local_minimum (.node y yl yr)
      (p.1, .node x p.2 r)

/-- `BinarySearchTree::refind_min`: walk the left spine. -/
def refind_min : BTree α → Option α
  | .nil => none
  | .node x .nil _ => some x
  | .node _ (.node y yl yr) _ => refind_min (.node y yl yr)

/-- `BinarySearchTree::refind_max`: walk the right spine. -/
def refind_max : BTree α → Option α
  | .nil => none
  | .node x _ .nil => some x
  | .node _ _ (.node y yl yr) => refind_max (.node y yl yr)

/-- The cursor loop of `BinarySearchTree::remove`: on an `Equal` match splice
out the node (two-children case copies in the detached minimum of the right
subtree; the `.unwrap()` of that minimum is the `none` branch); an
incomparable comparison breaks out of the loop leaving the tree unchanged. -/
def remove_go (c : α → α → Option Ordering) (value : α) : BTree α → Option (BTree α)
  | .nil => some .nil
  | .node x l r =>
    match c value x with
    | some .lt => (remove_go c value l).map fun l' => .node x l' r
    | some .gt => (remove_go c value r).map fun r' => .node x l r'
    | some .eq =>
      match l, r with
      | .nil, .nil => some .nil
      | _, .nil => some l
      | .nil, _ => some r
      | _, _ =>
        match pass_and_detach_local_minimum r with
        | (some m, r') => some (.node m l r')
        | (none, _) => none
    | none => some (.node x l r)

/-- `BinarySearchTree::remove`: run the loop, then recompute both caches by
re-walking the spines. -/
def remove (c : α → α → Option Ordering) (t : BinarySearchTree α) (value : α) :
    Option (BinarySearchTree α) :=
  (remove_go c value t.root).map fun root' =>
    ⟨root', refind_min root', refind_max root'⟩

/-- The loop of `BinarySearchTree::contains`. -/
def contains_go (c : α → α → Option Ordering) (value : α) : BTree α → Bool
  | .nil => false
  | .node x l r =>
    match c value x with
    | some .lt => contains_go c value l
    | some .gt => contains_go c value r
    | some .eq => true
    | none => false

/-- `BinarySearchTree::contains`. -/
def contains (c : α → α → Option Ordering) (t : BinarySearchTree α) (value : α) : Bool :=
  contains_go c value t.root

/-- `BinarySearchTree::min`: the cached minimum. -/
def min (t : BinarySearchTree α) : Option α := t.min_value

/-- `BinarySearchTree::max`: the cached maximum. -/
def max (t : BinarySearchTree α) : Option α := t.max_value

/-- One step of the breadth-first queue: children (skipping `None` slots, in
left-to-right order) of every tree in the current level. -/
def level_children : List (BTree α) → List (BTree α)
  | [] => []
  | .nil :: rest => level_children rest
  | .node _ l r :: rest =>
      (match l with | .nil => [] | l => [l]) ++
      (match r with | .nil => [] | r => [r]) ++ level_children rest

/-- The level-counting loop of `BinarySearchTree::height`: after each level,
increment only if the queue is still non-empty.  `fuel` bounds the number of
levels (the caller passes the subtree size, which always suffices). -/
def height_go : Nat → List (BTree α) → Nat
  | 0, _ => 0
  | _ + 1, [] => 0
  | fuel + 1, q@(_ :: _) =>
      let nxt := level_children q
      if nxt.isEmpty then 0 else 1 + height_go fuel nxt

/-- `BinarySearchTree::height`: `0` for the empty tree, otherwise the
breadth-first level count loop starting from the root. -/
def height (t : BinarySearchTree α) : Nat :=
  match t.root with
  | .nil => 0
  | r => height_go r.tsize [r]

/-- Denotation of the iterative (explicit stack) preorder walk of
`BinarySearchTree::pre_order`. -/
def pre_order_go : BTree α → List α
  | .nil => []
  | .node x l r => x :: (pre_order_go l ++ pre_order_go r)

/-- `BinarySearchTree::pre_order`. -/
def pre_order (t : BinarySearchTree α) : List α := pre_order_go t.root

/-- Denotation of the iterative (explicit stack) inorder walk of
`BinarySearchTree::in_order`. -/
def in_order_go : BTree α → List α
  | .nil => []
  | .node x l r => in_order_go l ++ x :: in_order_go r

/-- `BinarySearchTree::in_order`. -/
def in_order (t : BinarySearchTree α) : List α := in_order_go t.root

/-- Denotation of the iterative postorder walk (explicit stack plus
last-visited marker) of `BinarySearchTree::post_order`. -/
def post_order_go : BTree α → List α
  | .nil => []
  | .node x l r => post_order_go l ++ post_order_go r ++ [x]

/-- `BinarySearchTree::post_order`. -/
def post_order (t : BinarySearchTree α) : List α := post_order_go t.root

/-- The queue loop of `BinarySearchTree::level_order`: pop the front node,
emit its value, push its non-`None` children at the back.  `fuel` bounds the
number of pops (the caller passes the tree size, which is exact). -/
def level_order_go : Nat → List (BTree α) → List α
  | 0, _ => []
  | _ + 1, [] => []
  | fuel + 1, .nil :: q => level_order_go fuel q
  | fuel + 1, .node x l r :: q =>
      x :: level_order_go fuel
        (q ++ (match l with | .nil => [] | l => [l]) ++
              (match r with | .nil => [] | r => [r]))

/-- `BinarySearchTree::level_order`. -/
def level_order (t : BinarySearchTree α) : List α :=
  match t.root with
  | .nil => []
  | r => level_order_go r.tsize [r]

/-- `BinarySearchTree::number_of_elements`: length of the preorder output. -/
def number_of_elements (t : BinarySearchTree α) : Nat := (pre_order t).length

/-- The candidate-tracking loop of `BinarySearchTree::ceil`. -/
def ceil_go (c : α → α → Option Ordering) (value : α) : BTree α → Option α → Option α
  | .nil, result => result
  | .node x l r, result =>
    if c x value = some .eq then some x
    else if c x value = some .lt then ceil_go c value r result
    else ceil_go c value l (some x)

/-- `BinarySearchTree::ceil`. -/
def ceil (c : α → α → Option Ordering) (t : BinarySearchTree α) (value : α) : Option α :=
  match t.root with
  | .nil => none
  | r => ceil_go c value r none

/-- The candidate-tracking loop of `BinarySearchTree::floor`. -/
def floor_go (c : α → α → Option Ordering) (value : α) : BTree α → Option α → Option α
  | .nil, result => result
  | .node x l r, result =>
    if c x value = some .eq then some x
    else if c x value = some .gt then floor_go c value l result
    else floor_go c value r (some x)

/-- `BinarySearchTree::floor`. -/
def floor (c : α → α → Option Ordering) (t : BinarySearchTree α) (value : α) : Option α :=
  match t.root with
  | .nil => none
  | r => floor_go c value r none

end Bst

/-! ### Operation sequences on integer-keyed trees -/

/-- A public mutating operation. -/
inductive Op where
  | ins (value : Int)
  | del (value : Int)
deriving DecidableEq, Repr

/-- Apply one operation to a `BinarySearchTree Int`. -/
def bstStep (t : BinarySearchTree Int) : Op → Option (BinarySearchTree Int)
  | .ins v => Bst.insert icmp t v
  | .del v => Bst.remove icmp t v

/-- Run a sequence of operations from `BinarySearchTree::new`;
`none` if any step panics. -/
def bstRun (ops : List Op) : Option (BinarySearchTree Int) :=
  ops.foldl (fun acc op => acc.bind fun t => bstStep t op) (some Bst.new)

/-- Total runner (panics collapse to the empty tree; they are proved
impossible separately). -/
def bstRunD (ops : List Op) : BinarySearchTree Int :=
  (bstRun ops).getD Bst.new

example : bstRun [.ins 5, .ins 3, .ins 7, .ins 2, .ins 4, .ins 6, .ins 8]
    = some ⟨.node 5 (.node 3 (.node 2 .nil .nil) (.node 4 .nil .nil))
                   (.node 7 (.node 6 .nil .nil) (.node 8 .nil .nil)),
            some 2, some 8⟩ := by decide

example : Bst.pre_order (bstRunD [.ins 5, .ins 3, .ins 7, .ins 2, .ins 4, .ins 6, .ins 8])
    = [5, 3, 2, 4, 7, 6, 8] := by decide

example : Bst.in_order (bstRunD [.ins 2, .ins 1, .ins 3, .del 2]) = [1, 3] := by decide

example : Bst.height (bstRunD [.ins 1]) = 0 := by decide

example : Bst.height (bstRunD [.ins 0, .ins 1, .ins 2]) = 2 := by decide

example : Bst.level_order (bstRunD [.ins 4, .ins 2, .ins 5, .ins 1, .ins 3, .ins 6])
    = [4, 2, 5, 1, 3, 6] := by decide

example : Bst.ceil icmp (bstRunD [.ins 1, .ins 2, .ins 5]) 3 = some 5 := by decide

example : Bst.floor icmp (bstRunD [.ins 1, .ins 2, .ins 5]) 0 = none := by decide


/-! ## AVL tree: `src/avl_tree` -/

/-- `AVLNode<T>`: value, children, and the stored subtree height
(leaf = 1, empty slot = 0). -/
inductive ATree (α : Type) where
  | nil
  | node (value : α) (left : ATree α) (right : ATree α) (height : Nat)
deriving DecidableEq, Repr

namespace Avl

variable {α : Type}

/-- `AVLNode::height`: stored height of an optional node (`0` for `None`). -/
def node_height : ATree α → Nat
  | .nil => 0
  | .node _ _ _ h => h

/-- `AVLNode::update_height`: recompute this node's stored height from the
children's stored heights. -/
def update_height : ATree α → ATree α
  | .nil => .nil
  | .node x l r _ => .node x l r (1 + Max.max (node_height l) (node_height r))

/-- `AVLNode::balance_factor`: left stored height minus right stored height,
as a signed integer. -/
def balance_factor : ATree α → Int
  | .nil => 0
  | .node _ l r _ => (node_height l : Int) - (node_height r : Int)

/-- `AVLNode::ll_rotation` (single right rotation): the `unwrap` of the left
child is the `none` branch; both rewritten nodes get their heights
recomputed, lower node first. -/
def ll_rotation : ATree α → Option (ATree α)
  | .node v (.node lv ll lr _) r _ =>
      let lower := ATree.node v lr r (1 + Max.max (node_height lr) (node_height r))
      some (.node lv ll lower (1 + Max.max (node_height ll) (node_height lower)))
  | _ => none

/-- `AVLNode::rr_rotation` (single left rotation). -/
def rr_rotation : ATree α → Option (ATree α)
  | .node v l (.node rv rl rr _) _ =>
      let lower := ATree.node v l rl (1 + Max.max (node_height l) (node_height rl))
      some (.node rv lower rr (1 + Max.max (node_height lower) (node_height rr)))
  | _ => none

/-- `AVLNode::rl_rotation`: right-rotate the right child, then left-rotate. -/
def rl_rotation : ATree α → Option (ATree α)
  | .node v l (.node rv rl rr rh) h => do
      let r' ← ll_rotation (.node rv rl rr rh)
      rr_rotation (.node v l r' h)
  | _ => none

/-- `AVLNode::lr_rotation`: left-rotate the left child, then right-rotate. -/
def lr_rotation : ATree α → Option (ATree α)
  | .node v (.node lv ll lr lh) r h => do
      let l' ← rr_rotation (.node lv ll lr lh)
      ll_rotation (.node v l' r h)
  | _ => none

/-- `AVLNode::rebalance`: dispatch on the balance factor; the child
`unwrap`s are the `none` branches. -/
def rebalance (t : ATree α) : Option (ATree α) :=
  if balance_factor t > 1 then
    match t with
    | .node _ (.node lv ll lr lh) _ _ =>
        if balance_factor (.node lv ll lr lh) ≥ 0 then ll_rotation t else lr_rotation t
    | _ => none
  else if balance_factor t < -1 then
    match t with
    | .node _ _ (.node rv rl rr rh) _ =>
        if balance_factor (.node rv rl rr rh) ≤ 0 then rr_rotation t else rl_rotation t
    | _ => none
  else some t

/-- `AVLTree::insert_rec`: descend, then `update_height` and `rebalance` on
the way back up; `Equal` and incomparable comparisons return the node
unchanged. -/
def insert_rec (c : α → α → Option Ordering) (value : α) : ATree α → Option (ATree α)
  | .nil => some (.node value .nil .nil 1)
  | .node x l r h =>
    match c value x with
    | some .lt => do
        let l' ← insert_rec c value l
        rebalance (update_height (.node x l' r h))
    | some .gt => do
        let r' ← insert_rec c value r
        rebalance (update_height (.node x l r' h))
    | _ => some (.node x l r h)

/-- `AVLTree::detach_min`: recursively detach the minimum of a (non-empty)
subtree, rebalancing on the way back up; returns the minimum value and the
fixed-up subtree.  The `nil` case is impossible in the Rust signature
(`Box<AVLNode<T>>`). -/
def detach_min : ATree α → Option (α × ATree α)
  | .nil => none
  | .node x .nil r _ => some (x, r)
  | .node x (.node lv ll lr lh) r h => do
      let p ← detach_min (.node lv ll lr lh)
      let b ← rebalance (update_height (.node x p.2 r h))
      some (p.1, b)

/-- `AVLTree::remove_node`: descend, splice at the match (two-children case
splices in the detached minimum of the right subtree), rebalance on the way
back up; an incomparable comparison returns the node unchanged. -/
def remove_node (c : α → α → Option Ordering) (value : α) : ATree α → Option (ATree α)
  | .nil => some .nil
  | .node x l r h =>
    match c value x with
    | some .lt => do
        let l' ← remove_node c value l
        rebalance (update_height (.node x l' r h))
    | some .gt => do
        let r' ← remove_node c value r
        rebalance (update_height (.node x l r' h))
    | some .eq =>
      match l, r with
      | .nil, .nil => some .nil
      | _, .nil => some l
      | .nil, _ => some r
      | _, _ => do
          let p ← detach_min r
          rebalance (update_height (.node p.1 l p.2 h))
    | none => some (.node x l r h)

end Avl

/-- The `AVLTree<T>` struct: root plus cached extremes. -/
structure AVLTree (α : Type) where
  root : ATree α
  min_value : Option α
  max_value : Option α
deriving DecidableEq, Repr

namespace Avl

variable {α : Type}

/-- `AVLTree::new`. -/
def new : AVLTree α := ⟨.nil, none, none⟩

/-- `AVLTree::refind_min`: walk the left spine. -/
def refind_min : ATree α → Option α
  | .nil => none
  | .node x .nil _ _ => some x
  | .node _ (.node y yl yr yh) _ _ => refind_min (.node y yl yr yh)

/-- `AVLTree::refind_max`: walk the right spine. -/
def refind_max : ATree α → Option α
  | .nil => none
  | .node x _ .nil _ => some x
  | .node _ _ (.node y yl yr yh) _ => refind_max (.node y yl yr yh)

/-- `AVLTree::insert`: recursive insert, then recompute both caches. -/
def insert (c : α → α → Option Ordering) (t : AVLTree α) (value : α) :
    Option (AVLTree α) := do
  let root' ← insert_rec c value t.root
  some ⟨root', refind_min root', refind_max root'⟩

/-- `AVLTree::remove`: recursive removal, then recompute both caches. -/
def remove (c : α → α → Option Ordering) (t : AVLTree α) (value : α) :
    Option (AVLTree α) := do
  let root' ← remove_node c value t.root
  some ⟨root', refind_min root', refind_max root'⟩

/-- The loop of `AVLTree::contains` (same logic as the BST). -/
def contains_go (c : α → α → Option Ordering) (value : α) : ATree α → Bool
  | .nil => false
  | .node x l r _ =>
    match c value x with
    | some .lt => contains_go c value l
    | some .gt => contains_go c value r
    | some .eq => true
    | none => false

/-- `AVLTree::contains`. -/
def contains (c : α → α → Option Ordering) (t : AVLTree α) (value : α) : Bool :=
  contains_go c value t.root

/-- `AVLTree::min`: the cached minimum. -/
def min (t : AVLTree α) : Option α := t.min_value

/-- `AVLTree::max`: the cached maximum. -/
def max (t : AVLTree α) : Option α := t.max_value

/-- Number of nodes of an AVL subtree (fuel for the breadth-first loops). -/
def asize : ATree α → Nat
  | .nil => 0
  | .node _ l r _ => 1 + asize l + asize r

/-- Children (skipping `None` slots) of every tree in the current level. -/
def level_children : List (ATree α) → List (ATree α)
  | [] => []
  | .nil :: rest => level_children rest
  | .node _ l r _ :: rest =>
      (match l with | .nil => [] | l => [l]) ++
      (match r with | .nil => [] | r => [r]) ++ level_children rest

/-- The level-counting loop of `AVLTree::height` (same as the BST). -/
def height_go : Nat → List (ATree α) → Nat
  | 0, _ => 0
  | _ + 1, [] => 0
  | fuel + 1, q@(_ :: _) =>
      let nxt := level_children q
      if nxt.isEmpty then 0 else 1 + height_go fuel nxt

/-- `AVLTree::height`. -/
def height (t : AVLTree α) : Nat :=
  match t.root with
  | .nil => 0
  | r => height_go (asize r) [r]

/-- Denotation of the iterative preorder walk of `AVLTree::pre_order`. -/
def pre_order_go : ATree α → List α
  | .nil => []
  | .node x l r _ => x :: (pre_order_go l ++ pre_order_go r)

/-- `AVLTree::pre_order`. -/
def pre_order (t : AVLTree α) : List α := pre_order_go t.root

/-- Denotation of the iterative inorder walk of `AVLTree::in_order`. -/
def in_order_go : ATree α → List α
  | .nil => []
  | .node x l r _ => in_order_go l ++ x :: in_order_go r

/-- `AVLTree::in_order`. -/
def in_order (t : AVLTree α) : List α := in_order_go t.root

/-- Denotation of the iterative postorder walk of `AVLTree::post_order`. -/
def post_order_go : ATree α → List α
  | .nil => []
  | .node x l r _ => post_order_go l ++ post_order_go r ++ [x]

/-- `AVLTree::post_order`. -/
def post_order (t : AVLTree α) : List α := post_order_go t.root

/-- The queue loop of `AVLTree::level_order`. -/
def level_order_go : Nat → List (ATree α) → List α
  | 0, _ => []
  | _ + 1, [] => []
  | fuel + 1, .nil :: q => level_order_go fuel q
  | fuel + 1, .node x l r _ :: q =>
      x :: level_order_go fuel
        (q ++ (match l with | .nil => [] | l => [l]) ++
              (match r with | .nil => [] | r => [r]))

/-- `AVLTree::level_order`. -/
def level_order (t : AVLTree α) : List α :=
  match t.root with
  | .nil => []
  | r => level_order_go (asize r) [r]

/-- `AVLTree::number_of_elements`. -/
def number_of_elements (t : AVLTree α) : Nat := (pre_order t).length

/-- The candidate-tracking loop of `AVLTree::ceil`. -/
def ceil_go (c : α → α → Option Ordering) (value : α) : ATree α → Option α → Option α
  | .nil, result => result
  | .node x l r _, result =>
    if c x value = some .eq then some x
    else if c x value = some .lt then ceil_go c value r result
    else ceil_go c value l (some x)

/-- `AVLTree::ceil`. -/
def ceil (c : α → α → Option Ordering) (t : AVLTree α) (value : α) : Option α :=
  match t.root with
  | .nil => none
  | r => ceil_go c value r none

/-- The candidate-tracking loop of `AVLTree::floor`. -/
def floor_go (c : α → α → Option Ordering) (value : α) : ATree α → Option α → Option α
  | .nil, result => result
  | .node x l r _, result =>
    if c x value = some .eq then some x
    else if c x value = some .gt then floor_go c value l result
    else floor_go c value r (some x)

/-- `AVLTree::floor`. -/
def floor (c : α → α → Option Ordering) (t : AVLTree α) (value : α) : Option α :=
  match t.root with
  | .nil => none
  | r => floor_go c value r none

/-- `AVLTree::is_balanced` (validation predicate from the module root):
every node's balance factor lies in `[-1, 1]`. -/
def is_balanced_go : ATree α → Bool
  | .nil => true
  | .node x l r h =>
      (balance_factor (.node x l r h)).natAbs ≤ 1 && is_balanced_go l && is_balanced_go r

/-- `AVLTree::is_balanced`. -/
def is_balanced (t : AVLTree α) : Bool := is_balanced_go t.root

end Avl

/-- Apply one operation to an `AVLTree Int`. -/
def avlStep (t : AVLTree Int) : Op → Option (AVLTree Int)
  | .ins v => Avl.insert icmp t v
  | .del v => Avl.remove icmp t v

/-- Run a sequence of operations from `AVLTree::new`. -/
def avlRun (ops : List Op) : Option (AVLTree Int) :=
  ops.foldl (fun acc op => acc.bind fun t => avlStep t op) (some Avl.new)

/-- Total runner for AVL operation sequences. -/
def avlRunD (ops : List Op) : AVLTree Int :=
  (avlRun ops).getD Avl.new

example : avlRun [.ins 0, .ins 1, .ins 2, .ins 3, .ins 4]
    = some ⟨.node 1 (.node 0 .nil .nil 1)
                   (.node 3 (.node 2 .nil .nil 1) (.node 4 .nil .nil 1) 2) 3,
            some 0, some 4⟩ := by decide

example : (avlRun [.ins 5, .ins 3, .ins 7, .ins 2, .ins 4, .ins 6, .ins 8, .del 7]).map
    (fun t => t.root)
    = some (.node 5 (.node 3 (.node 2 .nil .nil 1) (.node 4 .nil .nil 1) 2)
                   (.node 8 (.node 6 .nil .nil 1) .nil 2) 3) := by decide

example : Avl.pre_order (avlRunD [.ins 5, .ins 3, .ins 7, .ins 2, .ins 4, .ins 6, .ins 8])
    = [5, 3, 2, 4, 7, 6, 8] := by decide


/-! ## Left-leaning Red-Black tree: `src/red_black_tree` -/

/-- `Color`: every node is `red` or `black`. -/
inductive Color where
  | red
  | black
deriving DecidableEq, Repr

/-- `RBNode<T>`: value, children, color. -/
inductive RTree (α : Type) where
  | nil
  | node (value : α) (left : RTree α) (right : RTree α) (color : Color)
deriving DecidableEq, Repr

namespace Rbt

variable {α : Type}

/-- `RBNode::is_red_node`: a `None` child counts as black. -/
def is_red_node : RTree α → Bool
  | .nil => false
  | .node _ _ _ c => c = Color.red

/-- Left child of an optional node (`None` for `None`). -/
def left_of : RTree α → RTree α
  | .nil => .nil
  | .node _ l _ _ => l

/-- Right child of an optional node (`None` for `None`). -/
def right_of : RTree α → RTree α
  | .nil => .nil
  | .node _ _ r _ => r

/-- `RBNode::rotate_left`: the `expect` on the right child is the `none`
branch; the promoted node takes the old root's color and the demoted root
becomes red. -/
def rotate_left : RTree α → Option (RTree α)
  | .node v l (.node rv rl rr _) c => some (.node rv (.node v l rl .red) rr c)
  | _ => none

/-- `RBNode::rotate_right`: mirror image. -/
def rotate_right : RTree α → Option (RTree α)
  | .node v (.node lv ll lr _) r c => some (.node lv ll (.node v lr r .red) c)
  | _ => none

/-- Invert one color. -/
def flip : Color → Color
  | .red => .black
  | .black => .red

/-- Invert only the root color of an optional node. -/
def flip_node_color : RTree α → RTree α
  | .nil => .nil
  | .node v l r c => .node v l r (flip c)

/-- `RBNode::flip_colors`: invert this node's color and both children's. -/
def flip_colors : RTree α → RTree α
  | .nil => .nil
  | .node v l r c => .node v (flip_node_color l) (flip_node_color r) (flip c)

/-- `RedBlackTree::balance` (used by insert): rotate a lone red right child
to the left, rotate a red-left/red-left-left pair to the right, then split a
node with two red children by a color flip. -/
def balance (t : RTree α) : Option (RTree α) := do
  let t ← if is_red_node (right_of t) && !is_red_node (left_of t)
          then rotate_left t else some t
  let t ← if is_red_node (left_of t) && is_red_node (left_of (left_of t))
          then rotate_right t else some t
  if is_red_node (left_of t) && is_red_node (right_of t)
  then some (flip_colors t) else some t

/-- `RedBlackTree::insert_recursive`: descend; create a red leaf at an empty
slot; `balance` on the way back up.  Duplicate or incomparable values return
the node unchanged, skipping the balance of that node. -/
def insert_recursive (c : α → α → Option Ordering) (value : α) :
    RTree α → Option (RTree α)
  | .nil => some (.node value .nil .nil .red)
  | .node x l r col =>
    match c value x with
    | some .lt => do
        let l' ← insert_recursive c value l
        balance (.node x l' r col)
    | some .gt => do
        let r' ← insert_recursive c value r
        balance (.node x l r' col)
    | _ => some (.node x l r col)

/-- Recolor the root black (`root.color = Color::Black`). -/
def set_root_black : RTree α → RTree α
  | .nil => .nil
  | .node v l r _ => .node v l r .black

/-- `RedBlackTree::find_min`: the `unwrap` on an empty subtree is the `none`
branch; otherwise walk the left spine. -/
def find_min : RTree α → Option α
  | .nil => none
  | .node x .nil _ _ => some x
  | .node _ (.node y yl yr yc) _ _ => find_min (.node y yl yr yc)

/-- `RedBlackTree::move_red_left`: flip colors; if the right child's left
child is red, rotate the right child right, rotate this node left and flip
colors again. -/
def move_red_left (t : RTree α) : Option (RTree α) :=
  let t1 := flip_colors t
  if is_red_node (left_of (right_of t1)) then
    match t1 with
    | .node v l r c => do
        let r' ← rotate_right r
        let t2 ← rotate_left (.node v l r' c)
        some (flip_colors t2)
    | .nil => some .nil
  else some t1

/-- `RedBlackTree::move_red_right`: flip colors; if the left child's left
child is red, rotate right and flip colors again. -/
def move_red_right (t : RTree α) : Option (RTree α) :=
  let t1 := flip_colors t
  if is_red_node (left_of (left_of t1)) then do
    let t2 ← rotate_right t1
    some (flip_colors t2)
  else some t1

/-- `RedBlackTree::fix_up`: the same three cases as `balance`, applied on
every return path of the deletion. -/
def fix_up (t : RTree α) : Option (RTree α) := do
  let t ← if is_red_node (right_of t) then rotate_left t else some t
  let t ← if is_red_node (left_of t) && is_red_node (left_of (left_of t))
          then rotate_right t else some t
  if is_red_node (left_of t) && is_red_node (right_of t)
  then some (flip_colors t) else some t

/-- Number of nodes of a Red-Black subtree. -/
def rsize : RTree α → Nat
  | .nil => 0
  | .node _ l r _ => 1 + rsize l + rsize r

/-- `RedBlackTree::remove_min`: push redness down the left spine
(`move_red_left` when neither the left child nor its left child is red),
drop the leftmost node, `fix_up` on the way back.  The recursion of the Rust
source is bounded here by a fuel counter; the caller passes the subtree
size, which always suffices (each recursive call descends into a strictly
smaller subtree). -/
def remove_min : Nat → RTree α → Option (RTree α)
  | _, .nil => some .nil
  | 0, .node _ _ _ _ => none
  | fuel + 1, .node x l r col =>
    match l with
    | .nil => some .nil
    | _ => do
        let t ← if !is_red_node l && !is_red_node (left_of l)
                then move_red_left (.node x l r col) else some (.node x l r col)
        match t with
        | .nil => none
        | .node x' l' r' col' => do
            let l'' ← remove_min fuel l'
            fix_up (.node x' l'' r' col')

/-- `RedBlackTree::remove_recursive`: Sedgewick-style left-leaning deletion.
Descending left, call `move_red_left` when neither the left child nor its
left child is red.  In the greater-or-equal-or-incomparable branch: rotate
right if the left child is red; a matching node with no right child is
dropped; otherwise `move_red_right` if needed, then either splice the
minimum of the right subtree into this node (`find_min` + `remove_min`) on a
match, or keep descending right; `fix_up` on every return path.  The Rust
recursion is bounded here by a fuel counter; the caller passes the subtree
size, which always suffices. -/
def remove_recursive (c : α → α → Option Ordering) (value : α) :
    Nat → RTree α → Option (RTree α)
  | _, .nil => some .nil
  | 0, .node _ _ _ _ => none
  | fuel + 1, .node x l r col =>
    match c value x with
    | some .lt =>
      match l with
      | .nil => fix_up (.node x l r col)
      | _ => do
          let t ← if !is_red_node l && !is_red_node (left_of l)
                  then move_red_left (.node x l r col) else some (.node x l r col)
          match t with
          | .nil => none
          | .node x' l' r' col' => do
              let l'' ← remove_recursive c value fuel l'
              fix_up (.node x' l'' r' col')
    | _ => do
        let t ← if is_red_node l then rotate_right (.node x l r col)
                else some (.node x l r col)
        match t with
        | .nil => none
        | .node x1 l1 r1 col1 =>
          match r1 with
          | .nil =>
              if c value x1 = some .eq then some .nil
              else fix_up (.node x1 l1 .nil col1)
          | _ => do
              let t2 ← if !is_red_node r1 && !is_red_node (left_of r1)
                       then move_red_right (.node x1 l1 r1 col1)
                       else some (.node x1 l1 r1 col1)
              match t2 with
              | .nil => none
              | .node x2 l2 r2 col2 =>
                if c value x2 = some .eq then do
                    let mv ← find_min r2
                    let r3 ← remove_min (rsize r2) r2
                    fix_up (.node mv l2 r3 col2)
                else do
                    let r3 ← remove_recursive c value fuel r2
                    fix_up (.node x2 l2 r3 col2)

end Rbt

/-- The `RedBlackTree<T>` struct: root plus cached extremes. -/
structure RedBlackTree (α : Type) where
  root : RTree α
  min_value : Option α
  max_value : Option α
deriving DecidableEq, Repr

namespace Rbt

variable {α : Type}

/-- `RedBlackTree::new`. -/
def new : RedBlackTree α := ⟨.nil, none, none⟩

/-- `RedBlackTree::insert`: update the caches exactly as the BST does
(mismatched caches are `unreachable!()`), run the recursive insert, then
force the root black. -/
def insert (c : α → α → Option Ordering) (t : RedBlackTree α) (value : α) :
    Option (RedBlackTree α) :=
  match t.min_value, t.max_value with
  | none, none => do
      let root' ← insert_recursive c value t.root
      some ⟨set_root_black root', some value, some value⟩
  | some mn, some mx => do
      let root' ← insert_recursive c value t.root
      some ⟨set_root_black root',
            if c value mn = some .lt then some value else some mn,
            if c value mx = some .gt then some value else some mx⟩
  | _, _ => none

/-- `RedBlackTree::refind_min`: walk the left spine. -/
def refind_min : RTree α → Option α
  | .nil => none
  | .node x .nil _ _ => some x
  | .node _ (.node y yl yr yc) _ _ => refind_min (.node y yl yr yc)

/-- `RedBlackTree::refind_max`: walk the right spine. -/
def refind_max : RTree α → Option α
  | .nil => none
  | .node x _ .nil _ => some x
  | .node _ _ (.node y yl yr yc) _ => refind_max (.node y yl yr yc)

/-- `RedBlackTree::remove`: no-op on an empty tree; otherwise run the
recursive removal, force the root black, and recompute both caches. -/
def remove (c : α → α → Option Ordering) (t : RedBlackTree α) (value : α) :
    Option (RedBlackTree α) :=
  match t.root with
  | .nil => some t
  | root => do
      let root' ← remove_recursive c value (rsize root) root
      let root2 := set_root_black root'
      some ⟨root2, refind_min root2, refind_max root2⟩

/-- The loop of `RedBlackTree::contains`. -/
def contains_go (c : α → α → Option Ordering) (value : α) : RTree α → Bool
  | .nil => false
  | .node x l r _ =>
    match c value x with
    | some .lt => contains_go c value l
    | some .gt => contains_go c value r
    | some .eq => true
    | none => false

/-- `RedBlackTree::contains`. -/
def contains (c : α → α → Option Ordering) (t : RedBlackTree α) (value : α) : Bool :=
  contains_go c value t.root

/-- `RedBlackTree::min`: the cached minimum. -/
def min (t : RedBlackTree α) : Option α := t.min_value

/-- `RedBlackTree::max`: the cached maximum. -/
def max (t : RedBlackTree α) : Option α := t.max_value

/-- Children (skipping `None` slots) of every tree in the current level. -/
def level_children : List (RTree α) → List (RTree α)
  | [] => []
  | .nil :: rest => level_children rest
  | .node _ l r _ :: rest =>
      (match l with | .nil => [] | l => [l]) ++
      (match r with | .nil => [] | r => [r]) ++ level_children rest

/-- The level-counting loop of `RedBlackTree::height`. -/
def height_go : Nat → List (RTree α) → Nat
  | 0, _ => 0
  | _ + 1, [] => 0
  | fuel + 1, q@(_ :: _) =>
      let nxt := level_children q
      if nxt.isEmpty then 0 else 1 + height_go fuel nxt

/-- `RedBlackTree::height`. -/
def height (t : RedBlackTree α) : Nat :=
  match t.root with
  | .nil => 0
  | r => height_go (rsize r) [r]

/-- Denotation of the iterative preorder walk of `RedBlackTree::pre_order`. -/
def pre_order_go : RTree α → List α
  | .nil => []
  | .node x l r _ => x :: (pre_order_go l ++ pre_order_go r)

/-- `RedBlackTree::pre_order`. -/
def pre_order (t : RedBlackTree α) : List α := pre_order_go t.root

/-- Denotation of the iterative inorder walk of `RedBlackTree::in_order`. -/
def in_order_go : RTree α → List α
  | .nil => []
  | .node x l r _ => in_order_go l ++ x :: in_order_go r

/-- `RedBlackTree::in_order`. -/
def in_order (t : RedBlackTree α) : List α := in_order_go t.root

/-- Denotation of the iterative postorder walk of `RedBlackTree::post_order`. -/
def post_order_go : RTree α → List α
  | .nil => []
  | .node x l r _ => post_order_go l ++ post_order_go r ++ [x]

/-- `RedBlackTree::post_order`. -/
def post_order (t : RedBlackTree α) : List α := post_order_go t.root

/-- The queue loop of `RedBlackTree::level_order`. -/
def level_order_go : Nat → List (RTree α) → List α
  | 0, _ => []
  | _ + 1, [] => []
  | fuel + 1, .nil :: q => level_order_go fuel q
  | fuel + 1, .node x l r _ :: q =>
      x :: level_order_go fuel
        (q ++ (match l with | .nil => [] | l => [l]) ++
              (match r with | .nil => [] | r => [r]))

/-- `RedBlackTree::level_order`. -/
def level_order (t : RedBlackTree α) : List α :=
  match t.root with
  | .nil => []
  | r => level_order_go (rsize r) [r]

/-- `RedBlackTree::number_of_elements`. -/
def number_of_elements (t : RedBlackTree α) : Nat := (pre_order t).length

/-- The candidate-tracking loop of `RedBlackTree::ceil`. -/
def ceil_go (c : α → α → Option Ordering) (value : α) : RTree α → Option α → Option α
  | .nil, result => result
  | .node x l r _, result =>
    if c x value = some .eq then some x
    else if c x value = some .lt then ceil_go c value r result
    else ceil_go c value l (some x)

/-- `RedBlackTree::ceil`. -/
def ceil (c : α → α → Option Ordering) (t : RedBlackTree α) (value : α) : Option α :=
  match t.root with
  | .nil => none
  | r => ceil_go c value r none

/-- The candidate-tracking loop of `RedBlackTree::floor`. -/
def floor_go (c : α → α → Option Ordering) (value : α) : RTree α → Option α → Option α
  | .nil, result => result
  | .node x l r _, result =>
    if c x value = some .eq then some x
    else if c x value = some .gt then floor_go c value l result
    else floor_go c value r (some x)

/-- `RedBlackTree::floor`. -/
def floor (c : α → α → Option Ordering) (t : RedBlackTree α) (value : α) : Option α :=
  match t.root with
  | .nil => none
  | r => floor_go c value r none

/-- `RedBlackTree::check_red_property`: no red node has a red child. -/
def check_red_property : RTree α → Bool
  | .nil => true
  | .node _ l r c =>
      (if c = Color.red then !(is_red_node l || is_red_node r) else true)
      && check_red_property l && check_red_property r

/-- `RedBlackTree::check_black_height`: `some` of the black height when all
paths agree (`None` children count as black height 1), else `none`. -/
def check_black_height : RTree α → Option Nat
  | .nil => some 1
  | .node _ l r c => do
      let lh ← check_black_height l
      let rh ← check_black_height r
      if lh ≠ rh then none
      else if c = Color.black then some (lh + 1) else some lh

/-- `RedBlackTree::is_valid_red_black_tree`: root black (when present), no
red-red edge, uniform black height. -/
def is_valid_red_black_tree (t : RedBlackTree α) : Bool :=
  (match t.root with
   | .node _ _ _ .red => false
   | _ => true)
  && check_red_property t.root && (check_black_height t.root).isSome

end Rbt

/-- Apply one operation to a `RedBlackTree Int`. -/
def rbStep (t : RedBlackTree Int) : Op → Option (RedBlackTree Int)
  | .ins v => Rbt.insert icmp t v
  | .del v => Rbt.remove icmp t v

/-- Run a sequence of operations from `RedBlackTree::new`. -/
def rbRun (ops : List Op) : Option (RedBlackTree Int) :=
  ops.foldl (fun acc op => acc.bind fun t => rbStep t op) (some Rbt.new)

/-- Total runner for Red-Black operation sequences. -/
def rbRunD (ops : List Op) : RedBlackTree Int :=
  (rbRun ops).getD Rbt.new

example : (rbRun [.ins 1, .ins 2, .ins 3, .ins 4]).map (fun t => t.root)
    = some (.node 2 (.node 1 .nil .nil .black)
                   (.node 4 (.node 3 .nil .nil .red) .nil .black) .black) := by decide

example : rbRun [.ins 1, .ins 2, .ins 3, .ins 4, .del 2]
    = some ⟨.node 3 (.node 1 .nil .nil .black) (.node 4 .nil .nil .black) .black,
            some 1, some 4⟩ := by decide

example : Rbt.is_valid_red_black_tree (rbRunD [.ins 1, .ins 2, .ins 3, .ins 4, .del 2])
    = true := by decide



/-! ## List-level model of the stored key set

The in-order traversal of every tree is characterized below as a plain
sorted list; all order, membership and cache reasoning happens on lists. -/

/-- Insert into a sorted duplicate-free list, skipping values already
present (the list meaning of a BST insert). -/
def lins (v : Int) : List Int → List Int
  | [] => [v]
  | x :: xs => if v < x then v :: x :: xs else if v = x then x :: xs else x :: lins v xs

/-- Remove every occurrence of a value (the list meaning of a BST delete on
duplicate-free lists). -/
def ldel (v : Int) (xs : List Int) : List Int := xs.filter (fun a => a != v)

theorem lins_ne_nil (v : Int) (xs : List Int) : lins v xs ≠ [] := by
  cases xs with
  | nil => simp [lins]
  | cons x xs =>
      simp only [lins]
      split
      · simp
      · split <;> simp

theorem mem_lins {a v : Int} {xs : List Int} : a ∈ lins v xs ↔ a = v ∨ a ∈ xs := by
  induction xs with
  | nil => simp [lins]
  | cons x xs ih =>
      simp only [lins]
      split
      · simp only [List.mem_cons]
      · split
        · next hvx hve =>
            subst hve
            simp only [List.mem_cons]
            tauto
        · simp only [List.mem_cons, ih]
          tauto

theorem pairwise_lins (v : Int) {xs : List Int}
    (h : List.Pairwise (· < ·) xs) : List.Pairwise (· < ·) (lins v xs) := by
  induction xs with
  | nil => simp [lins]
  | cons x xs ih =>
      rcases List.pairwise_cons.mp h with ⟨hx, hxs⟩
      simp only [lins]
      split
      · next hvx =>
          refine List.pairwise_cons.mpr ⟨?_, h⟩
          intro b hb
          rcases List.mem_cons.mp hb with rfl | hb
          · exact hvx
          · exact lt_trans hvx (hx b hb)
      · next hvx =>
          split
          · exact h
          · next hve =>
              have hxv : x < v := by omega
              refine List.pairwise_cons.mpr ⟨?_, ih hxs⟩
              intro b hb
              rcases mem_lins.mp hb with rfl | hb
              · exact hxv
              · exact hx b hb

theorem lins_append_lt (v x : Int) (l₁ l₂ : List Int) (hvx : v < x) :
    lins v (l₁ ++ x :: l₂) = lins v l₁ ++ x :: l₂ := by
  induction l₁ with
  | nil => simp [lins, hvx]
  | cons a l₁ ih =>
      simp only [List.cons_append, lins]
      split
      · simp
      · split
        · simp
        · simp [ih]

theorem lins_append_gt (v x : Int) (l₁ l₂ : List Int)
    (h₁ : ∀ a ∈ l₁, a < v) (hvx : x < v) :
    lins v (l₁ ++ x :: l₂) = l₁ ++ x :: lins v l₂ := by
  induction l₁ with
  | nil =>
      have h1 : ¬ v < x := by omega
      have h2 : ¬ v = x := by omega
      simp [lins, h1, h2]
  | cons a l₁ ih =>
      have hav : a < v := h₁ a (by simp)
      have h1 : ¬ v < a := by omega
      have h2 : ¬ v = a := by omega
      simp only [List.cons_append, lins, h1, h2, if_false, List.append_eq]
      rw [ih (fun b hb => h₁ b (by simp [hb]))]

theorem lins_append_eq (v : Int) (l₁ l₂ : List Int) (h₁ : ∀ a ∈ l₁, a < v) :
    lins v (l₁ ++ v :: l₂) = l₁ ++ v :: l₂ := by
  induction l₁ with
  | nil => simp [lins]
  | cons a l₁ ih =>
      have hav : a < v := h₁ a (by simp)
      have h1 : ¬ v < a := by omega
      have h2 : ¬ v = a := by omega
      simp only [List.cons_append, lins, h1, h2, if_false, List.append_eq]
      rw [ih (fun b hb => h₁ b (by simp [hb]))]

theorem head?_lins (v : Int) (xs : List Int) :
    (lins v xs).head? = some (match xs with
      | [] => v
      | x :: _ => if v < x then v else x) := by
  cases xs with
  | nil => simp [lins]
  | cons x xs =>
      simp only [lins]
      split
      · next h => simp [h]
      · next h =>
          split
          · next he => simp [he, if_neg h]
          · simp [if_neg h]

theorem getLast?_lins (v : Int) {xs : List Int} (h : List.Pairwise (· < ·) xs) :
    (lins v xs).getLast? = some (match xs.getLast? with
      | none => v
      | some m => if m < v then v else m) := by
  induction xs with
  | nil => simp [lins]
  | cons x xs ih =>
      rcases List.pairwise_cons.mp h with ⟨hx, hxs⟩
      have hmge : ∀ m, (x :: xs).getLast? = some m → x ≤ m := by
        intro m hm
        rcases List.mem_getLast?_eq_getLast hm with ⟨hne, rfl⟩
        rcases List.mem_cons.mp (List.getLast_mem hne) with h' | h'
        · omega
        · exact le_of_lt (hx _ h')
      simp only [lins]
      split
      · next hvx =>
          rw [List.getLast?_cons_cons]
          cases hm : (x :: xs).getLast? with
          | none => simp at hm
          | some m =>
              have : ¬ m < v := by have := hmge m hm; omega
              simp [this]
      · next hvx =>
          split
          · next hve =>
              subst hve
              cases hm : (v :: xs).getLast? with
              | none => simp at hm
              | some m =>
                  have : ¬ m < v := by have := hmge m hm; omega
                  simp [hm, this]
          · next hve =>
              have hxv : x < v := by omega
              have hlast : (x :: lins v xs).getLast? = (lins v xs).getLast? := by
                have hcons : x :: lins v xs = [x] ++ lins v xs := rfl
                rw [hcons, List.getLast?_append_of_ne_nil _ (lins_ne_nil v xs)]
              rw [hlast, ih hxs]
              cases xs with
              | nil => simp [hxv]
              | cons y ys => rw [List.getLast?_cons_cons]

theorem mem_ldel {a v : Int} {xs : List Int} : a ∈ ldel v xs ↔ a ∈ xs ∧ a ≠ v := by
  simp [ldel, List.mem_filter]

theorem pairwise_ldel (v : Int) {xs : List Int}
    (h : List.Pairwise (· < ·) xs) : List.Pairwise (· < ·) (ldel v xs) :=
  List.Pairwise.filter _ h

theorem ldel_append (v : Int) (l₁ l₂ : List Int) :
    ldel v (l₁ ++ l₂) = ldel v l₁ ++ ldel v l₂ := by
  simp [ldel, List.filter_append]

theorem ldel_of_forall_ne {v : Int} {xs : List Int} (h : ∀ a ∈ xs, a ≠ v) :
    ldel v xs = xs := by
  induction xs with
  | nil => rfl
  | cons x xs ih =>
      have hx : x ≠ v := h x (by simp)
      simp only [ldel, List.filter_cons]
      simp only [bne_iff_ne, ne_eq, hx, not_false_eq_true, if_true]
      exact congrArg (x :: ·) (ih (fun a ha => h a (by simp [ha])))

theorem ldel_cons_self {v : Int} {xs : List Int} (h : ∀ a ∈ xs, a ≠ v) :
    ldel v (v :: xs) = ldel v xs := by
  simp [ldel, List.filter_cons]

theorem ldel_cons_ne {v x : Int} (xs : List Int) (h : x ≠ v) :
    ldel v (x :: xs) = x :: ldel v xs := by
  simp [ldel, List.filter_cons, h]


/-! ## BST correctness: the in-order list picture -/

theorem icmp_of_lt {a b : Int} (h : a < b) : icmp a b = some .lt := by
  simp [icmp, h]

theorem icmp_of_eq {a b : Int} (h : a = b) : icmp a b = some .eq := by
  subst h
  simp [icmp, lt_irrefl]

theorem icmp_of_gt {a b : Int} (h : b < a) : icmp a b = some .gt := by
  have h1 : ¬ a < b := by omega
  have h2 : ¬ a = b := by omega
  simp [icmp, h1, h2]

theorem icmp_lt_iff {a b : Int} : icmp a b = some .lt ↔ a < b := by
  constructor
  · intro h
    rcases lt_trichotomy a b with h' | h' | h'
    · exact h'
    · rw [icmp_of_eq h'] at h; simp at h
    · rw [icmp_of_gt h'] at h; simp at h
  · exact icmp_of_lt

theorem icmp_gt_iff {a b : Int} : icmp a b = some .gt ↔ b < a := by
  constructor
  · intro h
    rcases lt_trichotomy a b with h' | h' | h'
    · rw [icmp_of_lt h'] at h; simp at h
    · rw [icmp_of_eq h'] at h; simp at h
    · exact h'
  · exact icmp_of_gt

theorem icmp_eq_iff {a b : Int} : icmp a b = some .eq ↔ a = b := by
  constructor
  · intro h
    rcases lt_trichotomy a b with h' | h' | h'
    · rw [icmp_of_lt h'] at h; simp at h
    · exact h'
    · rw [icmp_of_gt h'] at h; simp at h
  · exact icmp_of_eq

namespace Bst

theorem io_node (x : α) (l r : BTree α) :
    in_order_go (.node x l r) = in_order_go l ++ x :: in_order_go r := rfl

theorem io_ne_nil (x : α) (l r : BTree α) : in_order_go (.node x l r) ≠ [] := by
  simp [in_order_go]

theorem refind_min_eq_head : ∀ (t : BTree α), refind_min t = (in_order_go t).head?
  | .nil => rfl
  | .node x .nil r => by simp [refind_min, in_order_go]
  | .node x (.node y yl yr) r => by
      show refind_min (.node y yl yr)
          = (in_order_go (.node y yl yr) ++ x :: in_order_go r).head?
      rw [refind_min_eq_head (.node y yl yr),
          List.head?_append_of_ne_nil _ (io_ne_nil y yl yr)]

theorem refind_max_eq_getLast : ∀ (t : BTree α), refind_max t = (in_order_go t).getLast?
  | .nil => rfl
  | .node x l .nil => by
      show some x = (in_order_go l ++ x :: ([] : List α)).getLast?
      rw [List.getLast?_append_cons]
      rfl
  | .node x l (.node y yl yr) => by
      show refind_max (.node y yl yr)
          = (in_order_go l ++ x :: in_order_go (.node y yl yr)).getLast?
      rw [refind_max_eq_getLast (.node y yl yr), List.getLast?_append_cons,
          show (x :: in_order_go (.node y yl yr))
            = [x] ++ in_order_go (.node y yl yr) from rfl,
          List.getLast?_append_of_ne_nil _ (io_ne_nil y yl yr)]

/-- The order invariant as stated by the spec: the in-order key sequence is
strictly increasing. -/
def SortedKeys (t : BTree Int) : Prop := List.Pairwise (· < ·) (in_order_go t)

theorem sortedKeys_node {x : Int} {l r : BTree Int} :
    SortedKeys (.node x l r) ↔
      SortedKeys l ∧ SortedKeys r ∧ (∀ a ∈ in_order_go l, a < x) ∧
        (∀ b ∈ in_order_go r, x < b) := by
  unfold SortedKeys
  rw [io_node, List.pairwise_append]
  simp only [List.pairwise_cons, List.mem_cons]
  constructor
  · rintro ⟨hl, ⟨hxr, hr⟩, hcross⟩
    exact ⟨hl, hr, fun a ha => hcross a ha x (Or.inl rfl), hxr⟩
  · rintro ⟨hl, hr, hlx, hxr⟩
    refine ⟨hl, ⟨hxr, hr⟩, ?_⟩
    intro a ha b hb
    rcases hb with rfl | hb
    · exact hlx a ha
    · exact lt_trans (hlx a ha) (hxr b hb)

theorem io_insert_go {t : BTree Int} (v : Int) (h : SortedKeys t) :
    in_order_go (insert_go icmp v t) = lins v (in_order_go t) := by
  induction t with
  | nil => simp [insert_go, in_order_go, lins]
  | node x l r ihl ihr =>
      rcases sortedKeys_node.mp h with ⟨hl, hr, hlx, hxr⟩
      rcases lt_trichotomy v x with hvx | hvx | hvx
      · rw [show insert_go icmp v (.node x l r) = .node x (insert_go icmp v l) r by
            simp [insert_go, icmp_of_lt hvx]]
        rw [io_node, io_node, ihl hl, lins_append_lt _ _ _ _ hvx]
      · subst hvx
        rw [show insert_go icmp v (.node v l r) = .node v l r by
            simp [insert_go, icmp_of_eq rfl]]
        rw [io_node, lins_append_eq _ _ _ hlx]
      · rw [show insert_go icmp v (.node x l r) = .node x l (insert_go icmp v r) by
            simp [insert_go, icmp_of_gt hvx]]
        rw [io_node, io_node, ihr hr,
            lins_append_gt _ _ _ _ (fun a ha => lt_trans (hlx a ha) hvx) hvx]

theorem padlm_spec (l : BTree α) : ∀ (x : α) (r : BTree α),
    ∃ m t', pass_and_detach_local_minimum (.node x l r) = (some m, t') ∧
      in_order_go (.node x l r) = m :: in_order_go t' := by
  induction l with
  | nil => intro x r; exact ⟨x, r, rfl, rfl⟩
  | node y yl yr ihl ihr =>
      intro x r
      rcases ihl y yr with ⟨m, t', hpad, hio⟩
      refine ⟨m, .node x t' r, ?_, ?_⟩
      · show ((pass_and_detach_local_minimum (.node y yl yr)).1,
              BTree.node x (pass_and_detach_local_minimum (.node y yl yr)).2 r)
            = (some m, BTree.node x t' r)
        rw [hpad]
      · show in_order_go (.node y yl yr) ++ x :: in_order_go r
            = m :: (in_order_go t' ++ x :: in_order_go r)
        rw [hio, List.cons_append]

theorem remove_go_spec {t : BTree Int} (v : Int) (h : SortedKeys t) :
    ∃ t', remove_go icmp v t = some t' ∧
      in_order_go t' = ldel v (in_order_go t) := by
  induction t with
  | nil => exact ⟨.nil, rfl, rfl⟩
  | node x l r ihl ihr =>
      rcases sortedKeys_node.mp h with ⟨hl, hr, hlx, hxr⟩
      rcases lt_trichotomy v x with hvx | hvx | hvx
      · rcases ihl hl with ⟨l', hrem, hio⟩
        refine ⟨.node x l' r, ?_, ?_⟩
        · simp only [remove_go, icmp_of_lt hvx, hrem, Option.map_some']
        · show in_order_go l' ++ x :: in_order_go r
              = ldel v (in_order_go l ++ x :: in_order_go r)
          rw [hio, ldel_append,
              ldel_of_forall_ne (fun a (ha : a ∈ x :: in_order_go r) =>
                show a ≠ v by
                  rcases List.mem_cons.mp ha with rfl | ha'
                  · omega
                  · have := hxr a ha'; omega)]
      · subst hvx
        have hldel : ldel v (in_order_go l ++ v :: in_order_go r)
            = in_order_go l ++ in_order_go r := by
          rw [ldel_append,
              ldel_cons_self (fun b (hb : b ∈ in_order_go r) =>
                show b ≠ v by have := hxr b hb; omega),
              ldel_of_forall_ne (fun a (ha : a ∈ in_order_go l) =>
                show a ≠ v by have := hlx a ha; omega),
              ldel_of_forall_ne (fun b (hb : b ∈ in_order_go r) =>
                show b ≠ v by have := hxr b hb; omega)]
        cases l with
        | nil =>
            cases r with
            | nil =>
                refine ⟨.nil, ?_, ?_⟩
                · simp only [remove_go, icmp_of_eq rfl]
                · show ([] : List Int) = ldel v (in_order_go (.nil : BTree Int) ++ v :: in_order_go (.nil : BTree Int))
                  rw [hldel]
                  rfl
            | node ry rl rr =>
                refine ⟨.node ry rl rr, ?_, ?_⟩
                · simp only [remove_go, icmp_of_eq rfl]
                · show in_order_go (BTree.node ry rl rr)
                      = ldel v (in_order_go (.nil : BTree Int) ++ v :: in_order_go (.node ry rl rr))
                  rw [hldel]
                  rfl
        | node ly ll lr =>
            cases r with
            | nil =>
                refine ⟨.node ly ll lr, ?_, ?_⟩
                · simp only [remove_go, icmp_of_eq rfl]
                · show in_order_go (BTree.node ly ll lr)
                      = ldel v (in_order_go (.node ly ll lr) ++ v :: in_order_go (.nil : BTree Int))
                  rw [hldel]
                  show in_order_go (BTree.node ly ll lr)
                      = in_order_go (.node ly ll lr) ++ []
                  rw [List.append_nil]
            | node ry rl rr =>
                rcases padlm_spec rl ry rr with ⟨m, r', hpad, hior⟩
                refine ⟨.node m (.node ly ll lr) r', ?_, ?_⟩
                · simp only [remove_go, icmp_of_eq rfl]
                  rw [hpad]
                · show in_order_go (.node ly ll lr) ++ m :: in_order_go r'
                      = ldel v (in_order_go (.node ly ll lr) ++ v :: in_order_go (.node ry rl rr))
                  rw [hldel, hior]
      · rcases ihr hr with ⟨r', hrem, hio⟩
        refine ⟨.node x l r', ?_, ?_⟩
        · simp only [remove_go, icmp_of_gt hvx, hrem, Option.map_some']
        · show in_order_go l ++ x :: in_order_go r'
              = ldel v (in_order_go l ++ x :: in_order_go r)
          rw [hio, ldel_append, ldel_cons_ne _ (show x ≠ v by omega),
              ldel_of_forall_ne (fun a (ha : a ∈ in_order_go l) =>
                show a ≠ v by have := hlx a ha; omega)]

theorem contains_go_iff {t : BTree Int} (v : Int) (h : SortedKeys t) :
    contains_go icmp v t = true ↔ v ∈ in_order_go t := by
  induction t with
  | nil => simp [contains_go, in_order_go]
  | node x l r ihl ihr =>
      rcases sortedKeys_node.mp h with ⟨hl, hr, hlx, hxr⟩
      rw [io_node]
      rcases lt_trichotomy v x with hvx | hvx | hvx
      · rw [show contains_go icmp v (.node x l r) = contains_go icmp v l by
            simp [contains_go, icmp_of_lt hvx]]
        rw [ihl hl]
        simp only [List.mem_append, List.mem_cons]
        constructor
        · exact fun h' => Or.inl h'
        · rintro (h' | rfl | h')
          · exact h'
          · omega
          · have := hxr v h'; omega
      · subst hvx
        rw [show contains_go icmp v (.node v l r) = true by
            simp [contains_go, icmp_of_eq rfl]]
        simp
      · rw [show contains_go icmp v (.node x l r) = contains_go icmp v r by
            simp [contains_go, icmp_of_gt hvx]]
        rw [ihr hr]
        simp only [List.mem_append, List.mem_cons]
        constructor
        · exact fun h' => Or.inr (Or.inr h')
        · rintro (h' | rfl | h')
          · have := hlx v h'; omega
          · omega
          · exact h'

end Bst


/-! ## Operation sequences and their list-level meaning -/

/-- The list-level meaning of an operation sequence applied to a key list. -/
def opsModel (xs : List Int) : List Op → List Int
  | [] => xs
  | .ins v :: ops => opsModel (lins v xs) ops
  | .del v :: ops => opsModel (ldel v xs) ops

/-- The key set denoted by an operation sequence starting from an empty
container: exactly the values inserted and not subsequently removed. -/
def keysModel (ops : List Op) : List Int := opsModel [] ops

theorem pairwise_opsModel (ops : List Op) {xs : List Int}
    (h : List.Pairwise (· < ·) xs) : List.Pairwise (· < ·) (opsModel xs ops) := by
  induction ops generalizing xs with
  | nil => exact h
  | cons op ops ih =>
      cases op with
      | ins v => exact ih (pairwise_lins v h)
      | del v => exact ih (pairwise_ldel v h)

theorem pairwise_keysModel (ops : List Op) :
    List.Pairwise (· < ·) (keysModel ops) :=
  pairwise_opsModel ops List.Pairwise.nil

namespace Bst

/-- All facts maintained by the public operations on a reachable
`BinarySearchTree`: sorted keys, and both caches equal to a fresh re-scan of
the spines. -/
structure Inv (t : BinarySearchTree Int) : Prop where
  sorted : SortedKeys t.root
  minc : t.min_value = refind_min t.root
  maxc : t.max_value = refind_max t.root

theorem inv_new : Inv (new : BinarySearchTree Int) := ⟨List.Pairwise.nil, rfl, rfl⟩

theorem insert_step {t : BinarySearchTree Int} (hInv : Inv t) (v : Int) :
    ∃ t', insert icmp t v = some t' ∧ Inv t' ∧
      in_order_go t'.root = lins v (in_order_go t.root) := by
  obtain ⟨root, mnv, mxv⟩ := t
  obtain ⟨hs, hmn, hmx⟩ := hInv
  simp only at hs hmn hmx
  have hio := io_insert_go v hs
  have hs' : SortedKeys (insert_go icmp v root) := by
    unfold SortedKeys
    rw [hio]
    exact pairwise_lins v hs
  cases root with
  | nil =>
      have hmn' : mnv = none := hmn
      have hmx' : mxv = none := hmx
      subst hmn' hmx'
      refine ⟨⟨.node v .nil .nil, some v, some v⟩, ?_, ⟨?_, rfl, rfl⟩, ?_⟩
      · rfl
      · exact hs'
      · rfl
  | node rx rl rr =>
      have hne := io_ne_nil rx rl rr
      obtain ⟨a, xs, hio_eq⟩ : ∃ a xs, in_order_go (BTree.node rx rl rr) = a :: xs := by
        cases hh : in_order_go (BTree.node rx rl rr) with
        | nil => exact absurd hh hne
        | cons a xs => exact ⟨a, xs, rfl⟩
      have hmn' : mnv = some a := by
        rw [hmn, refind_min_eq_head, hio_eq]
        rfl
      obtain ⟨m, hlast⟩ : ∃ m, (in_order_go (BTree.node rx rl rr)).getLast? = some m := by
        rw [hio_eq]
        cases hg : (a :: xs).getLast? with
        | none => simp at hg
        | some m => exact ⟨m, rfl⟩
      have hmx' : mxv = some m := by
        rw [hmx, refind_max_eq_getLast, hlast]
      subst hmn' hmx'
      refine ⟨⟨insert_go icmp v (.node rx rl rr),
               if icmp v a = some .lt then some v else some a,
               if icmp v m = some .gt then some v else some m⟩, ?_, ⟨hs', ?_, ?_⟩, hio⟩
      · simp only [insert]
      · show (if icmp v a = some .lt then some v else some a)
            = refind_min (insert_go icmp v (BTree.node rx rl rr))
        rw [refind_min_eq_head, hio, hio_eq, head?_lins]
        by_cases hva : v < a
        · rw [if_pos (icmp_of_lt hva)]
          simp [hva]
        · rw [if_neg (fun hc => hva (icmp_lt_iff.mp hc))]
          simp [hva]
      · show (if icmp v m = some .gt then some v else some m)
            = refind_max (insert_go icmp v (BTree.node rx rl rr))
        rw [refind_max_eq_getLast, hio, getLast?_lins v hs, hlast]
        by_cases hmv : m < v
        · rw [if_pos (icmp_of_gt hmv)]
          simp [hmv]
        · rw [if_neg (fun hc => hmv (icmp_gt_iff.mp hc))]
          simp [hmv]

theorem remove_step {t : BinarySearchTree Int} (hInv : Inv t) (v : Int) :
    ∃ t', remove icmp t v = some t' ∧ Inv t' ∧
      in_order_go t'.root = ldel v (in_order_go t.root) := by
  obtain ⟨root, mnv, mxv⟩ := t
  obtain ⟨hs, hmn, hmx⟩ := hInv
  simp only at hs hmn hmx
  rcases remove_go_spec v hs with ⟨root', hrg, hio⟩
  refine ⟨⟨root', refind_min root', refind_max root'⟩, ?_, ⟨?_, rfl, rfl⟩, hio⟩
  · simp only [remove, hrg, Option.map_some']
  · unfold SortedKeys
    rw [hio]
    exact pairwise_ldel v hs

theorem run_from (ops : List Op) :
    ∀ (t : BinarySearchTree Int), Inv t →
      ∃ t', (ops.foldl (fun acc op => acc.bind fun u => bstStep u op) (some t)) = some t' ∧
        Inv t' ∧ in_order_go t'.root = opsModel (in_order_go t.root) ops := by
  induction ops with
  | nil => exact fun t h => ⟨t, rfl, h, rfl⟩
  | cons op ops ih =>
      intro t h
      cases op with
      | ins v =>
          rcases insert_step h v with ⟨t₁, hstep, hInv₁, hio₁⟩
          rcases ih t₁ hInv₁ with ⟨t', hrun, hInv', hio'⟩
          refine ⟨t', ?_, hInv', ?_⟩
          · rw [List.foldl_cons,
                show ((some t).bind fun u => bstStep u (Op.ins v)) = some t₁ by
                  simp [bstStep, hstep]]
            exact hrun
          · rw [hio', hio₁]
            rfl
      | del v =>
          rcases remove_step h v with ⟨t₁, hstep, hInv₁, hio₁⟩
          rcases ih t₁ hInv₁ with ⟨t', hrun, hInv', hio'⟩
          refine ⟨t', ?_, hInv', ?_⟩
          · rw [List.foldl_cons,
                show ((some t).bind fun u => bstStep u (Op.del v)) = some t₁ by
                  simp [bstStep, hstep]]
            exact hrun
          · rw [hio', hio₁]
            rfl

theorem run_spec (ops : List Op) :
    ∃ t', bstRun ops = some t' ∧ Inv t' ∧
      in_order_go t'.root = keysModel ops := by
  rcases run_from ops new inv_new with ⟨t', hrun, hInv, hio⟩
  exact ⟨t', hrun, hInv, hio⟩

theorem runD_spec (ops : List Op) :
    Inv (bstRunD ops) ∧ in_order_go (bstRunD ops).root = keysModel ops := by
  rcases run_spec ops with ⟨t', hrun, hInv, hio⟩
  unfold bstRunD
  rw [hrun]
  exact ⟨hInv, hio⟩

theorem run_isSome (ops : List Op) : (bstRun ops).isSome := by
  rcases run_spec ops with ⟨t', hrun, -, -⟩
  rw [hrun]
  rfl

end Bst


/-! ## AVL correctness: heights, balance, rotations -/

namespace Avl

/-- Number of levels actually present in a subtree. -/
def realh : ATree α → Nat
  | .nil => 0
  | .node _ l r _ => 1 + Max.max (realh l) (realh r)

/-- Every stored height field equals the real subtree height
(leaf = 1, empty slot = 0) — the spec's height bookkeeping invariant. -/
def HtOK : ATree α → Prop
  | .nil => True
  | .node _ l r h => h = 1 + Max.max (realh l) (realh r) ∧ HtOK l ∧ HtOK r

/-- Every node's balance factor lies in `[-1, 1]` — the AVL balance
invariant. -/
def BalOK : ATree α → Prop
  | .nil => True
  | .node _ l r _ =>
      ((realh l : Int) - realh r ≤ 1 ∧ (realh r : Int) - realh l ≤ 1) ∧ BalOK l ∧ BalOK r

theorem node_height_eq_realh : ∀ {t : ATree α}, HtOK t → node_height t = realh t
  | .nil, _ => rfl
  | .node x l r h, ht => by
      rcases ht with ⟨hh, _, _⟩
      simp [node_height, realh, hh]

theorem balance_factor_eq {x : α} {l r : ATree α} {h : Nat}
    (hl : HtOK l) (hr : HtOK r) :
    balance_factor (.node x l r h) = (realh l : Int) - realh r := by
  simp [balance_factor, node_height_eq_realh hl, node_height_eq_realh hr]

theorem io_node_a (x : α) (l r : ATree α) (h : Nat) :
    in_order_go (.node x l r h) = in_order_go l ++ x :: in_order_go r := rfl

/-- What `ll_rotation` builds, with all stored heights rewritten to real
heights (input heights correct). -/
theorem ll_rotation_eq {x lv : Int} {ll lr r : ATree Int} {lh h0 : Nat}
    (hll : HtOK ll) (hlr : HtOK lr) (hr : HtOK r) :
    ll_rotation (.node x (.node lv ll lr lh) r h0) =
      some (.node lv ll (.node x lr r (1 + Max.max (realh lr) (realh r)))
        (1 + Max.max (realh ll) (1 + Max.max (realh lr) (realh r)))) := by
  have e1 := node_height_eq_realh hll
  have e2 := node_height_eq_realh hlr
  have e3 := node_height_eq_realh hr
  simp only [node_height] at e1 e2 e3
  simp [ll_rotation, node_height, e1, e2, e3]

/-- What `rr_rotation` builds. -/
theorem rr_rotation_eq {x rv : Int} {l rl rr : ATree Int} {rh h0 : Nat}
    (hl : HtOK l) (hrl : HtOK rl) (hrr : HtOK rr) :
    rr_rotation (.node x l (.node rv rl rr rh) h0) =
      some (.node rv (.node x l rl (1 + Max.max (realh l) (realh rl))) rr
        (1 + Max.max (1 + Max.max (realh l) (realh rl)) (realh rr))) := by
  have e1 := node_height_eq_realh hl
  have e2 := node_height_eq_realh hrl
  have e3 := node_height_eq_realh hrr
  simp only [node_height] at e1 e2 e3
  simp [rr_rotation, node_height, e1, e2, e3]



theorem htok_node {x : α} {l r : ATree α} {h : Nat}
    (hh : h = 1 + Max.max (realh l) (realh r)) (hl : HtOK l) (hr : HtOK r) :
    HtOK (.node x l r h) := by
  show h = 1 + Max.max (realh l) (realh r) ∧ HtOK l ∧ HtOK r
  exact ⟨hh, hl, hr⟩

theorem update_height_eq {x : Int} {l r : ATree Int} {h : Nat}
    (hl : HtOK l) (hr : HtOK r) :
    update_height (.node x l r h) = .node x l r (1 + Max.max (realh l) (realh r)) := by
  simp [update_height, node_height_eq_realh hl, node_height_eq_realh hr]

theorem rebalance_node {x : α} {l r : ATree α} {h : Nat} :
    rebalance (.node x l r h) =
      if balance_factor (.node x l r h) > 1 then
        (match l with
         | .nil => none
         | .node lv ll lr lh =>
             if balance_factor (.node lv ll lr lh) ≥ 0
             then ll_rotation (.node x l r h) else lr_rotation (.node x l r h))
      else if balance_factor (.node x l r h) < -1 then
        (match r with
         | .nil => none
         | .node rv rl rr rh =>
             if balance_factor (.node rv rl rr rh) ≤ 0
             then rr_rotation (.node x l r h) else rl_rotation (.node x l r h))
      else some (.node x l r h) := by
  cases l <;> cases r <;> rfl

/-- Behaviour of `rebalance` on a height-refreshed node whose subtrees are
valid AVL trees and whose imbalance is at most 2: it succeeds, restores the
AVL shape, keeps the in-order sequence, and the result's height is the
input's height or one less. -/
theorem rebalance_spec {x : Int} {l r : ATree Int} (h0 : Nat)
    (hh0 : h0 = 1 + Max.max (realh l) (realh r))
    (hl : HtOK l) (hr : HtOK r) (bl : BalOK l) (br : BalOK r)
    (hd1 : (realh l : Int) - realh r ≤ 2) (hd2 : (realh r : Int) - realh l ≤ 2) :
    ∃ t', rebalance (.node x l r h0) = some t' ∧
      HtOK t' ∧ BalOK t' ∧
      in_order_go t' = in_order_go l ++ x :: in_order_go r ∧
      Max.max (realh l) (realh r) ≤ realh t' ∧
      realh t' ≤ 1 + Max.max (realh l) (realh r) ∧
      ((realh l : Int) - realh r ≤ 1 → (realh r : Int) - realh l ≤ 1 →
        t' = .node x l r h0) := by
  have hbfeq : balance_factor (ATree.node x l r h0) = (realh l : Int) - realh r :=
    balance_factor_eq hl hr
  by_cases hgt : (realh l : Int) - realh r > 1
  · -- left heavy by exactly 2
    have hL2 : realh l = realh r + 2 := by omega
    cases l with
    | nil => simp [realh] at hL2
    | node lv ll lr lh =>
        obtain ⟨hlh, hll, hlr⟩ := hl
        obtain ⟨⟨bl1, bl2⟩, bll, blr⟩ := bl
        have hrl : realh (ATree.node lv ll lr lh)
            = 1 + Max.max (realh ll) (realh lr) := rfl
        rw [hrl] at hL2
        have hbfl : balance_factor (ATree.node lv ll lr lh)
            = (realh ll : Int) - realh lr := balance_factor_eq hll hlr
        by_cases hlbf : balance_factor (ATree.node lv ll lr lh) ≥ 0
        · -- LL: single right rotation
          rw [hbfl] at hlbf
          refine ⟨ATree.node lv ll
              (ATree.node x lr r (1 + Max.max (realh lr) (realh r)))
              (1 + Max.max (realh ll) (1 + Max.max (realh lr) (realh r))), ?_, ?_, ?_, ?_, ?_, ?_, ?_⟩
          · rw [rebalance_node, if_pos (by rw [hbfeq]; omega)]
            show (if balance_factor (ATree.node lv ll lr lh) ≥ 0
                  then ll_rotation (ATree.node x (ATree.node lv ll lr lh) r h0)
                  else lr_rotation (ATree.node x (ATree.node lv ll lr lh) r h0)) = _
            rw [if_pos (by rw [hbfl]; omega), ll_rotation_eq hll hlr hr]
          · exact ⟨by simp [realh], hll, rfl, hlr, hr⟩
          · refine ⟨⟨?_, ?_⟩, bll, ⟨?_, ?_⟩, blr, br⟩ <;> simp [realh] <;> omega
          · simp [in_order_go, List.append_assoc]
          · simp [realh]; omega
          · simp [realh]; omega
          · intro hc1 hc2
            exfalso
            omega
        · -- LR: double rotation; the left child's right subtree is deeper,
          -- in particular non-empty
          rw [hbfl] at hlbf
          cases lr with
          | nil => simp [realh] at hlbf
          | node cv cl cr ch =>
              obtain ⟨hch, hcl, hcr⟩ := hlr
              obtain ⟨⟨bc1, bc2⟩, bcl, bcr⟩ := blr
              have hrc : realh (ATree.node cv cl cr ch)
                  = 1 + Max.max (realh cl) (realh cr) := rfl
              rw [hrc] at hlbf hL2 bl1 bl2
              refine ⟨ATree.node cv
                  (ATree.node lv ll cl (1 + Max.max (realh ll) (realh cl)))
                  (ATree.node x cr r (1 + Max.max (realh cr) (realh r)))
                  (1 + Max.max (1 + Max.max (realh ll) (realh cl))
                    (1 + Max.max (realh cr) (realh r))), ?_, ?_, ?_, ?_, ?_, ?_, ?_⟩
              · rw [rebalance_node, if_pos (by rw [hbfeq]; omega)]
                show (if balance_factor (ATree.node lv ll (ATree.node cv cl cr ch) lh) ≥ 0
                      then ll_rotation (ATree.node x (ATree.node lv ll (ATree.node cv cl cr ch) lh) r h0)
                      else lr_rotation (ATree.node x (ATree.node lv ll (ATree.node cv cl cr ch) lh) r h0)) = _
                rw [if_neg (by rw [hbfl, hrc]; omega)]
                have hstep : lr_rotation
                    (ATree.node x (ATree.node lv ll (ATree.node cv cl cr ch) lh) r h0)
                    = ll_rotation (ATree.node x
                        (ATree.node cv (ATree.node lv ll cl (1 + Max.max (realh ll) (realh cl))) cr
                          (1 + Max.max (1 + Max.max (realh ll) (realh cl)) (realh cr))) r h0) := by
                  simp [lr_rotation, rr_rotation_eq hll hcl hcr]
                rw [hstep, ll_rotation_eq (htok_node rfl hll hcl) hcr hr]
                show some (ATree.node cv (ATree.node lv ll cl _) (ATree.node x cr r _) _) = _
                simp [realh]
              · exact ⟨by simp [realh], ⟨rfl, hll, hcl⟩, rfl, hcr, hr⟩
              · refine ⟨⟨?_, ?_⟩, ⟨⟨?_, ?_⟩, bll, bcl⟩, ⟨⟨?_, ?_⟩, bcr, br⟩⟩ <;>
                  simp [realh] <;> omega
              · simp [in_order_go, List.append_assoc]
              · simp [realh]; omega
              · simp [realh]; omega
              · intro hc1 hc2
                exfalso
                omega
  · by_cases hlt : (realh r : Int) - realh l > 1
    · -- right heavy by exactly 2
      have hR2 : realh r = realh l + 2 := by omega
      cases r with
      | nil => simp [realh] at hR2
      | node rv rl rr rh =>
          obtain ⟨hrh, hrl2, hrr2⟩ := hr
          obtain ⟨⟨br1, br2⟩, brl, brr⟩ := br
          have hrr : realh (ATree.node rv rl rr rh)
              = 1 + Max.max (realh rl) (realh rr) := rfl
          rw [hrr] at hR2
          have hbfr : balance_factor (ATree.node rv rl rr rh)
              = (realh rl : Int) - realh rr := balance_factor_eq hrl2 hrr2
          by_cases hrbf : balance_factor (ATree.node rv rl rr rh) ≤ 0
          · -- RR: single left rotation
            rw [hbfr] at hrbf
            refine ⟨ATree.node rv
                (ATree.node x l rl (1 + Max.max (realh l) (realh rl))) rr
                (1 + Max.max (1 + Max.max (realh l) (realh rl)) (realh rr)), ?_, ?_, ?_, ?_, ?_, ?_, ?_⟩
            · rw [rebalance_node, if_neg (by rw [hbfeq]; omega),
                  if_pos (by rw [hbfeq]; omega)]
              show (if balance_factor (ATree.node rv rl rr rh) ≤ 0
                    then rr_rotation (ATree.node x l (ATree.node rv rl rr rh) h0)
                    else rl_rotation (ATree.node x l (ATree.node rv rl rr rh) h0)) = _
              rw [if_pos (by rw [hbfr]; omega), rr_rotation_eq hl hrl2 hrr2]
            · exact ⟨by simp [realh], ⟨rfl, hl, hrl2⟩, hrr2⟩
            · refine ⟨⟨?_, ?_⟩, ⟨⟨?_, ?_⟩, bl, brl⟩, brr⟩ <;> simp [realh] <;> omega
            · simp [in_order_go, List.append_assoc]
            · simp [realh]; omega
            · simp [realh]; omega
            · intro hc1 hc2
              exfalso
              omega
          · -- RL: double rotation; the right child's left subtree is deeper
            rw [hbfr] at hrbf
            cases rl with
            | nil => simp [realh] at hrbf
            | node cv cl cr ch =>
                obtain ⟨hch, hcl, hcr⟩ := hrl2
                obtain ⟨⟨bc1, bc2⟩, bcl, bcr⟩ := brl
                have hrc : realh (ATree.node cv cl cr ch)
                    = 1 + Max.max (realh cl) (realh cr) := rfl
                rw [hrc] at hrbf hR2 br1 br2
                refine ⟨ATree.node cv
                    (ATree.node x l cl (1 + Max.max (realh l) (realh cl)))
                    (ATree.node rv cr rr (1 + Max.max (realh cr) (realh rr)))
                    (1 + Max.max (1 + Max.max (realh l) (realh cl))
                      (1 + Max.max (realh cr) (realh rr))), ?_, ?_, ?_, ?_, ?_, ?_, ?_⟩
                · rw [rebalance_node, if_neg (by rw [hbfeq]; omega),
                      if_pos (by rw [hbfeq]; omega)]
                  show (if balance_factor (ATree.node rv (ATree.node cv cl cr ch) rr rh) ≤ 0
                        then rr_rotation (ATree.node x l (ATree.node rv (ATree.node cv cl cr ch) rr rh) h0)
                        else rl_rotation (ATree.node x l (ATree.node rv (ATree.node cv cl cr ch) rr rh) h0)) = _
                  rw [if_neg (by rw [hbfr, hrc]; omega)]
                  have hstep : rl_rotation
                      (ATree.node x l (ATree.node rv (ATree.node cv cl cr ch) rr rh) h0)
                      = rr_rotation (ATree.node x l
                          (ATree.node cv cl (ATree.node rv cr rr (1 + Max.max (realh cr) (realh rr)))
                            (1 + Max.max (realh cl) (1 + Max.max (realh cr) (realh rr)))) h0) := by
                    simp [rl_rotation, ll_rotation_eq hcl hcr hrr2]
                  rw [hstep, rr_rotation_eq hl hcl (htok_node rfl hcr hrr2)]
                  show some (ATree.node cv (ATree.node x l cl _) (ATree.node rv cr rr _) _) = _
                  simp [realh]
                · exact ⟨by simp [realh], ⟨rfl, hl, hcl⟩, rfl, hcr, hrr2⟩
                · refine ⟨⟨?_, ?_⟩, ⟨⟨?_, ?_⟩, bl, bcl⟩, ⟨⟨?_, ?_⟩, bcr, brr⟩⟩ <;>
                    simp [realh] <;> omega
                · simp [in_order_go, List.append_assoc]
                · simp [realh]; omega
                · simp [realh]; omega
                · intro hc1 hc2
                  exfalso
                  omega
    · -- already balanced: no rotation
      refine ⟨ATree.node x l r h0, ?_, ⟨hh0, hl, hr⟩, ⟨⟨by omega, by omega⟩, bl, br⟩,
        rfl, ?_, ?_, fun h1 h2 => rfl⟩
      · rw [rebalance_node, if_neg (by rw [hbfeq]; omega), if_neg (by rw [hbfeq]; omega)]
      · simp [realh]
      · simp [realh]



theorem io_ne_nil_a (x : α) (l r : ATree α) (h : Nat) :
    in_order_go (.node x l r h) ≠ [] := by
  simp [in_order_go]

theorem refind_min_eq_head_a : ∀ (t : ATree α), refind_min t = (in_order_go t).head?
  | .nil => rfl
  | .node x .nil r h => by simp [refind_min, in_order_go]
  | .node x (.node y yl yr yh) r h => by
      show refind_min (.node y yl yr yh)
          = (in_order_go (.node y yl yr yh) ++ x :: in_order_go r).head?
      rw [refind_min_eq_head_a (.node y yl yr yh),
          List.head?_append_of_ne_nil _ (io_ne_nil_a y yl yr yh)]

theorem refind_max_eq_getLast_a :
    ∀ (t : ATree α), refind_max t = (in_order_go t).getLast?
  | .nil => rfl
  | .node x l .nil h => by
      show some x = (in_order_go l ++ x :: ([] : List α)).getLast?
      rw [List.getLast?_append_cons]
      rfl
  | .node x l (.node y yl yr yh) h => by
      show refind_max (.node y yl yr yh)
          = (in_order_go l ++ x :: in_order_go (.node y yl yr yh)).getLast?
      rw [refind_max_eq_getLast_a (.node y yl yr yh), List.getLast?_append_cons,
          show (x :: in_order_go (.node y yl yr yh))
            = [x] ++ in_order_go (.node y yl yr yh) from rfl,
          List.getLast?_append_of_ne_nil _ (io_ne_nil_a y yl yr yh)]

theorem pairwise_node_a {x : Int} {l r : ATree Int} {h : Nat} :
    List.Pairwise (· < ·) (in_order_go (.node x l r h)) ↔
      List.Pairwise (· < ·) (in_order_go l) ∧ List.Pairwise (· < ·) (in_order_go r) ∧
        (∀ a ∈ in_order_go l, a < x) ∧ (∀ b ∈ in_order_go r, x < b) := by
  rw [io_node_a, List.pairwise_append]
  simp only [List.pairwise_cons, List.mem_cons]
  constructor
  · rintro ⟨hl, ⟨hxr, hr⟩, hcross⟩
    exact ⟨hl, hr, fun a ha => hcross a ha x (Or.inl rfl), hxr⟩
  · rintro ⟨hl, hr, hlx, hxr⟩
    refine ⟨hl, ⟨hxr, hr⟩, ?_⟩
    intro a ha b hb
    rcases hb with rfl | hb
    · exact hlx a ha
    · exact lt_trans (hlx a ha) (hxr b hb)

/-- Full behaviour of `insert_rec` on a valid AVL subtree: it succeeds,
preserves the AVL invariants, the in-order sequence becomes `lins`, and the
height grows by at most one (and never shrinks). -/
theorem insert_rec_spec {t : ATree Int} (v : Int) (ht : HtOK t) (bt : BalOK t)
    (hs : List.Pairwise (· < ·) (in_order_go t)) :
    ∃ t', insert_rec icmp v t = some t' ∧ HtOK t' ∧ BalOK t' ∧
      in_order_go t' = lins v (in_order_go t) ∧
      realh t ≤ realh t' ∧ realh t' ≤ realh t + 1 := by
  induction t with
  | nil =>
      refine ⟨.node v .nil .nil 1, rfl, ⟨rfl, trivial, trivial⟩,
        ⟨⟨by decide, by decide⟩, trivial, trivial⟩, rfl, by simp [realh], by simp [realh]⟩
  | node x l r h ihl ihr =>
      obtain ⟨hh, hl, hr⟩ := ht
      obtain ⟨⟨b1, b2⟩, bl, br⟩ := bt
      rcases pairwise_node_a.mp hs with ⟨sl, sr, hlx, hxr⟩
      have hrlh : realh (ATree.node x l r h) = 1 + Max.max (realh l) (realh r) := rfl
      rcases lt_trichotomy v x with hvx | hvx | hvx
      · rcases ihl hl bl sl with ⟨l', hl'eq, hH', hB', hio', hg1, hg2⟩
        rcases rebalance_spec (x := x) (1 + Max.max (realh l') (realh r)) rfl hH' hr hB' br
            (by omega) (by omega) with ⟨T, hreb, hHT, hBT, hioT, hT1, hT2, hTid⟩
        have hlow : realh (ATree.node x l r h) ≤ realh T := by
          by_cases hbal1 : (realh l' : Int) - realh r ≤ 1
          · by_cases hbal2 : (realh r : Int) - realh l' ≤ 1
            · rw [hTid hbal1 hbal2]
              have hTr : realh (ATree.node x l' r (1 + Max.max (realh l') (realh r)))
                  = 1 + Max.max (realh l') (realh r) := rfl
              omega
            · omega
          · omega
        refine ⟨T, ?_, hHT, hBT, ?_, hlow, by omega⟩
        · have hcall : insert_rec icmp v (ATree.node x l r h)
              = rebalance (update_height (ATree.node x l' r h)) := by
            simp [insert_rec, icmp_of_lt hvx, hl'eq]
          rw [hcall, update_height_eq hH' hr]
          exact hreb
        · rw [hioT, hio', io_node_a, lins_append_lt _ _ _ _ hvx]
      · subst hvx
        refine ⟨ATree.node v l r h, ?_, ⟨hh, hl, hr⟩, ⟨⟨b1, b2⟩, bl, br⟩, ?_, le_refl _, by omega⟩
        · simp [insert_rec, icmp_of_eq rfl]
        · rw [io_node_a, lins_append_eq _ _ _ hlx]
      · rcases ihr hr br sr with ⟨r', hr'eq, hH', hB', hio', hg1, hg2⟩
        rcases rebalance_spec (x := x) (1 + Max.max (realh l) (realh r')) rfl hl hH' bl hB'
            (by omega) (by omega) with ⟨T, hreb, hHT, hBT, hioT, hT1, hT2, hTid⟩
        have hlow : realh (ATree.node x l r h) ≤ realh T := by
          by_cases hbal1 : (realh l : Int) - realh r' ≤ 1
          · by_cases hbal2 : (realh r' : Int) - realh l ≤ 1
            · rw [hTid hbal1 hbal2]
              have hTr : realh (ATree.node x l r' (1 + Max.max (realh l) (realh r')))
                  = 1 + Max.max (realh l) (realh r') := rfl
              omega
            · omega
          · omega
        refine ⟨T, ?_, hHT, hBT, ?_, hlow, by omega⟩
        · have hcall : insert_rec icmp v (ATree.node x l r h)
              = rebalance (update_height (ATree.node x l r' h)) := by
            simp [insert_rec, icmp_of_gt hvx, hr'eq]
          rw [hcall, update_height_eq hl hH']
          exact hreb
        · rw [hioT, hio', io_node_a,
              lins_append_gt _ _ _ _ (fun a ha => lt_trans (hlx a ha) hvx) hvx]




/-- Full behaviour of `detach_min` on a valid AVL node: it succeeds,
returns the leftmost value, preserves the AVL invariants, and the height
shrinks by at most one. -/
theorem detach_min_spec (l : ATree Int) : ∀ (x : Int) (r : ATree Int) (h : Nat),
    HtOK (.node x l r h) → BalOK (.node x l r h) →
    ∃ m t', detach_min (.node x l r h) = some (m, t') ∧ HtOK t' ∧ BalOK t' ∧
      in_order_go (.node x l r h) = m :: in_order_go t' ∧
      realh t' ≤ realh (.node x l r h) ∧
      realh (.node x l r h) ≤ realh t' + 1 := by
  induction l with
  | nil =>
      intro x r h ht bt
      obtain ⟨hh, -, hr⟩ := ht
      obtain ⟨⟨b1, b2⟩, -, br⟩ := bt
      have e : realh (ATree.node x ATree.nil r h) = 1 + Max.max 0 (realh r) := rfl
      refine ⟨x, r, rfl, hr, br, rfl, by omega, by omega⟩
  | node y yl yr yh ihl ihr =>
      intro x r h ht bt
      obtain ⟨hh, hl, hr⟩ := ht
      obtain ⟨⟨b1, b2⟩, bl, br⟩ := bt
      rcases ihl y yr yh hl bl with ⟨m, l', hdet, hHl', hBl', hio', hb1, hb2⟩
      rcases rebalance_spec (x := x) (1 + Max.max (realh l') (realh r)) rfl hHl' hr hBl' br
          (by omega) (by omega) with ⟨T, hreb, hHT, hBT, hioT, hT1, hT2, hTid⟩
      have hrealT : realh (ATree.node x (ATree.node y yl yr yh) r h)
          = 1 + Max.max (realh (ATree.node y yl yr yh)) (realh r) := rfl
      have hlow : realh (ATree.node x (ATree.node y yl yr yh) r h) ≤ realh T + 1 := by
        by_cases hbal1 : (realh l' : Int) - realh r ≤ 1
        · by_cases hbal2 : (realh r : Int) - realh l' ≤ 1
          · rw [hTid hbal1 hbal2]
            have hTr : realh (ATree.node x l' r (1 + Max.max (realh l') (realh r)))
                = 1 + Max.max (realh l') (realh r) := rfl
            omega
          · omega
        · omega
      refine ⟨m, T, ?_, hHT, hBT, ?_, by omega, hlow⟩
      · have hcall : detach_min (ATree.node x (ATree.node y yl yr yh) r h)
            = (rebalance (update_height (ATree.node x l' r h))).bind
                fun b => some (m, b) := by
          simp [detach_min, hdet]
        rw [hcall, update_height_eq hHl' hr, hreb]
        rfl
      · show in_order_go (ATree.node y yl yr yh) ++ x :: in_order_go r
            = m :: in_order_go T
        rw [hioT, hio', List.cons_append]

/-- Full behaviour of `remove_node` on a valid AVL subtree: it succeeds,
preserves the AVL invariants, the in-order sequence becomes `ldel`, and the
height shrinks by at most one. -/
theorem remove_node_spec {t : ATree Int} (v : Int) (ht : HtOK t) (bt : BalOK t)
    (hs : List.Pairwise (· < ·) (in_order_go t)) :
    ∃ t', remove_node icmp v t = some t' ∧ HtOK t' ∧ BalOK t' ∧
      in_order_go t' = ldel v (in_order_go t) ∧
      realh t' ≤ realh t ∧ realh t ≤ realh t' + 1 := by
  induction t with
  | nil => exact ⟨.nil, rfl, trivial, trivial, rfl, le_refl _, by omega⟩
  | node x l r h ihl ihr =>
      obtain ⟨hh, hl, hr⟩ := ht
      obtain ⟨⟨b1, b2⟩, bl, br⟩ := bt
      rcases pairwise_node_a.mp hs with ⟨sl, sr, hlx, hxr⟩
      have hrlh : realh (ATree.node x l r h) = 1 + Max.max (realh l) (realh r) := rfl
      rcases lt_trichotomy v x with hvx | hvx | hvx
      · rcases ihl hl bl sl with ⟨l', hl'eq, hH', hB', hio', hg1, hg2⟩
        rcases rebalance_spec (x := x) (1 + Max.max (realh l') (realh r)) rfl hH' hr hB' br
            (by omega) (by omega) with ⟨T, hreb, hHT, hBT, hioT, hT1, hT2, hTid⟩
        have hlow : realh (ATree.node x l r h) ≤ realh T + 1 := by
          by_cases hbal1 : (realh l' : Int) - realh r ≤ 1
          · by_cases hbal2 : (realh r : Int) - realh l' ≤ 1
            · rw [hTid hbal1 hbal2]
              have hTr : realh (ATree.node x l' r (1 + Max.max (realh l') (realh r)))
                  = 1 + Max.max (realh l') (realh r) := rfl
              omega
            · omega
          · omega
        refine ⟨T, ?_, hHT, hBT, ?_, by omega, hlow⟩
        · have hcall : remove_node icmp v (ATree.node x l r h)
              = rebalance (update_height (ATree.node x l' r h)) := by
            simp [remove_node, icmp_of_lt hvx, hl'eq]
          rw [hcall, update_height_eq hH' hr]
          exact hreb
        · rw [hioT, hio', io_node_a, ldel_append,
              ldel_of_forall_ne (fun a (ha : a ∈ x :: in_order_go r) =>
                show a ≠ v by
                  rcases List.mem_cons.mp ha with rfl | ha'
                  · omega
                  · have := hxr a ha'; omega)]
      · subst hvx
        have hldel : ldel v (in_order_go l ++ v :: in_order_go r)
            = in_order_go l ++ in_order_go r := by
          rw [ldel_append,
              ldel_cons_self (fun b (hb : b ∈ in_order_go r) =>
                show b ≠ v by have := hxr b hb; omega),
              ldel_of_forall_ne (fun a (ha : a ∈ in_order_go l) =>
                show a ≠ v by have := hlx a ha; omega),
              ldel_of_forall_ne (fun b (hb : b ∈ in_order_go r) =>
                show b ≠ v by have := hxr b hb; omega)]
        cases l with
        | nil =>
            cases r with
            | nil =>
                refine ⟨.nil, ?_, trivial, trivial, ?_, ?_, ?_⟩
                · simp [remove_node, icmp_of_eq rfl]
                · show ([] : List Int)
                      = ldel v (in_order_go (ATree.nil : ATree Int) ++ v :: in_order_go (ATree.nil : ATree Int))
                  rw [hldel]
                  rfl
                · simp [realh]
                · simp [realh]
            | node ry rl rr rh =>
                have e : realh (ATree.node v ATree.nil (ATree.node ry rl rr rh) h)
                    = 1 + Max.max 0 (realh (ATree.node ry rl rr rh)) := rfl
                refine ⟨.node ry rl rr rh, ?_, hr, br, ?_, by omega, by omega⟩
                · simp [remove_node, icmp_of_eq rfl]
                · show in_order_go (ATree.node ry rl rr rh)
                      = ldel v (in_order_go (ATree.nil : ATree Int) ++ v :: in_order_go (ATree.node ry rl rr rh))
                  rw [hldel]
                  rfl
        | node ly ll lr lh =>
            cases r with
            | nil =>
                have e : realh (ATree.node v (ATree.node ly ll lr lh) ATree.nil h)
                    = 1 + Max.max (realh (ATree.node ly ll lr lh)) 0 := rfl
                refine ⟨.node ly ll lr lh, ?_, hl, bl, ?_, by omega, by omega⟩
                · simp [remove_node, icmp_of_eq rfl]
                · show in_order_go (ATree.node ly ll lr lh)
                      = ldel v (in_order_go (ATree.node ly ll lr lh) ++ v :: in_order_go (ATree.nil : ATree Int))
                  rw [hldel]
                  show in_order_go (ATree.node ly ll lr lh)
                      = in_order_go (ATree.node ly ll lr lh) ++ []
                  rw [List.append_nil]
            | node ry rl rr rh =>
                rcases detach_min_spec rl ry rr rh hr br with
                  ⟨m, r', hdet, hHr', hBr', hior, hd1, hd2⟩
                rcases rebalance_spec (x := m) (1 + Max.max (realh (ATree.node ly ll lr lh)) (realh r'))
                    rfl hl hHr' bl hBr' (by omega) (by omega) with
                  ⟨T, hreb, hHT, hBT, hioT, hT1, hT2, hTid⟩
                have hlow : realh (ATree.node v (ATree.node ly ll lr lh) (ATree.node ry rl rr rh) h)
                    ≤ realh T + 1 := by
                  by_cases hbal1 : (realh (ATree.node ly ll lr lh) : Int) - realh r' ≤ 1
                  · by_cases hbal2 : (realh r' : Int) - realh (ATree.node ly ll lr lh) ≤ 1
                    · rw [hTid hbal1 hbal2]
                      have hTr : realh (ATree.node m (ATree.node ly ll lr lh) r'
                          (1 + Max.max (realh (ATree.node ly ll lr lh)) (realh r')))
                          = 1 + Max.max (realh (ATree.node ly ll lr lh)) (realh r') := rfl
                      omega
                    · omega
                  · omega
                refine ⟨T, ?_, hHT, hBT, ?_, by omega, hlow⟩
                · have hcall : remove_node icmp v
                      (ATree.node v (ATree.node ly ll lr lh) (ATree.node ry rl rr rh) h)
                      = rebalance (update_height
                          (ATree.node m (ATree.node ly ll lr lh) r' h)) := by
                    simp [remove_node, icmp_of_eq rfl, hdet]
                  rw [hcall, update_height_eq hl hHr']
                  exact hreb
                · rw [hioT]
                  show in_order_go (ATree.node ly ll lr lh) ++ m :: in_order_go r'
                      = ldel v (in_order_go (ATree.node ly ll lr lh)
                          ++ v :: (in_order_go (ATree.node ry rl rr rh)))
                  rw [hldel, hior]
      · rcases ihr hr br sr with ⟨r', hr'eq, hH', hB', hio', hg1, hg2⟩
        rcases rebalance_spec (x := x) (1 + Max.max (realh l) (realh r')) rfl hl hH' bl hB'
            (by omega) (by omega) with ⟨T, hreb, hHT, hBT, hioT, hT1, hT2, hTid⟩
        have hlow : realh (ATree.node x l r h) ≤ realh T + 1 := by
          by_cases hbal1 : (realh l : Int) - realh r' ≤ 1
          · by_cases hbal2 : (realh r' : Int) - realh l ≤ 1
            · rw [hTid hbal1 hbal2]
              have hTr : realh (ATree.node x l r' (1 + Max.max (realh l) (realh r')))
                  = 1 + Max.max (realh l) (realh r') := rfl
              omega
            · omega
          · omega
        refine ⟨T, ?_, hHT, hBT, ?_, by omega, hlow⟩
        · have hcall : remove_node icmp v (ATree.node x l r h)
              = rebalance (update_height (ATree.node x l r' h)) := by
            simp [remove_node, icmp_of_gt hvx, hr'eq]
          rw [hcall, update_height_eq hl hH']
          exact hreb
        · rw [hioT, hio', io_node_a, ldel_append, ldel_cons_ne _ (show x ≠ v by omega),
              ldel_of_forall_ne (fun a (ha : a ∈ in_order_go l) =>
                show a ≠ v by have := hlx a ha; omega)]


end Avl


/-! ## AVL tree: structure invariant and operation sequences -/

namespace Avl

/-- All facts maintained by the public operations on a reachable `AVLTree`:
sorted keys, correct stored heights, balance, and caches equal to a fresh
re-scan. -/
structure Inv (t : AVLTree Int) : Prop where
  sorted : List.Pairwise (· < ·) (in_order_go t.root)
  ht : HtOK t.root
  bal : BalOK t.root
  minc : t.min_value = refind_min t.root
  maxc : t.max_value = refind_max t.root

theorem inv_new_a : Inv (new : AVLTree Int) :=
  ⟨List.Pairwise.nil, trivial, trivial, rfl, rfl⟩

theorem insert_step_a {t : AVLTree Int} (hInv : Inv t) (v : Int) :
    ∃ t', insert icmp t v = some t' ∧ Inv t' ∧
      in_order_go t'.root = lins v (in_order_go t.root) := by
  obtain ⟨root, mnv, mxv⟩ := t
  obtain ⟨hs, hH, hB, hmn, hmx⟩ := hInv
  simp only at hs hH hB hmn hmx
  rcases insert_rec_spec v hH hB hs with ⟨root', heq, hH', hB', hio', -, -⟩
  refine ⟨⟨root', refind_min root', refind_max root'⟩, ?_, ⟨?_, hH', hB', rfl, rfl⟩, hio'⟩
  · simp [insert, heq]
  · show List.Pairwise (· < ·) (in_order_go root')
    rw [hio']
    exact pairwise_lins v hs

theorem remove_step_a {t : AVLTree Int} (hInv : Inv t) (v : Int) :
    ∃ t', remove icmp t v = some t' ∧ Inv t' ∧
      in_order_go t'.root = ldel v (in_order_go t.root) := by
  obtain ⟨root, mnv, mxv⟩ := t
  obtain ⟨hs, hH, hB, hmn, hmx⟩ := hInv
  simp only at hs hH hB hmn hmx
  rcases remove_node_spec v hH hB hs with ⟨root', heq, hH', hB', hio', -, -⟩
  refine ⟨⟨root', refind_min root', refind_max root'⟩, ?_, ⟨?_, hH', hB', rfl, rfl⟩, hio'⟩
  · simp [remove, heq]
  · show List.Pairwise (· < ·) (in_order_go root')
    rw [hio']
    exact pairwise_ldel v hs

theorem run_from_a (ops : List Op) :
    ∀ (t : AVLTree Int), Inv t →
      ∃ t', (ops.foldl (fun acc op => acc.bind fun u => avlStep u op) (some t)) = some t' ∧
        Inv t' ∧ in_order_go t'.root = opsModel (in_order_go t.root) ops := by
  induction ops with
  | nil => exact fun t h => ⟨t, rfl, h, rfl⟩
  | cons op ops ih =>
      intro t h
      cases op with
      | ins v =>
          rcases insert_step_a h v with ⟨t₁, hstep, hInv₁, hio₁⟩
          rcases ih t₁ hInv₁ with ⟨t', hrun, hInv', hio'⟩
          refine ⟨t', ?_, hInv', ?_⟩
          · rw [List.foldl_cons,
                show ((some t).bind fun u => avlStep u (Op.ins v)) = some t₁ by
                  simp [avlStep, hstep]]
            exact hrun
          · rw [hio', hio₁]
            rfl
      | del v =>
          rcases remove_step_a h v with ⟨t₁, hstep, hInv₁, hio₁⟩
          rcases ih t₁ hInv₁ with ⟨t', hrun, hInv', hio'⟩
          refine ⟨t', ?_, hInv', ?_⟩
          · rw [List.foldl_cons,
                show ((some t).bind fun u => avlStep u (Op.del v)) = some t₁ by
                  simp [avlStep, hstep]]
            exact hrun
          · rw [hio', hio₁]
            rfl

theorem run_spec_a (ops : List Op) :
    ∃ t', avlRun ops = some t' ∧ Inv t' ∧
      in_order_go t'.root = keysModel ops := by
  rcases run_from_a ops new inv_new_a with ⟨t', hrun, hInv, hio⟩
  exact ⟨t', hrun, hInv, hio⟩

theorem runD_spec_a (ops : List Op) :
    Inv (avlRunD ops) ∧ in_order_go (avlRunD ops).root = keysModel ops := by
  rcases run_spec_a ops with ⟨t', hrun, hInv, hio⟩
  unfold avlRunD
  rw [hrun]
  exact ⟨hInv, hio⟩

theorem run_isSome_a (ops : List Op) : (avlRun ops).isSome := by
  rcases run_spec_a ops with ⟨t', hrun, -, -⟩
  rw [hrun]
  rfl

/-- Inserting a key already present returns the subtree entirely unchanged:
the comparison walk reaches the key, and every `update_height`/`rebalance`
on the way back reproduces its input node. -/
theorem insert_rec_mem_noop_a {t : ATree Int} (v : Int) (ht : HtOK t) (bt : BalOK t)
    (hs : List.Pairwise (· < ·) (in_order_go t)) (hmem : v ∈ in_order_go t) :
    insert_rec icmp v t = some t := by
  induction t with
  | nil => simp [in_order_go] at hmem
  | node x l r h ihl ihr =>
      obtain ⟨hh, hl, hr⟩ := ht
      obtain ⟨⟨b1, b2⟩, bl, br⟩ := bt
      rcases pairwise_node_a.mp hs with ⟨sl, sr, hlx, hxr⟩
      have hid : rebalance (ATree.node x l r h) = some (ATree.node x l r h) := by
        rw [rebalance_node,
            if_neg (by rw [balance_factor_eq hl hr]; omega),
            if_neg (by rw [balance_factor_eq hl hr]; omega)]
      have hup : update_height (ATree.node x l r h) = ATree.node x l r h := by
        rw [update_height_eq hl hr, ← hh]
      rcases lt_trichotomy v x with hvx | hvx | hvx
      · have hvl : v ∈ in_order_go l := by
          rw [io_node_a] at hmem
          rcases List.mem_append.mp hmem with h' | h'
          · exact h'
          · rcases List.mem_cons.mp h' with rfl | h''
            · omega
            · have := hxr v h''; omega
        simp [insert_rec, icmp_of_lt hvx, ihl hl bl sl hvl, hup, hid]
      · subst hvx
        simp [insert_rec, icmp_of_eq rfl]
      · have hvr : v ∈ in_order_go r := by
          rw [io_node_a] at hmem
          rcases List.mem_append.mp hmem with h' | h'
          · have := hlx v h'; omega
          · rcases List.mem_cons.mp h' with rfl | h''
            · omega
            · exact h''
        simp [insert_rec, icmp_of_gt hvx, ihr hr br sr hvr, hup, hid]

theorem insert_mem_noop_a {t : AVLTree Int} (hInv : Inv t) (v : Int)
    (hmem : v ∈ in_order_go t.root) : insert icmp t v = some t := by
  obtain ⟨root, mnv, mxv⟩ := t
  obtain ⟨hs, hH, hB, hmn, hmx⟩ := hInv
  simp only at hs hH hB hmn hmx ⊢
  simp only at hmem
  rw [show (⟨root, mnv, mxv⟩ : AVLTree Int)
      = ⟨root, refind_min root, refind_max root⟩ by rw [hmn, hmx]]
  simp [insert, insert_rec_mem_noop_a v hH hB hs hmem]

end Avl

namespace Bst

theorem head_le_of_sorted {a v : Int} {xs : List Int}
    (h : List.Pairwise (· < ·) (a :: xs)) (hv : v ∈ a :: xs) : a ≤ v := by
  rcases List.mem_cons.mp hv with rfl | hv'
  · exact le_refl v
  · exact le_of_lt ((List.pairwise_cons.mp h).1 v hv')

theorem le_getLast_of_sorted : ∀ {xs : List Int} {m v : Int},
    List.Pairwise (· < ·) xs → xs.getLast? = some m → v ∈ xs → v ≤ m := by
  intro xs
  induction xs with
  | nil => intro m v _ _ hv; simp at hv
  | cons a xs ih =>
      intro m v h hm hv
      cases xs with
      | nil =>
          simp at hm
          rcases List.mem_cons.mp hv with rfl | hv'
          · omega
          · simp at hv'
      | cons b ys =>
          rw [List.getLast?_cons_cons] at hm
          rcases List.pairwise_cons.mp h with ⟨ha, htail⟩
          rcases List.mem_cons.mp hv with rfl | hv'
          · have hmmem : m ∈ b :: ys := by
              rcases List.mem_getLast?_eq_getLast hm with ⟨hne, rfl⟩
              exact List.getLast_mem hne
            exact le_of_lt (ha m hmmem)
          · exact ih htail hm hv'

/-- Inserting a key already present leaves the search walk with no slot to
fill: the tree is returned unchanged. -/
theorem insert_go_mem_noop {t : BTree Int} (v : Int) (hs : SortedKeys t)
    (hmem : v ∈ in_order_go t) : insert_go icmp v t = t := by
  induction t with
  | nil => simp [in_order_go] at hmem
  | node x l r ihl ihr =>
      rcases sortedKeys_node.mp hs with ⟨hl, hr, hlx, hxr⟩
      rcases lt_trichotomy v x with hvx | hvx | hvx
      · have hvl : v ∈ in_order_go l := by
          rw [io_node] at hmem
          rcases List.mem_append.mp hmem with h' | h'
          · exact h'
          · rcases List.mem_cons.mp h' with rfl | h''
            · omega
            · have := hxr v h''; omega
        simp [insert_go, icmp_of_lt hvx, ihl hl hvl]
      · subst hvx
        simp [insert_go, icmp_of_eq rfl]
      · have hvr : v ∈ in_order_go r := by
          rw [io_node] at hmem
          rcases List.mem_append.mp hmem with h' | h'
          · have := hlx v h'; omega
          · rcases List.mem_cons.mp h' with rfl | h''
            · omega
            · exact h''
        simp [insert_go, icmp_of_gt hvx, ihr hr hvr]

theorem insert_mem_noop {t : BinarySearchTree Int} (hInv : Inv t) (v : Int)
    (hmem : v ∈ in_order_go t.root) : insert icmp t v = some t := by
  obtain ⟨root, mnv, mxv⟩ := t
  obtain ⟨hs, hmn, hmx⟩ := hInv
  simp only at hs hmn hmx hmem ⊢
  cases root with
  | nil => simp [in_order_go] at hmem
  | node rx rl rr =>
      obtain ⟨a, xs, hio_eq⟩ : ∃ a xs, in_order_go (BTree.node rx rl rr) = a :: xs := by
        cases hh : in_order_go (BTree.node rx rl rr) with
        | nil => exact absurd hh (io_ne_nil rx rl rr)
        | cons a xs => exact ⟨a, xs, rfl⟩
      have hmn' : mnv = some a := by
        rw [hmn, refind_min_eq_head, hio_eq]
        rfl
      obtain ⟨m, hlast⟩ : ∃ m, (in_order_go (BTree.node rx rl rr)).getLast? = some m := by
        rw [hio_eq]
        cases hg : (a :: xs).getLast? with
        | none => simp at hg
        | some m => exact ⟨m, rfl⟩
      have hmx' : mxv = some m := by
        rw [hmx, refind_max_eq_getLast, hlast]
      subst hmn' hmx'
      have hle1 : a ≤ v := by
        rw [hio_eq] at hmem
        exact head_le_of_sorted (by rw [← hio_eq]; exact hs) hmem
      have hle2 : v ≤ m := le_getLast_of_sorted hs hlast hmem
      have hc1 : ¬ icmp v a = some .lt := by
        rw [icmp_lt_iff]; omega
      have hc2 : ¬ icmp v m = some .gt := by
        rw [icmp_gt_iff]; omega
      simp [insert, hc1, hc2, insert_go_mem_noop v hs hmem]

end Bst


/-! ## Red-Black tree: color predicates and basic facts -/

namespace Rbt

/-- Left-leaning at rest: no node anywhere has a red right child. -/
def ll_ok : RTree α → Bool
  | .nil => true
  | .node _ l r _ => !is_red_node r && ll_ok l && ll_ok r

end Rbt

/-- Splitting a strictly sorted list around a middle element. -/
theorem pairwise_mid {A B : List Int} {x : Int} :
    List.Pairwise (· < ·) (A ++ x :: B) ↔
      List.Pairwise (· < ·) A ∧ List.Pairwise (· < ·) B ∧
      (∀ a ∈ A, a < x) ∧ (∀ b ∈ B, x < b) := by
  rw [List.pairwise_append]
  constructor
  · rintro ⟨hA, hxB, hcross⟩
    rcases List.pairwise_cons.mp hxB with ⟨hxb, hB⟩
    exact ⟨hA, hB, fun a ha => hcross a ha x (List.mem_cons_self x B), hxb⟩
  · rintro ⟨hA, hB, hAx, hxB⟩
    refine ⟨hA, List.pairwise_cons.mpr ⟨hxB, hB⟩, ?_⟩
    intro a ha b hb
    rcases List.mem_cons.mp hb with rfl | hb'
    · exact hAx a ha
    · exact lt_trans (hAx a ha) (hxB b hb')

namespace Rbt

theorem io_node_r (x : Int) (l r : RTree Int) (c : Color) :
    in_order_go (RTree.node x l r c) = in_order_go l ++ x :: in_order_go r := rfl

theorem io_ne_nil_r (x : Int) (l r : RTree Int) (c : Color) :
    in_order_go (RTree.node x l r c) ≠ [] := by
  rw [io_node_r]
  intro h
  exact List.cons_ne_nil x (in_order_go r) (List.append_eq_nil.mp h).2

theorem pairwise_node_r {x : Int} {l r : RTree Int} {c : Color} :
    List.Pairwise (· < ·) (in_order_go (RTree.node x l r c)) ↔
      List.Pairwise (· < ·) (in_order_go l) ∧ List.Pairwise (· < ·) (in_order_go r) ∧
      (∀ a ∈ in_order_go l, a < x) ∧ (∀ b ∈ in_order_go r, x < b) := by
  rw [io_node_r]
  exact pairwise_mid

theorem cbh_node_black {x : Int} {l r : RTree Int} {a : Nat}
    (hl : check_black_height l = some a) (hr : check_black_height r = some a) :
    check_black_height (RTree.node x l r .black) = some (a + 1) := by
  simp [check_black_height, hl, hr]

theorem cbh_node_red {x : Int} {l r : RTree Int} {a : Nat}
    (hl : check_black_height l = some a) (hr : check_black_height r = some a) :
    check_black_height (RTree.node x l r .red) = some a := by
  simp [check_black_height, hl, hr]

theorem cbh_node_inv {x : Int} {l r : RTree Int} {c : Color} {n : Nat}
    (h : check_black_height (RTree.node x l r c) = some n) :
    ∃ a, check_black_height l = some a ∧ check_black_height r = some a ∧
      n = (if c = Color.black then a + 1 else a) := by
  cases hl : check_black_height l with
  | none => rw [check_black_height, hl] at h; simp at h
  | some a =>
    cases hr : check_black_height r with
    | none => rw [check_black_height, hl, hr] at h; simp at h
    | some b =>
      by_cases hab : a = b
      · subst hab
        refine ⟨a, rfl, rfl, ?_⟩
        cases c <;> simp [check_black_height, hl, hr] at h <;> simp [h]
      · rw [check_black_height, hl, hr] at h
        simp [hab] at h

theorem cbh_pos : ∀ {t : RTree Int} {n : Nat}, check_black_height t = some n → 1 ≤ n := by
  intro t
  induction t with
  | nil => intro n h; simp [check_black_height] at h; omega
  | node y l r c ihl ihr =>
      intro n h
      rcases cbh_node_inv h with ⟨a, hl, -, hn⟩
      have := ihl hl
      cases c <;> simp at hn <;> omega

theorem cbh_one_black_nil {t : RTree Int} (h : check_black_height t = some 1)
    (hb : is_red_node t = false) : t = .nil := by
  cases t with
  | nil => rfl
  | node y l r c =>
      cases c
      · simp [is_red_node] at hb
      · rcases cbh_node_inv h with ⟨a, hl, -, hn⟩
        have := cbh_pos hl
        simp at hn
        omega

theorem black_node_shape {t : RTree Int} {m : Nat} (h : check_black_height t = some m)
    (hb : is_red_node t = false) (hm : 2 ≤ m) :
    ∃ y yl yr, t = .node y yl yr .black ∧ ∃ a, check_black_height yl = some a ∧
      check_black_height yr = some a ∧ m = a + 1 := by
  cases t with
  | nil => simp [check_black_height] at h; omega
  | node y l r c =>
      cases c
      · simp [is_red_node] at hb
      · rcases cbh_node_inv h with ⟨a, hl, hr, hn⟩
        simp at hn
        exact ⟨y, l, r, rfl, a, hl, hr, hn⟩

theorem red_node_shape {t : RTree Int} (h : is_red_node t = true) :
    ∃ y yl yr, t = .node y yl yr .red := by
  cases t with
  | nil => simp [is_red_node] at h
  | node y l r c =>
      cases c
      · exact ⟨y, l, r, rfl⟩
      · simp [is_red_node] at h

theorem rr_split {x : Int} {l r : RTree Int} {c : Color}
    (h : check_red_property (RTree.node x l r c) = true) :
    check_red_property l = true ∧ check_red_property r = true ∧
      (c = Color.red → is_red_node l = false ∧ is_red_node r = false) := by
  cases c
  · simp only [check_red_property, if_true, Bool.and_eq_true, Bool.not_eq_true',
      Bool.or_eq_false_iff, reduceCtorEq, reduceIte] at h
    exact ⟨h.1.2, h.2, fun _ => h.1.1⟩
  · simp only [check_red_property, Bool.and_eq_true, reduceCtorEq, reduceIte] at h
    exact ⟨h.1.2, h.2, by intro hc; cases hc⟩

theorem ll_split {x : Int} {l r : RTree Int} {c : Color}
    (h : ll_ok (RTree.node x l r c) = true) :
    is_red_node r = false ∧ ll_ok l = true ∧ ll_ok r = true := by
  simp only [ll_ok, Bool.and_eq_true, Bool.not_eq_true'] at h
  exact ⟨h.1.1, h.1.2, h.2⟩

theorem find_min_eq_head : ∀ t : RTree Int, find_min t = (in_order_go t).head? := by
  intro t
  induction t with
  | nil => rfl
  | node x l r c ihl ihr =>
      cases l with
      | nil => simp [find_min, in_order_go]
      | node y yl yr yc =>
          rw [io_node_r]
          rw [List.head?_append_of_ne_nil _ (io_ne_nil_r y yl yr yc)]
          exact ihl

theorem refind_min_eq_head_r : ∀ t : RTree Int, refind_min t = (in_order_go t).head? := by
  intro t
  induction t with
  | nil => rfl
  | node x l r c ihl ihr =>
      cases l with
      | nil => simp [refind_min, in_order_go]
      | node y yl yr yc =>
          rw [io_node_r]
          rw [List.head?_append_of_ne_nil _ (io_ne_nil_r y yl yr yc)]
          exact ihl

theorem refind_max_eq_getLast_r : ∀ t : RTree Int,
    refind_max t = (in_order_go t).getLast?
  | .nil => rfl
  | .node x l .nil c => by
      show some x = (in_order_go l ++ x :: ([] : List Int)).getLast?
      rw [List.getLast?_append_cons]
      rfl
  | .node x l (.node y yl yr yc) c => by
      show refind_max (.node y yl yr yc)
          = (in_order_go l ++ x :: in_order_go (.node y yl yr yc)).getLast?
      rw [refind_max_eq_getLast_r (.node y yl yr yc), List.getLast?_append_cons,
          show (x :: in_order_go (.node y yl yr yc))
            = [x] ++ in_order_go (.node y yl yr yc) from rfl,
          List.getLast?_append_of_ne_nil _ (io_ne_nil_r y yl yr yc)]

theorem contains_go_iff_r {t : RTree Int}
    (hs : List.Pairwise (· < ·) (in_order_go t)) (v : Int) :
    contains_go icmp v t = true ↔ v ∈ in_order_go t := by
  induction t with
  | nil => simp [contains_go, in_order_go]
  | node x l r c ihl ihr =>
      rcases pairwise_node_r.mp hs with ⟨hl, hr, hlx, hxr⟩
      rw [io_node_r]
      rcases lt_trichotomy v x with hvx | hvx | hvx
      · rw [contains_go, icmp_of_lt hvx, ihl hl]
        simp only [List.mem_append, List.mem_cons]
        constructor
        · exact fun h => Or.inl h
        · rintro (h | h | h)
          · exact h
          · omega
          · have := hxr v h; omega
      · subst hvx
        rw [contains_go, icmp_of_eq rfl]
        simp
      · rw [contains_go, icmp_of_gt hvx, ihr hr]
        simp only [List.mem_append, List.mem_cons]
        constructor
        · exact fun h => Or.inr (Or.inr h)
        · rintro (h | h | h)
          · have := hlx v h; omega
          · omega
          · exact h

end Rbt


namespace Rbt

theorem is_red_node_nil : is_red_node (RTree.nil : RTree Int) = false := rfl

theorem is_red_node_red (x : Int) (l r : RTree Int) :
    is_red_node (RTree.node x l r .red) = true := rfl

theorem is_red_node_black (x : Int) (l r : RTree Int) :
    is_red_node (RTree.node x l r .black) = false := rfl

theorem rr_build_black {x : Int} {l r : RTree Int}
    (hl : check_red_property l = true) (hr : check_red_property r = true) :
    check_red_property (RTree.node x l r .black) = true := by
  simp [check_red_property, hl, hr]

theorem rr_build_red {x : Int} {l r : RTree Int}
    (h1 : is_red_node l = false) (h2 : is_red_node r = false)
    (hl : check_red_property l = true) (hr : check_red_property r = true) :
    check_red_property (RTree.node x l r .red) = true := by
  simp [check_red_property, h1, h2, hl, hr]

theorem ll_build {x : Int} {l r : RTree Int} {c : Color}
    (h1 : is_red_node r = false) (hl : ll_ok l = true) (hr : ll_ok r = true) :
    ll_ok (RTree.node x l r c) = true := by
  simp [ll_ok, h1, hl, hr]

theorem red_children_black {t : RTree Int} (h : is_red_node t = true)
    (hrr : check_red_property t = true) :
    is_red_node (left_of t) = false ∧ is_red_node (right_of t) = false := by
  rcases red_node_shape h with ⟨y, yl, yr, rfl⟩
  exact (rr_split hrr).2.2 rfl

/-- One step of `insert_recursive` on a valid left-leaning subtree: the
result keeps the key list sorted (inserting `value`), keeps the black
height, stays left-leaning, and has at most one red-red violation, at the
root, and only if the input root was red. -/
theorem insert_rec_rb_spec (v : Int) : ∀ (t : RTree Int) (n : Nat),
    ll_ok t = true → check_red_property t = true → check_black_height t = some n →
    List.Pairwise (· < ·) (in_order_go t) →
    ∃ t', insert_recursive icmp v t = some t' ∧
      ll_ok t' = true ∧ check_black_height t' = some n ∧
      check_red_property (left_of t') = true ∧
      check_red_property (right_of t') = true ∧
      (is_red_node t = false → check_red_property t' = true) ∧
      in_order_go t' = lins v (in_order_go t) := by
  intro t
  induction t with
  | nil =>
      intro n _ _ hbh _
      refine ⟨.node v .nil .nil .red, rfl, rfl, ?_, rfl, rfl, fun _ => rfl, rfl⟩
      simp [check_black_height] at hbh ⊢
      omega
  | node x l r col ihl ihr =>
      intro n hLL hRR hbh hsorted
      rcases ll_split hLL with ⟨hrb, hLl, hLr⟩
      rcases rr_split hRR with ⟨hRl, hRr, hcol⟩
      rcases cbh_node_inv hbh with ⟨a, hbl, hbr, hn⟩
      rcases pairwise_node_r.mp hsorted with ⟨hsl, hsr, hlx, hxr⟩
      rcases lt_trichotomy v x with hvx | hvx | hvx
      · -- descend left
        rcases ihl a hLl hRl hbl hsl with ⟨l', hins, hL', hb', hRL', hRR', hRfull, hio'⟩
        have hstep : insert_recursive icmp v (RTree.node x l r col)
            = (insert_recursive icmp v l).bind fun u => balance (RTree.node x u r col) := by
          simp [insert_recursive, icmp_of_lt hvx]
        rw [hstep, hins, Option.some_bind]
        have hioT : lins v (in_order_go (RTree.node x l r col))
            = in_order_go l' ++ x :: in_order_go r := by
          rw [io_node_r, lins_append_lt v x _ _ hvx, hio']
        cases hl'r : is_red_node l' with
        | false =>
            have hRl' : check_red_property l' = true := by
              cases l' with
              | nil => rfl
              | node b bl br bc =>
                  cases bc
                  · simp [is_red_node] at hl'r
                  · exact rr_build_black hRL' hRR'
            have hbal : balance (RTree.node x l' r col)
                = some (RTree.node x l' r col) := by
              simp [balance, left_of, right_of, hrb, hl'r]
            rw [hbal]
            refine ⟨_, rfl, ll_build hrb hL' hLr, ?_, hRl', hRr, ?_, ?_⟩
            · cases col <;> simp at hn <;> subst hn
              · exact cbh_node_red hb' hbr
              · exact cbh_node_black hb' hbr
            · intro hblk
              cases col
              · simp [is_red_node] at hblk
              · exact rr_build_black hRl' hRr
            · rw [io_node_r, hioT]
        | true =>
            rcases red_node_shape hl'r with ⟨b, bl, br, rfl⟩
            have hbrb : is_red_node br = false := (ll_split hL').1
            rcases cbh_node_inv hb' with ⟨e, hbbl, hbbr, he⟩
            simp at he
            subst he
            cases hblr : is_red_node bl with
            | false =>
                have hRl' : check_red_property (RTree.node b bl br .red) = true :=
                  rr_build_red hblr hbrb hRL' hRR'
                have hbal : balance (RTree.node x (RTree.node b bl br .red) r col)
                    = some (RTree.node x (RTree.node b bl br .red) r col) := by
                  simp [balance, left_of, right_of, hrb, hblr, is_red_node_red]
                rw [hbal]
                refine ⟨_, rfl, ll_build hrb hL' hLr, ?_, hRl', hRr, ?_, ?_⟩
                · cases col <;> simp at hn <;> subst hn
                  · exact cbh_node_red hb' hbr
                  · exact cbh_node_black hb' hbr
                · intro hblk
                  cases col
                  · simp [is_red_node] at hblk
                  · exact rr_build_black hRl' hRr
                · rw [io_node_r, hioT]
            | true =>
                -- red-red below the new left child: the input left child was
                -- red, hence the root black; rotate right, then flip colors
                have hcolb : col = Color.black := by
                  cases col
                  · have hlr2 : is_red_node l = false := (hcol rfl).1
                    have hRfl := hRfull hlr2
                    rcases rr_split hRfl with ⟨-, -, hc2⟩
                    rw [(hc2 rfl).1] at hblr
                    cases hblr
                  · rfl
                subst hcolb
                simp at hn
                subst hn
                rcases red_node_shape hblr with ⟨p, q, s, rfl⟩
                rcases cbh_node_inv hbbl with ⟨f, hq, hs, hf⟩
                simp at hf
                subst hf
                have hbal : balance (RTree.node x
                    (RTree.node b (RTree.node p q s .red) br .red) r .black)
                    = some (RTree.node b (RTree.node p q s .black)
                        (RTree.node x br r .black) .red) := by
                  simp [balance, left_of, right_of, hrb, rotate_right,
                        is_red_node_red, is_red_node_black,
                        flip_colors, flip_node_color, flip]
                rw [hbal]
                rcases rr_split hRL' with ⟨hRq, hRs, hqs⟩
                rcases ll_split hL' with ⟨-, hLbl, hLbr⟩
                rcases ll_split hLbl with ⟨hsb, hLq, hLs⟩
                refine ⟨_, rfl, ?_, ?_, ?_, ?_, ?_, ?_⟩
                · refine ll_build (is_red_node_black x br r) ?_ (ll_build hrb hLbr hLr)
                  exact ll_build hsb hLq hLs
                · exact cbh_node_red (cbh_node_black hq hs) (cbh_node_black hbbr hbr)
                · exact rr_build_black hRq hRs
                · exact rr_build_black hRR' hRr
                · intro _
                  exact rr_build_red (is_red_node_black p q s) (is_red_node_black x br r)
                    (rr_build_black hRq hRs) (rr_build_black hRR' hRr)
                · rw [io_node_r, hioT]
                  simp [in_order_go, List.append_assoc]
      · -- equal: no change
        have hstep : insert_recursive icmp v (RTree.node x l r col)
            = some (RTree.node x l r col) := by
          simp [insert_recursive, icmp_of_eq hvx]
        rw [hstep]
        refine ⟨_, rfl, hLL, hbh, hRl, hRr, fun _ => hRR, ?_⟩
        have hlx2 : ∀ a ∈ in_order_go l, a < v := by
          intro a ha; rw [hvx]; exact hlx a ha
        rw [io_node_r, show (x :: in_order_go r) = (v :: in_order_go r) by rw [hvx]]
        exact (lins_append_eq v _ _ hlx2).symm
      · -- descend right
        rcases ihr a hLr hRr hbr hsr with ⟨r', hins, hL', hb', hRL', hRR', hRfull, hio'⟩
        have hRr' : check_red_property r' = true := hRfull hrb
        have hstep : insert_recursive icmp v (RTree.node x l r col)
            = (insert_recursive icmp v r).bind fun u => balance (RTree.node x l u col) := by
          simp [insert_recursive, icmp_of_gt hvx]
        rw [hstep, hins, Option.some_bind]
        have hioT : lins v (in_order_go (RTree.node x l r col))
            = in_order_go l ++ x :: in_order_go r' := by
          rw [io_node_r, lins_append_gt v x _ _ (fun b hb => lt_trans (hlx b hb) hvx) hvx, hio']
        cases hr'r : is_red_node r' with
        | false =>
            have hbal : balance (RTree.node x l r' col)
                = some (RTree.node x l r' col) := by
              cases hlr2 : is_red_node l with
              | false => simp [balance, left_of, right_of, hr'r, hlr2]
              | true =>
                  rcases red_node_shape hlr2 with ⟨p, q, s, rfl⟩
                  have hq := (red_children_black (is_red_node_red p q s) hRl).1
                  simp only [left_of] at hq
                  simp [balance, left_of, right_of, hr'r, hq, is_red_node_red]
            have hRr'' : check_red_property r' = true := hRr'
            rw [hbal]
            refine ⟨_, rfl, ll_build hr'r hLl hL', ?_, hRl, hRr'', ?_, ?_⟩
            · cases col <;> simp at hn <;> subst hn
              · exact cbh_node_red hbl hb'
              · exact cbh_node_black hbl hb'
            · intro hblk
              cases col
              · simp [is_red_node] at hblk
              · exact rr_build_black hRl hRr''
            · rw [io_node_r, hioT]
        | true =>
            rcases red_node_shape hr'r with ⟨b, bl, br, rfl⟩
            rcases red_children_black hr'r hRr' with ⟨hblb, hbrb⟩
            simp only [left_of, right_of] at hblb hbrb
            rcases rr_split hRr' with ⟨hRbl, hRbr, -⟩
            rcases ll_split hL' with ⟨-, hLbl, hLbr⟩
            rcases cbh_node_inv hb' with ⟨e, hbbl, hbbr, he⟩
            simp at he
            subst he
            cases hlr2 : is_red_node l with
            | true =>
                -- both children red after the insert: split with a color flip
                have hcolb : col = Color.black := by
                  cases col
                  · rw [(hcol rfl).1] at hlr2
                    cases hlr2
                  · rfl
                subst hcolb
                simp at hn
                subst hn
                rcases red_node_shape hlr2 with ⟨p, q, s, rfl⟩
                rcases red_children_black hlr2 hRl with ⟨hqb, hsb⟩
                simp only [left_of, right_of] at hqb hsb
                rcases rr_split hRl with ⟨hRq, hRs, -⟩
                rcases ll_split hLl with ⟨-, hLq, hLs⟩
                rcases cbh_node_inv hbl with ⟨f, hq, hs, hf⟩
                simp at hf
                subst hf
                have hbal : balance (RTree.node x (RTree.node p q s .red)
                    (RTree.node b bl br .red) .black)
                    = some (RTree.node x (RTree.node p q s .black)
                        (RTree.node b bl br .black) .red) := by
                  simp [balance, left_of, right_of, hqb, is_red_node_red,
                        flip_colors, flip_node_color, flip]
                rw [hbal]
                refine ⟨_, rfl, ?_, ?_, ?_, ?_, ?_, ?_⟩
                · refine ll_build (is_red_node_black b bl br) (ll_build hsb hLq hLs) ?_
                  exact ll_build hbrb hLbl hLbr
                · exact cbh_node_red (cbh_node_black hq hs) (cbh_node_black hbbl hbbr)
                · exact rr_build_black hRq hRs
                · exact rr_build_black hRbl hRbr
                · intro _
                  exact rr_build_red (is_red_node_black p q s) (is_red_node_black b bl br)
                    (rr_build_black hRq hRs) (rr_build_black hRbl hRbr)
                · rw [io_node_r, hioT]
                  simp [in_order_go]
            | false =>
                -- lone red right child: rotate left
                have hbal : balance (RTree.node x l (RTree.node b bl br .red) col)
                    = some (RTree.node b (RTree.node x l bl .red) br col) := by
                  simp [balance, left_of, right_of, hlr2, rotate_left,
                        is_red_node_red, hblb, hbrb]
                rw [hbal]
                refine ⟨_, rfl, ?_, ?_, ?_, hRbr, ?_, ?_⟩
                · exact ll_build hbrb (ll_build hblb hLl hLbl) hLbr
                · cases col <;> simp at hn <;> subst hn
                  · exact cbh_node_red (cbh_node_red hbl hbbl) hbbr
                  · exact cbh_node_black (cbh_node_red hbl hbbl) hbbr
                · exact rr_build_red hlr2 hblb hRl hRbl
                · intro hblk
                  cases col
                  · simp [is_red_node] at hblk
                  · exact rr_build_black (rr_build_red hlr2 hblb hRl hRbl) hRbr
                · rw [io_node_r, hioT]
                  simp [in_order_go, List.append_assoc]

end Rbt

namespace Rbt


theorem head_extend {A L : List Int} {mv : Int} (E : List Int) (h : A = mv :: L) :
    A ++ E = mv :: (L ++ E) := by
  rw [h]
  rfl

theorem seg_extend {A B L : List Int} {x mv : Int} (E : List Int)
    (h : A ++ x :: B = mv :: L) :
    A ++ x :: (B ++ E) = mv :: (L ++ E) := by
  have h2 := congrArg (fun t => t ++ E) h
  simpa [List.append_assoc] using h2

/-- `remove_min` on a subtree carrying the deletion invariant (the root or
its left child is red): succeeds, drops exactly the head of the in-order
key list, and preserves the left-leaning red-black shape and black height;
a black root stays black. -/
theorem remove_min_spec : ∀ (fuel : Nat) (x : Int) (l r : RTree Int) (col : Color) (m : Nat),
    rsize (RTree.node x l r col) ≤ fuel →
    ll_ok l = true → ll_ok r = true →
    check_red_property l = true → check_red_property r = true →
    check_black_height l = some m → check_black_height r = some m →
    (col = Color.red ∧ is_red_node l = false ∧ is_red_node r = false ∨
     col = Color.black ∧ is_red_node l = true ∧ is_red_node r = false) →
    ∃ t' mv, remove_min fuel (RTree.node x l r col) = some t' ∧
      ll_ok t' = true ∧ check_red_property t' = true ∧
      check_black_height t' = some (if col = Color.black then m + 1 else m) ∧
      in_order_go (RTree.node x l r col) = mv :: in_order_go t' ∧
      (col = Color.black → is_red_node t' = false) := by
  intro fuel
  induction fuel with
  | zero =>
      intro x l r col m hsize _ _ _ _ _ _ _
      simp [rsize] at hsize
  | succ fuel ih =>
      intro x l r col m hsize hLl hLr hRl hRr hbl hbr hH
      cases l with
      | nil =>
          rcases hH with ⟨hc, -, hrb2⟩ | ⟨-, hlr, -⟩
          · subst hc
            have hm : m = 1 := by simp [check_black_height] at hbl; omega
            subst hm
            have hrnil : r = RTree.nil := cbh_one_black_nil hbr hrb2
            subst hrnil
            exact ⟨.nil, x, rfl, rfl, rfl, by simp [check_black_height],
              by simp [in_order_go], by simp⟩
          · simp [is_red_node] at hlr
      | node ly ll lr lc =>
          simp only [rsize] at hsize
          cases lc with
          | red =>
              -- red left child: no move_red_left, recurse, trivial fix_up
              have hH2 : col = Color.black ∧ is_red_node r = false := by
                rcases hH with ⟨-, hlb, -⟩ | ⟨hc, -, hrb2⟩
                · simp [is_red_node] at hlb
                · exact ⟨hc, hrb2⟩
              obtain ⟨hc, hrb2⟩ := hH2
              subst hc
              rcases rr_split hRl with ⟨hRll, hRlr, hred⟩
              rcases hred rfl with ⟨hllb, hlrb⟩
              rcases ll_split hLl with ⟨-, hLll, hLlr⟩
              rcases cbh_node_inv hbl with ⟨a, hbll, hblr, ha⟩
              simp at ha
              subst ha
              rcases ih ly ll lr .red m (by simp only [rsize] at hsize ⊢; omega)
                  hLll hLlr hRll hRlr hbll hblr (Or.inl ⟨rfl, hllb, hlrb⟩) with
                ⟨l'', mv, hrec, hL'', hR'', hb'', hio'', -⟩
              simp only [if_neg (by simp : ¬ (Color.red = Color.black))] at hb''
              have hstep : remove_min (fuel + 1)
                  (RTree.node x (RTree.node ly ll lr .red) r .black)
                  = (remove_min fuel (RTree.node ly ll lr .red)).bind
                      fun u => fix_up (RTree.node x u r .black) := by
                simp [remove_min, is_red_node_red]
              rw [hstep, hrec, Option.some_bind]
              have hfix : fix_up (RTree.node x l'' r .black)
                  = some (RTree.node x l'' r .black) := by
                cases h2 : is_red_node l'' with
                | false => simp [fix_up, left_of, right_of, hrb2, h2]
                | true =>
                    rcases red_node_shape h2 with ⟨p, q0, s, rfl⟩
                    have hq := (red_children_black h2 hR'').1
                    simp only [left_of] at hq
                    simp [fix_up, left_of, right_of, hrb2, hq, is_red_node_red]
              rw [hfix]
              refine ⟨_, mv, rfl, ll_build hrb2 hL'' hLr, rr_build_black hR'' hRr, ?_, ?_, ?_⟩
              · rw [cbh_node_black hb'' hbr]
                simp
              · exact head_extend _ hio''
              · intro _
                rfl
          | black =>
              have hH2 : col = Color.red ∧ is_red_node r = false := by
                rcases hH with ⟨hc, -, hrb2⟩ | ⟨-, hlr, -⟩
                · exact ⟨hc, hrb2⟩
                · simp [is_red_node] at hlr
              obtain ⟨hc, hrb2⟩ := hH2
              subst hc
              rcases rr_split hRl with ⟨hRll, hRlr, -⟩
              rcases ll_split hLl with ⟨hlrb, hLll, hLlr⟩
              rcases cbh_node_inv hbl with ⟨a, hbll, hblr, ha⟩
              simp at ha
              subst ha
              cases hllred : is_red_node ll with
              | true =>
                  -- left-left red: still no move_red_left
                  rcases ih ly ll lr .black a (by simp only [rsize] at hsize ⊢; omega)
                      hLll hLlr hRll hRlr hbll hblr (Or.inr ⟨rfl, hllred, hlrb⟩) with
                    ⟨l'', mv, hrec, hL'', hR'', hb'', hio'', hbk''⟩
                  simp only [if_pos rfl] at hb''
                  have hl''b : is_red_node l'' = false := hbk'' rfl
                  have hstep : remove_min (fuel + 1)
                      (RTree.node x (RTree.node ly ll lr .black) r .red)
                      = (remove_min fuel (RTree.node ly ll lr .black)).bind
                          fun u => fix_up (RTree.node x u r .red) := by
                    simp [remove_min, is_red_node_black, left_of, hllred]
                  rw [hstep, hrec, Option.some_bind]
                  have hfix : fix_up (RTree.node x l'' r .red)
                      = some (RTree.node x l'' r .red) := by
                    simp [fix_up, left_of, right_of, hrb2, hl''b]
                  rw [hfix]
                  refine ⟨_, mv, rfl, ll_build hrb2 hL'' hLr,
                    rr_build_red hl''b hrb2 hR'' hRr, ?_, ?_, ?_⟩
                  · rw [cbh_node_red hb'' hbr]
                    simp
                  · exact head_extend _ hio''
                  · intro hc2
                    simp at hc2
              | false =>
                  -- both black: move_red_left
                  have ha1 : 1 ≤ a := cbh_pos hbll
                  rcases black_node_shape hbr hrb2 (by omega) with
                    ⟨ry, rl, rr, rfl, c, hbrl, hbrr, hc⟩
                  have hca : a = c := by omega
                  subst hca
                  rcases rr_split hRr with ⟨hRrl, hRrr, -⟩
                  rcases ll_split hLr with ⟨hrrb, hLrl, hLrr⟩
                  simp only [rsize] at hsize
                  cases hrlred : is_red_node rl with
                  | true =>
                      rcases red_node_shape hrlred with ⟨rly, rll, rlr, rfl⟩
                      rcases red_children_black hrlred hRrl with ⟨hrllb, hrlrb⟩
                      simp only [left_of, right_of] at hrllb hrlrb
                      rcases rr_split hRrl with ⟨hRrll, hRrlr, -⟩
                      rcases ll_split hLrl with ⟨-, hLrll, hLrlr⟩
                      rcases cbh_node_inv hbrl with ⟨e, hbrll, hbrlr, he⟩
                      simp at he
                      subst he
                      have hmrl : move_red_left (RTree.node x (RTree.node ly ll lr .black)
                          (RTree.node ry (RTree.node rly rll rlr .red) rr .black) .red)
                          = some (RTree.node rly
                              (RTree.node x (RTree.node ly ll lr .red) rll .black)
                              (RTree.node ry rlr rr .black) .red) := by
                        simp [move_red_left, flip_colors, flip_node_color, flip,
                              left_of, right_of, is_red_node_red, rotate_right, rotate_left]
                      have hstep : remove_min (fuel + 1)
                          (RTree.node x (RTree.node ly ll lr .black)
                            (RTree.node ry (RTree.node rly rll rlr .red) rr .black) .red)
                          = (remove_min fuel
                              (RTree.node x (RTree.node ly ll lr .red) rll .black)).bind
                              fun u => fix_up (RTree.node rly u
                                (RTree.node ry rlr rr .black) .red) := by
                        simp [remove_min, is_red_node_black, left_of, hllred, hmrl]
                      rcases ih x (RTree.node ly ll lr .red) rll .black a
                          (by simp only [rsize] at hsize ⊢; omega)
                          (ll_build hlrb hLll hLlr) hLrll
                          (rr_build_red hllred hlrb hRll hRlr) hRrll
                          (cbh_node_red hbll hblr) hbrll
                          (Or.inr ⟨rfl, is_red_node_red ly ll lr, hrllb⟩) with
                        ⟨l'', mv, hrec, hL'', hR'', hb'', hio'', hbk''⟩
                      simp only [if_pos rfl] at hb''
                      have hl''b : is_red_node l'' = false := hbk'' rfl
                      rw [hstep, hrec, Option.some_bind]
                      have hfix : fix_up (RTree.node rly l''
                          (RTree.node ry rlr rr .black) .red)
                          = some (RTree.node rly l'' (RTree.node ry rlr rr .black) .red) := by
                        simp [fix_up, left_of, right_of, is_red_node_black, hl''b]
                      rw [hfix]
                      refine ⟨_, mv, rfl, ?_, ?_, ?_, ?_, ?_⟩
                      · exact ll_build (is_red_node_black ry rlr rr) hL''
                          (ll_build hrrb hLrlr hLrr)
                      · exact rr_build_red hl''b (is_red_node_black ry rlr rr) hR''
                          (rr_build_black hRrlr hRrr)
                      · rw [cbh_node_red hb'' (cbh_node_black hbrlr hbrr)]
                        simp
                      · rw [show in_order_go (RTree.node x (RTree.node ly ll lr .black)
                              (RTree.node ry (RTree.node rly rll rlr .red) rr .black) .red)
                            = in_order_go (RTree.node ly ll lr .red)
                              ++ x :: (in_order_go rll ++ (rly :: (in_order_go rlr
                                ++ ry :: in_order_go rr))) by
                          simp [in_order_go, List.append_assoc]]
                        rw [io_node_r] at hio''
                        exact seg_extend _ hio''
                      · intro hc2
                        simp at hc2
                  | false =>
                      have hmrl : move_red_left (RTree.node x (RTree.node ly ll lr .black)
                          (RTree.node ry rl rr .black) .red)
                          = some (RTree.node x (RTree.node ly ll lr .red)
                              (RTree.node ry rl rr .red) .black) := by
                        simp [move_red_left, flip_colors, flip_node_color, flip,
                              left_of, right_of, hrlred]
                      have hstep : remove_min (fuel + 1)
                          (RTree.node x (RTree.node ly ll lr .black)
                            (RTree.node ry rl rr .black) .red)
                          = (remove_min fuel (RTree.node ly ll lr .red)).bind
                              fun u => fix_up (RTree.node x u
                                (RTree.node ry rl rr .red) .black) := by
                        simp [remove_min, is_red_node_black, left_of, hllred, hmrl]
                      rcases ih ly ll lr .red a (by simp only [rsize] at hsize ⊢; omega)
                          hLll hLlr hRll hRlr hbll hblr (Or.inl ⟨rfl, hllred, hlrb⟩) with
                        ⟨l'', mv, hrec, hL'', hR'', hb'', hio'', -⟩
                      simp only [if_neg (by simp : ¬ (Color.red = Color.black))] at hb''
                      rw [hstep, hrec, Option.some_bind]
                      cases hl''red : is_red_node l'' with
                      | true =>
                          rcases red_node_shape hl''red with ⟨p, q0, s, rfl⟩
                          rcases red_children_black hl''red hR'' with ⟨hqb, hsb⟩
                          simp only [left_of, right_of] at hqb hsb
                          rcases rr_split hR'' with ⟨hRq, hRs, -⟩
                          rcases ll_split hL'' with ⟨-, hLq, hLs⟩
                          rcases cbh_node_inv hb'' with ⟨f, hbq, hbs, hf⟩
                          simp at hf
                          subst hf
                          have hfix : fix_up (RTree.node x (RTree.node p q0 s .red)
                              (RTree.node ry rl rr .red) .black)
                              = some (RTree.node x (RTree.node p q0 s .black)
                                  (RTree.node ry rl rr .black) .red) := by
                            simp [fix_up, left_of, right_of, is_red_node_red,
                                  rotate_left, rotate_right,
                                  flip_colors, flip_node_color, flip]
                          rw [hfix]
                          refine ⟨_, mv, rfl, ?_, ?_, ?_, ?_, ?_⟩
                          · exact ll_build (is_red_node_black ry rl rr)
                              (ll_build hsb hLq hLs) (ll_build hrrb hLrl hLrr)
                          · exact rr_build_red (is_red_node_black p q0 s)
                              (is_red_node_black ry rl rr)
                              (rr_build_black hRq hRs) (rr_build_black hRrl hRrr)
                          · rw [cbh_node_red (cbh_node_black hbq hbs)
                              (cbh_node_black hbrl hbrr)]
                            simp
                          · rw [show in_order_go (RTree.node x (RTree.node ly ll lr .black)
                                  (RTree.node ry rl rr .black) .red)
                                = in_order_go (RTree.node ly ll lr .red)
                                  ++ (x :: (in_order_go rl ++ ry :: in_order_go rr)) by
                              simp [in_order_go, List.append_assoc]]
                            rw [show in_order_go (RTree.node x (RTree.node p q0 s .black)
                                  (RTree.node ry rl rr .black) .red)
                                = in_order_go (RTree.node p q0 s .red)
                                  ++ (x :: (in_order_go rl ++ ry :: in_order_go rr)) by
                              simp [in_order_go, List.append_assoc]]
                            exact head_extend _ hio''
                          · intro hc2
                            simp at hc2
                      | false =>
                          have hfix : fix_up (RTree.node x l''
                              (RTree.node ry rl rr .red) .black)
                              = some (RTree.node ry (RTree.node x l'' rl .red) rr .black) := by
                            simp [fix_up, left_of, right_of, is_red_node_red,
                                  rotate_left, hl''red, hrlred, hrrb]
                          rw [hfix]
                          refine ⟨_, mv, rfl, ?_, ?_, ?_, ?_, ?_⟩
                          · exact ll_build hrrb (ll_build hrlred hL'' hLrl) hLrr
                          · exact rr_build_black
                              (rr_build_red hl''red hrlred hR'' hRrl) hRrr
                          · rw [cbh_node_black (cbh_node_red hb'' hbrl) hbrr]
                            simp
                          · rw [show in_order_go (RTree.node x (RTree.node ly ll lr .black)
                                  (RTree.node ry rl rr .black) .red)
                                = in_order_go (RTree.node ly ll lr .red)
                                  ++ (x :: (in_order_go rl ++ ry :: in_order_go rr)) by
                              simp [in_order_go, List.append_assoc]]
                            rw [show in_order_go (RTree.node ry
                                  (RTree.node x l'' rl .red) rr .black)
                                = in_order_go l''
                                  ++ (x :: (in_order_go rl ++ ry :: in_order_go rr)) by
                              simp [in_order_go, List.append_assoc]]
                            exact head_extend _ hio''
                          · intro hc2
                            simp at hc2

end Rbt

namespace Rbt

/-- `remove_recursive` under the deletion invariant: the root is red, or its
left child is red, or (when the searched value is not to the left) its right
child is red.  The call succeeds, removes exactly the searched value from
the key list, and preserves the left-leaning red-black shape and black
height; a black root stays black. -/
theorem remove_rec_spec : ∀ (fuel : Nat) (v x : Int) (l r : RTree Int) (col : Color) (m : Nat),
    rsize (RTree.node x l r col) ≤ fuel →
    ll_ok l = true → ll_ok r = true →
    check_red_property l = true → check_red_property r = true →
    check_black_height l = some m → check_black_height r = some m →
    (col = Color.red ∧ is_red_node l = false ∧ is_red_node r = false ∨
     col = Color.black ∧ is_red_node l = true ∧ is_red_node r = false ∨
     col = Color.black ∧ is_red_node l = false ∧ is_red_node r = true ∧ ¬ v < x) →
    List.Pairwise (· < ·) (in_order_go (RTree.node x l r col)) →
    ∃ t', remove_recursive icmp v fuel (RTree.node x l r col) = some t' ∧
      ll_ok t' = true ∧ check_red_property t' = true ∧
      check_black_height t' = some (if col = Color.black then m + 1 else m) ∧
      in_order_go t' = ldel v (in_order_go (RTree.node x l r col)) ∧
      (col = Color.black → is_red_node t' = false) := by
  intro fuel
  induction fuel with
  | zero =>
      intro v x l r col m hsize _ _ _ _ _ _ _ _
      simp [rsize] at hsize
  | succ fuel ih =>
      intro v x l r col m hsize hLl hLr hRl hRr hbl hbr hH hsorted
      rcases pairwise_node_r.mp hsorted with ⟨hsl, hsr, hlx, hxr⟩
      simp only [rsize] at hsize
      by_cases hvx : v < x
      · -- descend left
        have hH12 : col = Color.red ∧ is_red_node l = false ∧ is_red_node r = false ∨
            col = Color.black ∧ is_red_node l = true ∧ is_red_node r = false := by
          rcases hH with h | h | ⟨-, -, -, hge⟩
          · exact Or.inl h
          · exact Or.inr h
          · exact absurd hvx hge
        have hner : ∀ b ∈ in_order_go r, b ≠ v := by
          intro b hb
          have := hxr b hb
          omega
        have hdelT : ldel v (in_order_go l ++ x :: in_order_go r)
            = ldel v (in_order_go l) ++ x :: in_order_go r := by
          rw [ldel_append, ldel_cons_ne _ (show x ≠ v by omega), ldel_of_forall_ne hner]
        cases l with
        | nil =>
            have hH1x : col = Color.red ∧ is_red_node r = false := by
              rcases hH12 with ⟨hc, -, hrb2⟩ | ⟨-, hlb, -⟩
              · exact ⟨hc, hrb2⟩
              · simp [is_red_node] at hlb
            obtain ⟨hc, hrb2⟩ := hH1x
            subst hc
            have hm : m = 1 := by simp [check_black_height] at hbl; omega
            subst hm
            have hrnil : r = RTree.nil := cbh_one_black_nil hbr hrb2
            subst hrnil
            have hstep : remove_recursive icmp v (fuel + 1)
                (RTree.node x .nil .nil .red) = some (RTree.node x .nil .nil .red) := by
              simp [remove_recursive, icmp_of_lt hvx, fix_up, left_of, right_of,
                    is_red_node]
            rw [hstep]
            refine ⟨_, rfl, rfl, rfl, by simp [check_black_height], ?_, by simp⟩
            simp [in_order_go, ldel, show ¬ x = v by omega]
        | node ly ll lr lc =>
            cases lc with
            | red =>
                -- red left child: recurse directly
                have hH2 : col = Color.black ∧ is_red_node r = false := by
                  rcases hH12 with ⟨-, hlb, -⟩ | ⟨hc, -, hrb2⟩
                  · simp [is_red_node] at hlb
                  · exact ⟨hc, hrb2⟩
                obtain ⟨hc, hrb2⟩ := hH2
                subst hc
                rcases rr_split hRl with ⟨hRll, hRlr, hred⟩
                rcases hred rfl with ⟨hllb, hlrb⟩
                rcases ll_split hLl with ⟨-, hLll, hLlr⟩
                rcases cbh_node_inv hbl with ⟨a, hbll, hblr, ha⟩
                simp at ha
                subst ha
                rcases ih v ly ll lr .red m (by simp only [rsize] at hsize ⊢; omega)
                    hLll hLlr hRll hRlr hbll hblr (Or.inl ⟨rfl, hllb, hlrb⟩) hsl with
                  ⟨l'', hrec, hL'', hR'', hb'', hio'', -⟩
                simp only [if_neg (by simp : ¬ (Color.red = Color.black))] at hb''
                have hstep : remove_recursive icmp v (fuel + 1)
                    (RTree.node x (RTree.node ly ll lr .red) r .black)
                    = (remove_recursive icmp v fuel (RTree.node ly ll lr .red)).bind
                        fun u => fix_up (RTree.node x u r .black) := by
                  simp [remove_recursive, icmp_of_lt hvx, is_red_node_red]
                rw [hstep, hrec, Option.some_bind]
                have hfix : fix_up (RTree.node x l'' r .black)
                    = some (RTree.node x l'' r .black) := by
                  cases h2 : is_red_node l'' with
                  | false => simp [fix_up, left_of, right_of, hrb2, h2]
                  | true =>
                      rcases red_node_shape h2 with ⟨p, q0, s, rfl⟩
                      have hq := (red_children_black h2 hR'').1
                      simp only [left_of] at hq
                      simp [fix_up, left_of, right_of, hrb2, hq, is_red_node_red]
                rw [hfix]
                refine ⟨_, rfl, ll_build hrb2 hL'' hLr, rr_build_black hR'' hRr, ?_, ?_, ?_⟩
                · rw [cbh_node_black hb'' hbr]
                  simp
                · show in_order_go l'' ++ x :: in_order_go r = _
                  rw [io_node_r, hdelT, hio'']
                · intro _
                  rfl
            | black =>
                have hH2 : col = Color.red ∧ is_red_node r = false := by
                  rcases hH12 with ⟨hc, -, hrb2⟩ | ⟨-, hlb, -⟩
                  · exact ⟨hc, hrb2⟩
                  · simp [is_red_node] at hlb
                obtain ⟨hc, hrb2⟩ := hH2
                subst hc
                rcases rr_split hRl with ⟨hRll, hRlr, -⟩
                rcases ll_split hLl with ⟨hlrb, hLll, hLlr⟩
                rcases cbh_node_inv hbl with ⟨a, hbll, hblr, ha⟩
                simp at ha
                subst ha
                cases hllred : is_red_node ll with
                | true =>
                    -- left-left red: still no move_red_left
                    rcases ih v ly ll lr .black a (by simp only [rsize] at hsize ⊢; omega)
                        hLll hLlr hRll hRlr hbll hblr
                        (Or.inr (Or.inl ⟨rfl, hllred, hlrb⟩)) hsl with
                      ⟨l'', hrec, hL'', hR'', hb'', hio'', hbk''⟩
                    simp only [if_pos rfl] at hb''
                    have hl''b : is_red_node l'' = false := hbk'' rfl
                    have hstep : remove_recursive icmp v (fuel + 1)
                        (RTree.node x (RTree.node ly ll lr .black) r .red)
                        = (remove_recursive icmp v fuel (RTree.node ly ll lr .black)).bind
                            fun u => fix_up (RTree.node x u r .red) := by
                      simp [remove_recursive, icmp_of_lt hvx, is_red_node_black,
                            left_of, hllred]
                    rw [hstep, hrec, Option.some_bind]
                    have hfix : fix_up (RTree.node x l'' r .red)
                        = some (RTree.node x l'' r .red) := by
                      simp [fix_up, left_of, right_of, hrb2, hl''b]
                    rw [hfix]
                    refine ⟨_, rfl, ll_build hrb2 hL'' hLr,
                      rr_build_red hl''b hrb2 hR'' hRr, ?_, ?_, ?_⟩
                    · rw [cbh_node_red hb'' hbr]
                      simp
                    · show in_order_go l'' ++ x :: in_order_go r = _
                      rw [io_node_r, hdelT, hio'']
                    · intro hc2
                      simp at hc2
                | false =>
                    -- both black: move_red_left
                    have ha1 : 1 ≤ a := cbh_pos hbll
                    rcases black_node_shape hbr hrb2 (by omega) with
                      ⟨ry, rl, rr, rfl, c, hbrl, hbrr, hc⟩
                    have hca : a = c := by omega
                    subst hca
                    rcases rr_split hRr with ⟨hRrl, hRrr, -⟩
                    rcases ll_split hLr with ⟨hrrb, hLrl, hLrr⟩
                    rcases pairwise_node_r.mp hsr with ⟨hsrl, hsrr, hrlx, hxrr⟩
                    simp only [rsize] at hsize
                    cases hrlred : is_red_node rl with
                    | true =>
                        rcases red_node_shape hrlred with ⟨rly, rll, rlr, rfl⟩
                        rcases red_children_black hrlred hRrl with ⟨hrllb, hrlrb⟩
                        simp only [left_of, right_of] at hrllb hrlrb
                        rcases rr_split hRrl with ⟨hRrll, hRrlr, -⟩
                        rcases ll_split hLrl with ⟨-, hLrll, hLrlr⟩
                        rcases cbh_node_inv hbrl with ⟨e, hbrll, hbrlr, he⟩
                        simp at he
                        subst he
                        rcases pairwise_node_r.mp hsrl with ⟨hsrll, hsrlr, hrllx, hxrlr⟩
                        have hmrl : move_red_left (RTree.node x (RTree.node ly ll lr .black)
                            (RTree.node ry (RTree.node rly rll rlr .red) rr .black) .red)
                            = some (RTree.node rly
                                (RTree.node x (RTree.node ly ll lr .red) rll .black)
                                (RTree.node ry rlr rr .black) .red) := by
                          simp [move_red_left, flip_colors, flip_node_color, flip,
                                left_of, right_of, is_red_node_red, rotate_right, rotate_left]
                        have hstep : remove_recursive icmp v (fuel + 1)
                            (RTree.node x (RTree.node ly ll lr .black)
                              (RTree.node ry (RTree.node rly rll rlr .red) rr .black) .red)
                            = (remove_recursive icmp v fuel
                                (RTree.node x (RTree.node ly ll lr .red) rll .black)).bind
                                fun u => fix_up (RTree.node rly u
                                  (RTree.node ry rlr rr .black) .red) := by
                          simp [remove_recursive, icmp_of_lt hvx, is_red_node_black,
                                left_of, hllred, hmrl]
                        have hsort2 : List.Pairwise (· < ·)
                            (in_order_go (RTree.node x (RTree.node ly ll lr .red)
                              rll .black)) := by
                          refine pairwise_node_r.mpr ⟨hsl, hsrll, hlx, ?_⟩
                          intro b hb
                          refine hxr b ?_
                          rw [io_node_r, io_node_r]
                          simp [hb]
                        rcases ih v x (RTree.node ly ll lr .red) rll .black a
                            (by simp only [rsize] at hsize ⊢; omega)
                            (ll_build hlrb hLll hLlr) hLrll
                            (rr_build_red hllred hlrb hRll hRlr) hRrll
                            (cbh_node_red hbll hblr) hbrll
                            (Or.inr (Or.inl ⟨rfl, is_red_node_red ly ll lr, hrllb⟩))
                            hsort2 with
                          ⟨l'', hrec, hL'', hR'', hb'', hio'', hbk''⟩
                        simp only [if_pos rfl] at hb''
                        have hl''b : is_red_node l'' = false := hbk'' rfl
                        rw [hstep, hrec, Option.some_bind]
                        have hfix : fix_up (RTree.node rly l''
                            (RTree.node ry rlr rr .black) .red)
                            = some (RTree.node rly l''
                                (RTree.node ry rlr rr .black) .red) := by
                          simp [fix_up, left_of, right_of, is_red_node_black, hl''b]
                        rw [hfix]
                        have hner2 : ∀ b ∈ in_order_go rll, b ≠ v := by
                          intro b hb
                          have : x < b := by
                            refine hxr b ?_
                            rw [io_node_r, io_node_r]
                            simp [hb]
                          omega
                        have hdel2 : ldel v (in_order_go (RTree.node x
                            (RTree.node ly ll lr .red) rll .black))
                            = ldel v (in_order_go (RTree.node ly ll lr .red))
                              ++ x :: in_order_go rll := by
                          rw [io_node_r, ldel_append, ldel_cons_ne _ (show x ≠ v by omega),
                              ldel_of_forall_ne hner2]
                        refine ⟨_, rfl, ?_, ?_, ?_, ?_, ?_⟩
                        · exact ll_build (is_red_node_black ry rlr rr) hL''
                            (ll_build hrrb hLrlr hLrr)
                        · exact rr_build_red hl''b (is_red_node_black ry rlr rr) hR''
                            (rr_build_black hRrlr hRrr)
                        · rw [cbh_node_red hb'' (cbh_node_black hbrlr hbrr)]
                          simp
                        · show in_order_go l'' ++ rly ::
                              in_order_go (RTree.node ry rlr rr .black) = _
                          conv_rhs => rw [io_node_r]
                          rw [hdelT, hio'', hdel2]
                          simp [in_order_go, List.append_assoc]
                        · intro hc2
                          simp at hc2
                    | false =>
                        have hmrl : move_red_left (RTree.node x (RTree.node ly ll lr .black)
                            (RTree.node ry rl rr .black) .red)
                            = some (RTree.node x (RTree.node ly ll lr .red)
                                (RTree.node ry rl rr .red) .black) := by
                          simp [move_red_left, flip_colors, flip_node_color, flip,
                                left_of, right_of, hrlred]
                        have hstep : remove_recursive icmp v (fuel + 1)
                            (RTree.node x (RTree.node ly ll lr .black)
                              (RTree.node ry rl rr .black) .red)
                            = (remove_recursive icmp v fuel (RTree.node ly ll lr .red)).bind
                                fun u => fix_up (RTree.node x u
                                  (RTree.node ry rl rr .red) .black) := by
                          simp [remove_recursive, icmp_of_lt hvx, is_red_node_black,
                                left_of, hllred, hmrl]
                        rcases ih v ly ll lr .red a (by simp only [rsize] at hsize ⊢; omega)
                            hLll hLlr hRll hRlr hbll hblr
                            (Or.inl ⟨rfl, hllred, hlrb⟩) hsl with
                          ⟨l'', hrec, hL'', hR'', hb'', hio'', -⟩
                        simp only [if_neg (by simp : ¬ (Color.red = Color.black))] at hb''
                        rw [hstep, hrec, Option.some_bind]
                        cases hl''red : is_red_node l'' with
                        | true =>
                            rcases red_node_shape hl''red with ⟨p, q0, s, rfl⟩
                            rcases red_children_black hl''red hR'' with ⟨hqb, hsb⟩
                            simp only [left_of, right_of] at hqb hsb
                            rcases rr_split hR'' with ⟨hRq, hRs, -⟩
                            rcases ll_split hL'' with ⟨-, hLq, hLs⟩
                            rcases cbh_node_inv hb'' with ⟨f, hbq, hbs, hf⟩
                            simp at hf
                            subst hf
                            have hfix : fix_up (RTree.node x (RTree.node p q0 s .red)
                                (RTree.node ry rl rr .red) .black)
                                = some (RTree.node x (RTree.node p q0 s .black)
                                    (RTree.node ry rl rr .black) .red) := by
                              simp [fix_up, left_of, right_of, is_red_node_red,
                                    rotate_left, rotate_right,
                                    flip_colors, flip_node_color, flip]
                            rw [hfix]
                            refine ⟨_, rfl, ?_, ?_, ?_, ?_, ?_⟩
                            · exact ll_build (is_red_node_black ry rl rr)
                                (ll_build hsb hLq hLs) (ll_build hrrb hLrl hLrr)
                            · exact rr_build_red (is_red_node_black p q0 s)
                                (is_red_node_black ry rl rr)
                                (rr_build_black hRq hRs) (rr_build_black hRrl hRrr)
                            · rw [cbh_node_red (cbh_node_black hbq hbs)
                                (cbh_node_black hbrl hbrr)]
                              simp
                            · rw [show in_order_go (RTree.node x (RTree.node p q0 s .black)
                                    (RTree.node ry rl rr .black) .red)
                                  = in_order_go (RTree.node p q0 s .red)
                                    ++ x :: in_order_go (RTree.node ry rl rr .black) by
                                simp [in_order_go]]
                              conv_rhs => rw [io_node_r]
                              rw [hdelT, hio'']
                              simp [in_order_go]
                            · intro hc2
                              simp at hc2
                        | false =>
                            have hfix : fix_up (RTree.node x l''
                                (RTree.node ry rl rr .red) .black)
                                = some (RTree.node ry (RTree.node x l'' rl .red)
                                    rr .black) := by
                              simp [fix_up, left_of, right_of, is_red_node_red,
                                    rotate_left, hl''red, hrlred, hrrb]
                            rw [hfix]
                            refine ⟨_, rfl, ?_, ?_, ?_, ?_, ?_⟩
                            · exact ll_build hrrb (ll_build hrlred hL'' hLrl) hLrr
                            · exact rr_build_black
                                (rr_build_red hl''red hrlred hR'' hRrl) hRrr
                            · rw [cbh_node_black (cbh_node_red hb'' hbrl) hbrr]
                              simp
                            · rw [show in_order_go (RTree.node ry
                                    (RTree.node x l'' rl .red) rr .black)
                                  = in_order_go l''
                                    ++ x :: in_order_go (RTree.node ry rl rr .black) by
                                simp [in_order_go, List.append_assoc]]
                              conv_rhs => rw [io_node_r]
                              rw [hdelT, hio'']
                              simp [in_order_go]
                            · intro _
                              rfl
      · -- the not-less branch: match, rotate or push right, splice or recurse
        have hcvx : icmp v x = some Ordering.eq ∨ icmp v x = some Ordering.gt := by
          rcases lt_trichotomy v x with h | h | h
          · exact absurd h hvx
          · exact Or.inl (icmp_of_eq h)
          · exact Or.inr (icmp_of_gt h)
        cases hlred : is_red_node l with
        | true =>
            -- red left child: rotate right, then recurse into the new right child
            have hH2 : col = Color.black ∧ is_red_node r = false := by
              rcases hH with ⟨-, hlb, -⟩ | ⟨hc, -, hrb2⟩ | ⟨-, hlb, -⟩
              · rw [hlred] at hlb; cases hlb
              · exact ⟨hc, hrb2⟩
              · rw [hlred] at hlb; cases hlb
            obtain ⟨hc, hrb2⟩ := hH2
            subst hc
            rcases red_node_shape hlred with ⟨ly, ll, lr, rfl⟩
            rcases rr_split hRl with ⟨hRll, hRlr, hred⟩
            rcases hred rfl with ⟨hllb, hlrb⟩
            rcases ll_split hLl with ⟨-, hLll, hLlr⟩
            rcases cbh_node_inv hbl with ⟨a, hbll, hblr, ha⟩
            simp at ha
            subst ha
            rcases pairwise_node_r.mp hsl with ⟨hsll, hslr, hllly, hlylr⟩
            have hlyx : ly < x := hlx ly (by rw [io_node_r]; simp)
            have hvly : ¬ icmp v ly = some Ordering.eq := by
              rw [icmp_eq_iff]
              omega
            have hstep : remove_recursive icmp v (fuel + 1)
                (RTree.node x (RTree.node ly ll lr .red) r .black)
                = (remove_recursive icmp v fuel (RTree.node x lr r .red)).bind
                    fun u => fix_up (RTree.node ly ll u .black) := by
              rcases hcvx with hc2 | hc2 <;>
                simp [remove_recursive, hc2, is_red_node_red, rotate_right,
                      left_of, hvly]
            have hsort2 : List.Pairwise (· < ·)
                (in_order_go (RTree.node x lr r .red)) := by
              refine pairwise_node_r.mpr ⟨hslr, hsr, ?_, hxr⟩
              intro b hb
              exact hlx b (by rw [io_node_r]; simp [hb])
            rcases ih v x lr r .red m (by simp only [rsize] at hsize ⊢; omega)
                hLlr hLr hRlr hRr hblr hbr (Or.inl ⟨rfl, hlrb, hrb2⟩) hsort2 with
              ⟨r3, hrec, hL3, hR3, hb3, hio3, -⟩
            simp only [if_neg (by simp : ¬ (Color.red = Color.black))] at hb3
            rw [hstep, hrec, Option.some_bind]
            have hdel2 : ldel v (in_order_go (RTree.node x
                (RTree.node ly ll lr .red) r .black))
                = in_order_go ll ++ ly ::
                    ldel v (in_order_go (RTree.node x lr r .red)) := by
              rw [io_node_r, io_node_r, io_node_r]
              have h1 : ldel v (in_order_go ll) = in_order_go ll := by
                refine ldel_of_forall_ne ?_
                intro b hb
                have hb2 : b < ly := hllly b hb
                omega
              rw [List.append_assoc, List.cons_append, ldel_append, h1,
                  ldel_cons_ne _ (by omega : ly ≠ v)]
            cases hr3red : is_red_node r3 with
            | true =>
                rcases red_node_shape hr3red with ⟨p, q0, s, rfl⟩
                rcases red_children_black hr3red hR3 with ⟨hqb, hsb⟩
                simp only [left_of, right_of] at hqb hsb
                rcases rr_split hR3 with ⟨hRq, hRs, -⟩
                rcases ll_split hL3 with ⟨-, hLq, hLs⟩
                rcases cbh_node_inv hb3 with ⟨f, hbq, hbs, hf⟩
                simp at hf
                subst hf
                have hfix : fix_up (RTree.node ly ll (RTree.node p q0 s .red) .black)
                    = some (RTree.node p (RTree.node ly ll q0 .red) s .black) := by
                  simp [fix_up, left_of, right_of, is_red_node_red, rotate_left,
                        hllb, hqb, hsb]
                rw [hfix]
                refine ⟨_, rfl, ?_, ?_, ?_, ?_, ?_⟩
                · exact ll_build hsb (ll_build hqb hLll hLq) hLs
                · exact rr_build_black (rr_build_red hllb hqb hRll hRq) hRs
                · rw [cbh_node_black (cbh_node_red hbll hbq) hbs]
                  simp
                · rw [show in_order_go (RTree.node p (RTree.node ly ll q0 .red) s .black)
                      = in_order_go ll ++ ly ::
                          in_order_go (RTree.node p q0 s .red) by
                    simp [in_order_go, List.append_assoc]]
                  rw [hdel2, hio3]
                · intro _
                  rfl
            | false =>
                have hfix : fix_up (RTree.node ly ll r3 .black)
                    = some (RTree.node ly ll r3 .black) := by
                  simp [fix_up, left_of, right_of, hllb, hr3red]
                rw [hfix]
                refine ⟨_, rfl, ll_build hr3red hLll hL3,
                  rr_build_black hRll hR3, ?_, ?_, ?_⟩
                · rw [cbh_node_black hbll hb3]
                  simp
                · show in_order_go ll ++ ly :: in_order_go r3 = _
                  rw [hdel2, hio3]
                · intro _
                  rfl
        | false =>
            -- left child not red
            cases r with
            | nil =>
                have hH1 : col = Color.red := by
                  rcases hH with ⟨hc, -, -⟩ | ⟨-, hlb, -⟩ | ⟨-, -, hrb3, -⟩
                  · exact hc
                  · rw [hlred] at hlb; cases hlb
                  · simp [is_red_node] at hrb3
                subst hH1
                have hm : m = 1 := by simp [check_black_height] at hbr; omega
                subst hm
                have hlnil : l = RTree.nil := cbh_one_black_nil hbl hlred
                subst hlnil
                rcases hcvx with hc2 | hc2
                · have hveq : v = x := icmp_eq_iff.mp hc2
                  subst hveq
                  have hstep : remove_recursive icmp v (fuel + 1)
                      (RTree.node v .nil .nil .red) = some .nil := by
                    simp [remove_recursive, hc2, is_red_node]
                  rw [hstep]
                  refine ⟨_, rfl, rfl, rfl, by simp [check_black_height], ?_, by simp⟩
                  simp [in_order_go, ldel]
                · have hgt : x < v := icmp_gt_iff.mp hc2
                  have hstep : remove_recursive icmp v (fuel + 1)
                      (RTree.node x .nil .nil .red) = some (RTree.node x .nil .nil .red) := by
                    simp [remove_recursive, hc2, is_red_node,
                          show ¬ icmp v x = some Ordering.eq by
                            rw [icmp_eq_iff]; omega,
                          fix_up, left_of, right_of]
                  rw [hstep]
                  refine ⟨_, rfl, rfl, rfl, by simp [check_black_height], ?_, by simp⟩
                  simp [in_order_go, ldel, show ¬ x = v by omega]
            | node ry rl rr rc =>
                rcases pairwise_node_r.mp hsr with ⟨hsrl, hsrr, hrlry, hryrr⟩
                cases rc with
                | red =>
                    -- red right child (only reachable searching right): no helper
                    have hH3 : col = Color.black := by
                      rcases hH with ⟨-, -, hrb3⟩ | ⟨-, hlb, -⟩ | ⟨hc, -, -, -⟩
                      · simp [is_red_node] at hrb3
                      · rw [hlred] at hlb; cases hlb
                      · exact hc
                    subst hH3
                    rcases red_children_black (is_red_node_red ry rl rr) hRr with ⟨hrlb, hrrb⟩
                    simp only [left_of, right_of] at hrlb hrrb
                    rcases rr_split hRr with ⟨hRrl, hRrr, -⟩
                    rcases ll_split hLr with ⟨-, hLrl, hLrr⟩
                    rcases cbh_node_inv hbr with ⟨a, hbrl, hbrr, ha⟩
                    simp at ha
                    subst ha
                    rcases hcvx with hc2 | hc2
                    · -- the value sits here: splice the minimum of the right subtree
                      have hveq : v = x := icmp_eq_iff.mp hc2
                      rcases remove_min_spec (rsize (RTree.node ry rl rr .red)) ry rl rr
                          .red m (le_refl _) hLrl hLrr hRrl hRrr hbrl hbrr
                          (Or.inl ⟨rfl, hrlb, hrrb⟩) with
                        ⟨r3, mv, hrm, hL3, hR3, hb3, hio3, -⟩
                      simp only [if_neg (by simp : ¬ (Color.red = Color.black))] at hb3
                      have hfind : find_min (RTree.node ry rl rr .red) = some mv := by
                        rw [find_min_eq_head, hio3]
                        rfl
                      have hstep : remove_recursive icmp v (fuel + 1)
                          (RTree.node x l (RTree.node ry rl rr .red) .black)
                          = (fix_up (RTree.node mv l r3 .black)) := by
                        simp [remove_recursive, hc2, hlred, is_red_node_red, left_of,
                              hfind, hrm]
                      have hdel2 : ldel v (in_order_go (RTree.node x l
                          (RTree.node ry rl rr .red) .black))
                          = in_order_go l ++ in_order_go (RTree.node ry rl rr .red) := by
                        rw [io_node_r, ldel_append,
                            ldel_of_forall_ne (fun b hb => by
                              have := hlx b hb; omega),
                            show (x :: in_order_go (RTree.node ry rl rr .red))
                              = v :: in_order_go (RTree.node ry rl rr .red) by rw [hveq],
                            ldel_cons_self (fun b hb => by
                              have := hxr b hb; omega)]
                        rw [ldel_of_forall_ne (fun b hb => by
                          have := hxr b hb; omega)]
                      rw [hstep]
                      cases hr3red : is_red_node r3 with
                      | true =>
                          rcases red_node_shape hr3red with ⟨p, q0, s, rfl⟩
                          rcases red_children_black hr3red hR3 with ⟨hqb, hsb⟩
                          simp only [left_of, right_of] at hqb hsb
                          rcases rr_split hR3 with ⟨hRq, hRs, -⟩
                          rcases ll_split hL3 with ⟨-, hLq, hLs⟩
                          rcases cbh_node_inv hb3 with ⟨f, hbq, hbs, hf⟩
                          simp at hf
                          subst hf
                          have hfix : fix_up (RTree.node mv l (RTree.node p q0 s .red) .black)
                              = some (RTree.node p (RTree.node mv l q0 .red) s .black) := by
                            simp [fix_up, left_of, right_of, is_red_node_red, rotate_left,
                                  hlred, hqb, hsb]
                          rw [hfix]
                          refine ⟨_, rfl, ?_, ?_, ?_, ?_, ?_⟩
                          · exact ll_build hsb (ll_build hqb hLl hLq) hLs
                          · exact rr_build_black (rr_build_red hlred hqb hRl hRq) hRs
                          · rw [cbh_node_black (cbh_node_red hbl hbq) hbs]
                            simp
                          · rw [show in_order_go (RTree.node p
                                  (RTree.node mv l q0 .red) s .black)
                                = in_order_go l ++ mv ::
                                    in_order_go (RTree.node p q0 s .red) by
                              simp [in_order_go, List.append_assoc]]
                            rw [hdel2, hio3]
                          · intro _
                            rfl
                      | false =>
                          have hfix : fix_up (RTree.node mv l r3 .black)
                              = some (RTree.node mv l r3 .black) := by
                            simp [fix_up, left_of, right_of, hlred, hr3red]
                          rw [hfix]
                          refine ⟨_, rfl, ll_build hr3red hLl hL3,
                            rr_build_black hRl hR3, ?_, ?_, ?_⟩
                          · rw [cbh_node_black hbl hb3]
                            simp
                          · show in_order_go l ++ mv :: in_order_go r3 = _
                            rw [hdel2, hio3]
                          · intro _
                            rfl
                    · -- descend right into the red child
                      have hgt : x < v := icmp_gt_iff.mp hc2
                      rcases ih v ry rl rr .red m (by simp only [rsize] at hsize ⊢; omega)
                          hLrl hLrr hRrl hRrr hbrl hbrr (Or.inl ⟨rfl, hrlb, hrrb⟩) hsr with
                        ⟨r3, hrec, hL3, hR3, hb3, hio3, -⟩
                      simp only [if_neg (by simp : ¬ (Color.red = Color.black))] at hb3
                      have hstep : remove_recursive icmp v (fuel + 1)
                          (RTree.node x l (RTree.node ry rl rr .red) .black)
                          = (remove_recursive icmp v fuel (RTree.node ry rl rr .red)).bind
                              fun u => fix_up (RTree.node x l u .black) := by
                        simp [remove_recursive, hc2, hlred, is_red_node_red, left_of,
                              show ¬ icmp v x = some Ordering.eq by
                                rw [icmp_eq_iff]; omega]
                      rw [hstep, hrec, Option.some_bind]
                      have hdel2 : ldel v (in_order_go (RTree.node x l
                          (RTree.node ry rl rr .red) .black))
                          = in_order_go l ++ x ::
                              ldel v (in_order_go (RTree.node ry rl rr .red)) := by
                        rw [io_node_r, ldel_append,
                            ldel_of_forall_ne (fun b hb => by
                              have := hlx b hb; omega),
                            ldel_cons_ne _ (by omega : x ≠ v)]
                      cases hr3red : is_red_node r3 with
                      | true =>
                          rcases red_node_shape hr3red with ⟨p, q0, s, rfl⟩
                          rcases red_children_black hr3red hR3 with ⟨hqb, hsb⟩
                          simp only [left_of, right_of] at hqb hsb
                          rcases rr_split hR3 with ⟨hRq, hRs, -⟩
                          rcases ll_split hL3 with ⟨-, hLq, hLs⟩
                          rcases cbh_node_inv hb3 with ⟨f, hbq, hbs, hf⟩
                          simp at hf
                          subst hf
                          have hfix : fix_up (RTree.node x l (RTree.node p q0 s .red) .black)
                              = some (RTree.node p (RTree.node x l q0 .red) s .black) := by
                            simp [fix_up, left_of, right_of, is_red_node_red, rotate_left,
                                  hlred, hqb, hsb]
                          rw [hfix]
                          refine ⟨_, rfl, ?_, ?_, ?_, ?_, ?_⟩
                          · exact ll_build hsb (ll_build hqb hLl hLq) hLs
                          · exact rr_build_black (rr_build_red hlred hqb hRl hRq) hRs
                          · rw [cbh_node_black (cbh_node_red hbl hbq) hbs]
                            simp
                          · rw [show in_order_go (RTree.node p
                                  (RTree.node x l q0 .red) s .black)
                                = in_order_go l ++ x ::
                                    in_order_go (RTree.node p q0 s .red) by
                              simp [in_order_go, List.append_assoc]]
                            rw [hdel2, hio3]
                          · intro _
                            rfl
                      | false =>
                          have hfix : fix_up (RTree.node x l r3 .black)
                              = some (RTree.node x l r3 .black) := by
                            simp [fix_up, left_of, right_of, hlred, hr3red]
                          rw [hfix]
                          refine ⟨_, rfl, ll_build hr3red hLl hL3,
                            rr_build_black hRl hR3, ?_, ?_, ?_⟩
                          · rw [cbh_node_black hbl hb3]
                            simp
                          · show in_order_go l ++ x :: in_order_go r3 = _
                            rw [hdel2, hio3]
                          · intro _
                            rfl
                | black =>
                    -- black right child: H1; maybe move_red_right
                    have hH1 : col = Color.red := by
                      rcases hH with ⟨hc, -, -⟩ | ⟨-, hlb, -⟩ | ⟨-, -, hrb3, -⟩
                      · exact hc
                      · rw [hlred] at hlb; cases hlb
                      · simp [is_red_node] at hrb3
                    subst hH1
                    rcases rr_split hRr with ⟨hRrl, hRrr, -⟩
                    rcases ll_split hLr with ⟨hrrb, hLrl, hLrr⟩
                    rcases cbh_node_inv hbr with ⟨a, hbrl, hbrr, ha⟩
                    simp at ha
                    subst ha
                    have ha1 : 1 ≤ a := cbh_pos hbrl
                    rcases black_node_shape hbl hlred (by omega) with
                      ⟨ly, ll, lr, rfl, c, hbll, hblr, hc⟩
                    have hca : a = c := by omega
                    subst hca
                    rcases rr_split hRl with ⟨hRll, hRlr, -⟩
                    rcases ll_split hLl with ⟨hlrb, hLll, hLlr⟩
                    rcases pairwise_node_r.mp hsl with ⟨hsll, hslr, hllly, hlylr⟩
                    simp only [rsize] at hsize
                    cases hrlred : is_red_node rl with
                    | true =>
                        -- right-left red: no move_red_right
                        rcases hcvx with hc2 | hc2
                        · -- splice
                          have hveq : v = x := icmp_eq_iff.mp hc2
                          rcases remove_min_spec (rsize (RTree.node ry rl rr .black)) ry
                              rl rr .black a (le_refl _) hLrl hLrr hRrl hRrr hbrl hbrr
                              (Or.inr ⟨rfl, hrlred, hrrb⟩) with
                            ⟨r3, mv, hrm, hL3, hR3, hb3, hio3, hbk3⟩
                          simp only [if_pos rfl] at hb3
                          have hr3b : is_red_node r3 = false := hbk3 rfl
                          have hfind : find_min (RTree.node ry rl rr .black) = some mv := by
                            rw [find_min_eq_head, hio3]
                            rfl
                          have hstep : remove_recursive icmp v (fuel + 1)
                              (RTree.node x (RTree.node ly ll lr .black)
                                (RTree.node ry rl rr .black) .red)
                              = fix_up (RTree.node mv (RTree.node ly ll lr .black)
                                  r3 .red) := by
                            simp [remove_recursive, hc2, is_red_node_black, left_of,
                                  hrlred, hfind, hrm]
                          rw [hstep]
                          have hfix : fix_up (RTree.node mv (RTree.node ly ll lr .black)
                              r3 .red)
                              = some (RTree.node mv (RTree.node ly ll lr .black)
                                  r3 .red) := by
                            simp [fix_up, left_of, right_of, is_red_node_black, hr3b]
                          rw [hfix]
                          have hdel2 : ldel v (in_order_go (RTree.node x
                              (RTree.node ly ll lr .black)
                              (RTree.node ry rl rr .black) .red))
                              = in_order_go (RTree.node ly ll lr .black)
                                ++ in_order_go (RTree.node ry rl rr .black) := by
                            rw [io_node_r, ldel_append,
                                ldel_of_forall_ne (fun b hb => by
                                  have := hlx b hb; omega),
                                show (x :: in_order_go (RTree.node ry rl rr .black))
                                  = v :: in_order_go (RTree.node ry rl rr .black) by
                                    rw [hveq],
                                ldel_cons_self (fun b hb => by
                                  have := hxr b hb; omega),
                                ldel_of_forall_ne (fun b hb => by
                                  have := hxr b hb; omega)]
                          refine ⟨_, rfl, ll_build hr3b hLl hL3,
                            rr_build_red (is_red_node_black ly ll lr) hr3b hRl hR3,
                            ?_, ?_, ?_⟩
                          · rw [cbh_node_red hbl hb3]
                            simp
                          · show in_order_go (RTree.node ly ll lr .black)
                                ++ mv :: in_order_go r3 = _
                            rw [hdel2, hio3]
                          · intro hc3
                            simp at hc3
                        · -- descend right
                          have hgt : x < v := icmp_gt_iff.mp hc2
                          rcases ih v ry rl rr .black a
                              (by simp only [rsize] at hsize ⊢; omega)
                              hLrl hLrr hRrl hRrr hbrl hbrr
                              (Or.inr (Or.inl ⟨rfl, hrlred, hrrb⟩)) hsr with
                            ⟨r3, hrec, hL3, hR3, hb3, hio3, hbk3⟩
                          simp only [if_pos rfl] at hb3
                          have hr3b : is_red_node r3 = false := hbk3 rfl
                          have hstep : remove_recursive icmp v (fuel + 1)
                              (RTree.node x (RTree.node ly ll lr .black)
                                (RTree.node ry rl rr .black) .red)
                              = (remove_recursive icmp v fuel
                                  (RTree.node ry rl rr .black)).bind
                                  fun u => fix_up (RTree.node x
                                    (RTree.node ly ll lr .black) u .red) := by
                            simp [remove_recursive, hc2, is_red_node_black, left_of,
                                  hrlred,
                                  show ¬ icmp v x = some Ordering.eq by
                                    rw [icmp_eq_iff]; omega]
                          rw [hstep, hrec, Option.some_bind]
                          have hfix : fix_up (RTree.node x (RTree.node ly ll lr .black)
                              r3 .red)
                              = some (RTree.node x (RTree.node ly ll lr .black) r3 .red) := by
                            simp [fix_up, left_of, right_of, is_red_node_black, hr3b]
                          rw [hfix]
                          have hdel2 : ldel v (in_order_go (RTree.node x
                              (RTree.node ly ll lr .black)
                              (RTree.node ry rl rr .black) .red))
                              = in_order_go (RTree.node ly ll lr .black)
                                ++ x :: ldel v (in_order_go
                                  (RTree.node ry rl rr .black)) := by
                            rw [io_node_r, ldel_append,
                                ldel_of_forall_ne (fun b hb => by
                                  have := hlx b hb; omega),
                                ldel_cons_ne _ (by omega : x ≠ v)]
                          refine ⟨_, rfl, ll_build hr3b hLl hL3,
                            rr_build_red (is_red_node_black ly ll lr) hr3b hRl hR3,
                            ?_, ?_, ?_⟩
                          · rw [cbh_node_red hbl hb3]
                            simp
                          · show in_order_go (RTree.node ly ll lr .black)
                                ++ x :: in_order_go r3 = _
                            rw [hdel2, hio3]
                          · intro hc3
                            simp at hc3
                    | false =>
                        -- move_red_right
                        cases hllred : is_red_node ll with
                        | true =>
                            -- left-left red: rotate inside move_red_right
                            rcases red_node_shape hllred with ⟨py, qq, ss, rfl⟩
                            rcases red_children_black hllred hRll with ⟨hqqb, hssb⟩
                            simp only [left_of, right_of] at hqqb hssb
                            rcases rr_split hRll with ⟨hRqq, hRss, -⟩
                            rcases ll_split hLll with ⟨-, hLqq, hLss⟩
                            rcases cbh_node_inv hbll with ⟨e, hbqq, hbss, he⟩
                            simp at he
                            subst he
                            have hmrr : move_red_right (RTree.node x
                                (RTree.node ly (RTree.node py qq ss .red) lr .black)
                                (RTree.node ry rl rr .black) .red)
                                = some (RTree.node ly (RTree.node py qq ss .black)
                                    (RTree.node x lr (RTree.node ry rl rr .red) .black)
                                    .red) := by
                              simp [move_red_right, flip_colors, flip_node_color, flip,
                                    left_of, is_red_node_red, rotate_right]
                            have hlyx : ly < x := hlx ly (by rw [io_node_r]; simp)
                            have hvly : ¬ icmp v ly = some Ordering.eq := by
                              rw [icmp_eq_iff]
                              rcases hcvx with hc2 | hc2
                              · have := icmp_eq_iff.mp hc2; omega
                              · have := icmp_gt_iff.mp hc2; omega
                            have hstep : remove_recursive icmp v (fuel + 1)
                                (RTree.node x
                                  (RTree.node ly (RTree.node py qq ss .red) lr .black)
                                  (RTree.node ry rl rr .black) .red)
                                = (remove_recursive icmp v fuel
                                    (RTree.node x lr
                                      (RTree.node ry rl rr .red) .black)).bind
                                    fun u => fix_up (RTree.node ly
                                      (RTree.node py qq ss .black) u .red) := by
                              rcases hcvx with hc2 | hc2 <;>
                                simp [remove_recursive, hc2, is_red_node_black, left_of,
                                      hrlred, hmrr, hvly]
                            have hsort2 : List.Pairwise (· < ·)
                                (in_order_go (RTree.node x lr
                                  (RTree.node ry rl rr .red) .black)) := by
                              refine pairwise_node_r.mpr ⟨hslr, ?_, ?_, ?_⟩
                              · exact pairwise_node_r.mpr ⟨hsrl, hsrr, hrlry, hryrr⟩
                              · intro b hb
                                exact hlx b (by rw [io_node_r]; simp [hb])
                              · intro b hb
                                refine hxr b ?_
                                rw [io_node_r] at hb ⊢
                                exact hb
                            rcases ih v x lr (RTree.node ry rl rr .red) .black a
                                (by simp only [rsize] at hsize ⊢; omega)
                                hLlr (ll_build hrrb hLrl hLrr) hRlr
                                (rr_build_red hrlred hrrb hRrl hRrr) hblr
                                (cbh_node_red hbrl hbrr)
                                (Or.inr (Or.inr ⟨rfl, hlrb,
                                  is_red_node_red ry rl rr, hvx⟩)) hsort2 with
                              ⟨r3, hrec, hL3, hR3, hb3, hio3, hbk3⟩
                            simp only [if_pos rfl] at hb3
                            have hr3b : is_red_node r3 = false := hbk3 rfl
                            rw [hstep, hrec, Option.some_bind]
                            have hfix : fix_up (RTree.node ly
                                (RTree.node py qq ss .black) r3 .red)
                                = some (RTree.node ly (RTree.node py qq ss .black)
                                    r3 .red) := by
                              simp [fix_up, left_of, right_of, is_red_node_black, hr3b]
                            rw [hfix]
                            have hdel2 : ldel v (in_order_go (RTree.node x
                                (RTree.node ly (RTree.node py qq ss .red) lr .black)
                                (RTree.node ry rl rr .black) .red))
                                = in_order_go (RTree.node py qq ss .red) ++ ly ::
                                    ldel v (in_order_go (RTree.node x lr
                                      (RTree.node ry rl rr .red) .black)) := by
                              rw [io_node_r, io_node_r]
                              rw [show (in_order_go (RTree.node py qq ss .red)
                                    ++ ly :: in_order_go lr)
                                  ++ x :: in_order_go (RTree.node ry rl rr .black)
                                  = in_order_go (RTree.node py qq ss .red)
                                    ++ ly :: (in_order_go lr
                                      ++ x :: in_order_go (RTree.node ry rl rr .black)) by
                                simp [List.append_assoc]]
                              rw [ldel_append,
                                  ldel_of_forall_ne (fun b hb => by
                                    have hb2 : b < ly := hllly b hb
                                    have := hlx ly (by rw [io_node_r]; simp)
                                    rcases hcvx with hc2 | hc2
                                    · have := icmp_eq_iff.mp hc2; omega
                                    · have := icmp_gt_iff.mp hc2; omega),
                                  ldel_cons_ne _ (by
                                    rcases hcvx with hc2 | hc2
                                    · have := icmp_eq_iff.mp hc2; omega
                                    · have := icmp_gt_iff.mp hc2; omega)]
                              simp [in_order_go]
                            refine ⟨_, rfl, ?_, ?_, ?_, ?_, ?_⟩
                            · exact ll_build hr3b
                                (ll_build hssb hLqq hLss) hL3
                            · exact rr_build_red (is_red_node_black py qq ss) hr3b
                                (rr_build_black hRqq hRss) hR3
                            · rw [cbh_node_red (cbh_node_black hbqq hbss) hb3]
                              simp
                            · show in_order_go (RTree.node py qq ss .black)
                                  ++ ly :: in_order_go r3 = _
                              rw [hdel2, hio3]
                              simp [in_order_go]
                            · intro hc3
                              simp at hc3
                        | false =>
                            -- plain color flip
                            have hmrr : move_red_right (RTree.node x
                                (RTree.node ly ll lr .black)
                                (RTree.node ry rl rr .black) .red)
                                = some (RTree.node x (RTree.node ly ll lr .red)
                                    (RTree.node ry rl rr .red) .black) := by
                              simp [move_red_right, flip_colors, flip_node_color, flip,
                                    left_of, hllred]
                            rcases hcvx with hc2 | hc2
                            · -- splice the minimum of the (now red) right child
                              have hveq : v = x := icmp_eq_iff.mp hc2
                              rcases remove_min_spec (rsize (RTree.node ry rl rr .red))
                                  ry rl rr .red a (le_refl _) hLrl hLrr hRrl hRrr
                                  hbrl hbrr (Or.inl ⟨rfl, hrlred, hrrb⟩) with
                                ⟨r3, mv, hrm, hL3, hR3, hb3, hio3, -⟩
                              simp only [if_neg
                                (by simp : ¬ (Color.red = Color.black))] at hb3
                              have hfind : find_min (RTree.node ry rl rr .red)
                                  = some mv := by
                                rw [find_min_eq_head, hio3]
                                rfl
                              have hstep : remove_recursive icmp v (fuel + 1)
                                  (RTree.node x (RTree.node ly ll lr .black)
                                    (RTree.node ry rl rr .black) .red)
                                  = fix_up (RTree.node mv (RTree.node ly ll lr .red)
                                      r3 .black) := by
                                simp [remove_recursive, hc2, is_red_node_black, left_of,
                                      hrlred, hmrr, hfind, hrm]
                              rw [hstep]
                              have hdel2 : ldel v (in_order_go (RTree.node x
                                  (RTree.node ly ll lr .black)
                                  (RTree.node ry rl rr .black) .red))
                                  = in_order_go (RTree.node ly ll lr .black)
                                    ++ in_order_go (RTree.node ry rl rr .black) := by
                                rw [io_node_r, ldel_append,
                                    ldel_of_forall_ne (fun b hb => by
                                      have := hlx b hb; omega),
                                    show (x :: in_order_go (RTree.node ry rl rr .black))
                                      = v :: in_order_go (RTree.node ry rl rr .black) by
                                        rw [hveq],
                                    ldel_cons_self (fun b hb => by
                                      have := hxr b hb; omega),
                                    ldel_of_forall_ne (fun b hb => by
                                      have := hxr b hb; omega)]
                              cases hr3red : is_red_node r3 with
                              | true =>
                                  rcases red_node_shape hr3red with ⟨p, q0, s, rfl⟩
                                  rcases red_children_black hr3red hR3 with ⟨hqb, hsb⟩
                                  simp only [left_of, right_of] at hqb hsb
                                  rcases rr_split hR3 with ⟨hRq, hRs, -⟩
                                  rcases ll_split hL3 with ⟨-, hLq, hLs⟩
                                  rcases cbh_node_inv hb3 with ⟨f, hbq, hbs, hf⟩
                                  simp at hf
                                  subst hf
                                  have hfix : fix_up (RTree.node mv
                                      (RTree.node ly ll lr .red)
                                      (RTree.node p q0 s .red) .black)
                                      = some (RTree.node mv
                                          (RTree.node ly ll lr .black)
                                          (RTree.node p q0 s .black) .red) := by
                                    simp [fix_up, left_of, right_of, is_red_node_red,
                                          rotate_left, rotate_right,
                                          flip_colors, flip_node_color, flip]
                                  rw [hfix]
                                  refine ⟨_, rfl, ?_, ?_, ?_, ?_, ?_⟩
                                  · exact ll_build (is_red_node_black p q0 s)
                                      (ll_build hlrb hLll hLlr) (ll_build hsb hLq hLs)
                                  · exact rr_build_red (is_red_node_black ly ll lr)
                                      (is_red_node_black p q0 s)
                                      (rr_build_black hRll hRlr)
                                      (rr_build_black hRq hRs)
                                  · rw [cbh_node_red (cbh_node_black hbll hblr)
                                      (cbh_node_black hbq hbs)]
                                    simp
                                  · rw [show in_order_go (RTree.node mv
                                          (RTree.node ly ll lr .black)
                                          (RTree.node p q0 s .black) .red)
                                        = in_order_go (RTree.node ly ll lr .black)
                                          ++ mv :: in_order_go
                                            (RTree.node p q0 s .red) by
                                      simp [in_order_go]]
                                    rw [hdel2, show in_order_go (RTree.node ry rl rr .black)
                                      = in_order_go (RTree.node ry rl rr .red) from rfl, hio3]
                                  · intro hc3
                                    simp at hc3
                              | false =>
                                  have hfix : fix_up (RTree.node mv
                                      (RTree.node ly ll lr .red) r3 .black)
                                      = some (RTree.node mv (RTree.node ly ll lr .red)
                                          r3 .black) := by
                                    simp [fix_up, left_of, right_of, is_red_node_red,
                                          hllred, hr3red]
                                  rw [hfix]
                                  refine ⟨_, rfl,
                                    ll_build hr3red (ll_build hlrb hLll hLlr) hL3,
                                    rr_build_black
                                      (rr_build_red hllred hlrb hRll hRlr) hR3,
                                    ?_, ?_, ?_⟩
                                  · rw [cbh_node_black (cbh_node_red hbll hblr) hb3]
                                    simp
                                  · show in_order_go (RTree.node ly ll lr .red)
                                        ++ mv :: in_order_go r3 = _
                                    rw [hdel2, show in_order_go (RTree.node ry rl rr .black)
                                      = in_order_go (RTree.node ry rl rr .red) from rfl, hio3]
                                    simp [in_order_go]
                                  · intro _
                                    rfl
                            · -- descend right into the reddened right child
                              have hgt : x < v := icmp_gt_iff.mp hc2
                              rcases ih v ry rl rr .red a
                                  (by simp only [rsize] at hsize ⊢; omega)
                                  hLrl hLrr hRrl hRrr hbrl hbrr
                                  (Or.inl ⟨rfl, hrlred, hrrb⟩) hsr with
                                ⟨r3, hrec, hL3, hR3, hb3, hio3, -⟩
                              simp only [if_neg
                                (by simp : ¬ (Color.red = Color.black))] at hb3
                              have hstep : remove_recursive icmp v (fuel + 1)
                                  (RTree.node x (RTree.node ly ll lr .black)
                                    (RTree.node ry rl rr .black) .red)
                                  = (remove_recursive icmp v fuel
                                      (RTree.node ry rl rr .red)).bind
                                      fun u => fix_up (RTree.node x
                                        (RTree.node ly ll lr .red) u .black) := by
                                simp [remove_recursive, hc2, is_red_node_black, left_of,
                                      hrlred, hmrr,
                                      show ¬ icmp v x = some Ordering.eq by
                                        rw [icmp_eq_iff]; omega]
                              rw [hstep, hrec, Option.some_bind]
                              have hdel2 : ldel v (in_order_go (RTree.node x
                                  (RTree.node ly ll lr .black)
                                  (RTree.node ry rl rr .black) .red))
                                  = in_order_go (RTree.node ly ll lr .black)
                                    ++ x :: ldel v (in_order_go
                                      (RTree.node ry rl rr .black)) := by
                                rw [io_node_r, ldel_append,
                                    ldel_of_forall_ne (fun b hb => by
                                      have := hlx b hb; omega),
                                    ldel_cons_ne _ (by omega : x ≠ v)]
                              cases hr3red : is_red_node r3 with
                              | true =>
                                  rcases red_node_shape hr3red with ⟨p, q0, s, rfl⟩
                                  rcases red_children_black hr3red hR3 with ⟨hqb, hsb⟩
                                  simp only [left_of, right_of] at hqb hsb
                                  rcases rr_split hR3 with ⟨hRq, hRs, -⟩
                                  rcases ll_split hL3 with ⟨-, hLq, hLs⟩
                                  rcases cbh_node_inv hb3 with ⟨f, hbq, hbs, hf⟩
                                  simp at hf
                                  subst hf
                                  have hfix : fix_up (RTree.node x
                                      (RTree.node ly ll lr .red)
                                      (RTree.node p q0 s .red) .black)
                                      = some (RTree.node x
                                          (RTree.node ly ll lr .black)
                                          (RTree.node p q0 s .black) .red) := by
                                    simp [fix_up, left_of, right_of, is_red_node_red,
                                          rotate_left, rotate_right,
                                          flip_colors, flip_node_color, flip]
                                  rw [hfix]
                                  refine ⟨_, rfl, ?_, ?_, ?_, ?_, ?_⟩
                                  · exact ll_build (is_red_node_black p q0 s)
                                      (ll_build hlrb hLll hLlr) (ll_build hsb hLq hLs)
                                  · exact rr_build_red (is_red_node_black ly ll lr)
                                      (is_red_node_black p q0 s)
                                      (rr_build_black hRll hRlr)
                                      (rr_build_black hRq hRs)
                                  · rw [cbh_node_red (cbh_node_black hbll hblr)
                                      (cbh_node_black hbq hbs)]
                                    simp
                                  · rw [show in_order_go (RTree.node x
                                          (RTree.node ly ll lr .black)
                                          (RTree.node p q0 s .black) .red)
                                        = in_order_go (RTree.node ly ll lr .black)
                                          ++ x :: in_order_go
                                            (RTree.node p q0 s .red) by
                                      simp [in_order_go]]
                                    rw [hdel2, hio3]
                                    simp [in_order_go]
                                  · intro hc3
                                    simp at hc3
                              | false =>
                                  have hfix : fix_up (RTree.node x
                                      (RTree.node ly ll lr .red) r3 .black)
                                      = some (RTree.node x (RTree.node ly ll lr .red)
                                          r3 .black) := by
                                    simp [fix_up, left_of, right_of, is_red_node_red,
                                          hllred, hr3red]
                                  rw [hfix]
                                  refine ⟨_, rfl,
                                    ll_build hr3red (ll_build hlrb hLll hLlr) hL3,
                                    rr_build_black
                                      (rr_build_red hllred hlrb hRll hRlr) hR3,
                                    ?_, ?_, ?_⟩
                                  · rw [cbh_node_black (cbh_node_red hbll hblr) hb3]
                                    simp
                                  · show in_order_go (RTree.node ly ll lr .red)
                                        ++ x :: in_order_go r3 = _
                                    rw [hdel2, hio3]
                                    simp [in_order_go]
                                  · intro _
                                    rfl

end Rbt

namespace Rbt

theorem srb_io : ∀ t : RTree Int, in_order_go (set_root_black t) = in_order_go t
  | .nil => rfl
  | .node _ _ _ _ => rfl

theorem srb_ll : ∀ t : RTree Int, ll_ok (set_root_black t) = ll_ok t
  | .nil => rfl
  | .node _ _ _ c => by cases c <;> rfl

theorem srb_black : ∀ t : RTree Int, is_red_node (set_root_black t) = false
  | .nil => rfl
  | .node _ _ _ _ => rfl

theorem srb_rr {t : RTree Int} (hl : check_red_property (left_of t) = true)
    (hr : check_red_property (right_of t) = true) :
    check_red_property (set_root_black t) = true := by
  cases t with
  | nil => rfl
  | node x l r c =>
      simp only [left_of, right_of] at hl hr
      exact rr_build_black hl hr

theorem srb_bh {t : RTree Int} {n : Nat} (h : check_black_height t = some n) :
    ∃ k, check_black_height (set_root_black t) = some k := by
  cases t with
  | nil => exact ⟨1, rfl⟩
  | node x l r c =>
      rcases cbh_node_inv h with ⟨a, hl, hr, -⟩
      exact ⟨a + 1, cbh_node_black hl hr⟩

/-- The top-level call of the recursive deletion, on an at-rest root: black,
left-leaning, no red-red edge, uniform black height.  There is no
precondition on the children's colors; the result may carry a red root
(possibly with a red left child), which `set_root_black` then repairs. -/
theorem remove_root_spec : ∀ (fuel : Nat) (v x : Int) (l r : RTree Int) (m : Nat),
    rsize (RTree.node x l r .black) ≤ fuel + 1 →
    ll_ok l = true → ll_ok r = true →
    check_red_property l = true → check_red_property r = true →
    is_red_node r = false →
    check_black_height l = some m → check_black_height r = some m →
    List.Pairwise (· < ·) (in_order_go (RTree.node x l r .black)) →
    ∃ t', remove_recursive icmp v (fuel + 1) (RTree.node x l r .black) = some t' ∧
      ll_ok t' = true ∧
      check_red_property (left_of t') = true ∧
      check_red_property (right_of t') = true ∧
      (is_red_node t' = true → is_red_node (right_of t') = false) ∧
      (∃ k, check_black_height t' = some k) ∧
      in_order_go t' = ldel v (in_order_go (RTree.node x l r .black)) := by
  intro fuel v x l r m hsize hLl hLr hRl hRr hrb hbl hbr hsorted
  rcases pairwise_node_r.mp hsorted with ⟨hsl, hsr, hlx, hxr⟩
  simp only [rsize] at hsize
  cases hlred : is_red_node l with
  | true =>
      -- red left child: the strong invariant already holds
      rcases remove_rec_spec (fuel + 1) v x l r .black m (by simp only [rsize]; omega)
          hLl hLr hRl hRr hbl hbr (Or.inr (Or.inl ⟨rfl, hlred, hrb⟩)) hsorted with
        ⟨t', hrec, hL', hR', hb', hio', hbk'⟩
      have hb2 : is_red_node t' = false := hbk' rfl
      refine ⟨t', hrec, hL', ?_, ?_, ?_, ⟨_, hb'⟩, hio'⟩
      · cases t' with
        | nil => rfl
        | node a b c d => exact (rr_split hR').1
      · cases t' with
        | nil => rfl
        | node a b c d => exact (rr_split hR').2.1
      · intro hcon
        rw [hb2] at hcon
        cases hcon
  | false =>
      by_cases hvx : v < x
      · -- descend left with no red to push: flip first
        have hner : ∀ b ∈ in_order_go r, b ≠ v := by
          intro b hb
          have := hxr b hb
          omega
        have hdelT : ldel v (in_order_go l ++ x :: in_order_go r)
            = ldel v (in_order_go l) ++ x :: in_order_go r := by
          rw [ldel_append, ldel_cons_ne _ (show x ≠ v by omega), ldel_of_forall_ne hner]
        cases l with
        | nil =>
            have hm : m = 1 := by simp [check_black_height] at hbl; omega
            subst hm
            have hrnil : r = RTree.nil := cbh_one_black_nil hbr hrb
            subst hrnil
            have hstep : remove_recursive icmp v (fuel + 1)
                (RTree.node x .nil .nil .black) = some (RTree.node x .nil .nil .black) := by
              simp [remove_recursive, icmp_of_lt hvx, fix_up, left_of, right_of,
                    is_red_node]
            rw [hstep]
            refine ⟨_, rfl, rfl, rfl, rfl, by simp [is_red_node], ⟨2, by
              simp [check_black_height]⟩, ?_⟩
            simp [in_order_go, ldel, show ¬ x = v by omega]
        | node ly ll lr lc =>
            have hlcb : lc = Color.black := by
              cases lc
              · simp [is_red_node] at hlred
              · rfl
            subst hlcb
            rcases rr_split hRl with ⟨hRll, hRlr, -⟩
            rcases ll_split hLl with ⟨hlrb, hLll, hLlr⟩
            rcases cbh_node_inv hbl with ⟨a, hbll, hblr, ha⟩
            simp at ha
            subst ha
            cases hllred : is_red_node ll with
            | true =>
                -- left-left red: skip the helper and recurse
                rcases remove_rec_spec fuel v ly ll lr .black a
                    (by simp only [rsize] at hsize ⊢; omega)
                    hLll hLlr hRll hRlr hbll hblr
                    (Or.inr (Or.inl ⟨rfl, hllred, hlrb⟩)) hsl with
                  ⟨l'', hrec, hL'', hR'', hb'', hio'', hbk''⟩
                simp only [if_pos rfl] at hb''
                have hl''b : is_red_node l'' = false := hbk'' rfl
                have hstep : remove_recursive icmp v (fuel + 1)
                    (RTree.node x (RTree.node ly ll lr .black) r .black)
                    = (remove_recursive icmp v fuel (RTree.node ly ll lr .black)).bind
                        fun u => fix_up (RTree.node x u r .black) := by
                  simp [remove_recursive, icmp_of_lt hvx, is_red_node_black,
                        left_of, hllred]
                rw [hstep, hrec, Option.some_bind]
                have hfix : fix_up (RTree.node x l'' r .black)
                    = some (RTree.node x l'' r .black) := by
                  simp [fix_up, left_of, right_of, hrb, hl''b]
                rw [hfix]
                refine ⟨_, rfl, ll_build hrb hL'' hLr, hR'', hRr,
                  fun _ => hrb, ⟨_, cbh_node_black hb'' hbr⟩, ?_⟩
                show in_order_go l'' ++ x :: in_order_go r = _
                rw [io_node_r, hdelT, hio'']
            | false =>
                -- both black: move_red_left reddens the root
                have ha1 : 1 ≤ a := cbh_pos hbll
                rcases black_node_shape hbr hrb (by omega) with
                  ⟨ry, rl, rr, rfl, c, hbrl, hbrr, hc⟩
                have hca : a = c := by omega
                subst hca
                rcases rr_split hRr with ⟨hRrl, hRrr, -⟩
                rcases ll_split hLr with ⟨hrrb, hLrl, hLrr⟩
                simp only [rsize] at hsize
                cases hrlred : is_red_node rl with
                | true =>
                    rcases red_node_shape hrlred with ⟨rly, rll, rlr, rfl⟩
                    rcases red_children_black hrlred hRrl with ⟨hrllb, hrlrb⟩
                    simp only [left_of, right_of] at hrllb hrlrb
                    rcases rr_split hRrl with ⟨hRrll, hRrlr, -⟩
                    rcases ll_split hLrl with ⟨-, hLrll, hLrlr⟩
                    rcases cbh_node_inv hbrl with ⟨e, hbrll, hbrlr, he⟩
                    simp at he
                    subst he
                    rcases pairwise_node_r.mp hsr with ⟨hsrl, hsrr, hrlry, hryrr⟩
                    rcases pairwise_node_r.mp hsrl with ⟨hsrll, hsrlr, hrllx2, hxrlr2⟩
                    have hmrl : move_red_left (RTree.node x (RTree.node ly ll lr .black)
                        (RTree.node ry (RTree.node rly rll rlr .red) rr .black) .black)
                        = some (RTree.node rly
                            (RTree.node x (RTree.node ly ll lr .red) rll .black)
                            (RTree.node ry rlr rr .black) .black) := by
                      simp [move_red_left, flip_colors, flip_node_color, flip,
                            left_of, right_of, is_red_node_red, rotate_right, rotate_left]
                    have hstep : remove_recursive icmp v (fuel + 1)
                        (RTree.node x (RTree.node ly ll lr .black)
                          (RTree.node ry (RTree.node rly rll rlr .red) rr .black) .black)
                        = (remove_recursive icmp v fuel
                            (RTree.node x (RTree.node ly ll lr .red) rll .black)).bind
                            fun u => fix_up (RTree.node rly u
                              (RTree.node ry rlr rr .black) .black) := by
                      simp [remove_recursive, icmp_of_lt hvx, is_red_node_black,
                            left_of, hllred, hmrl]
                    have hsort2 : List.Pairwise (· < ·)
                        (in_order_go (RTree.node x (RTree.node ly ll lr .red)
                          rll .black)) := by
                      refine pairwise_node_r.mpr ⟨hsl, hsrll, hlx, ?_⟩
                      intro b hb
                      refine hxr b ?_
                      rw [io_node_r, io_node_r]
                      simp [hb]
                    rcases remove_rec_spec fuel v x (RTree.node ly ll lr .red) rll .black a
                        (by simp only [rsize] at hsize ⊢; omega)
                        (ll_build hlrb hLll hLlr) hLrll
                        (rr_build_red hllred hlrb hRll hRlr) hRrll
                        (cbh_node_red hbll hblr) hbrll
                        (Or.inr (Or.inl ⟨rfl, is_red_node_red ly ll lr, hrllb⟩))
                        hsort2 with
                      ⟨l'', hrec, hL'', hR'', hb'', hio'', hbk''⟩
                    simp only [if_pos rfl] at hb''
                    have hl''b : is_red_node l'' = false := hbk'' rfl
                    rw [hstep, hrec, Option.some_bind]
                    have hfix : fix_up (RTree.node rly l''
                        (RTree.node ry rlr rr .black) .black)
                        = some (RTree.node rly l'' (RTree.node ry rlr rr .black)
                            .black) := by
                      simp [fix_up, left_of, right_of, is_red_node_black, hl''b]
                    rw [hfix]
                    have hner2 : ∀ b ∈ in_order_go rll, b ≠ v := by
                      intro b hb
                      have : x < b := by
                        refine hxr b ?_
                        rw [io_node_r, io_node_r]
                        simp [hb]
                      omega
                    have hdel2 : ldel v (in_order_go (RTree.node x
                        (RTree.node ly ll lr .red) rll .black))
                        = ldel v (in_order_go (RTree.node ly ll lr .red))
                          ++ x :: in_order_go rll := by
                      rw [io_node_r, ldel_append, ldel_cons_ne _ (show x ≠ v by omega),
                          ldel_of_forall_ne hner2]
                    refine ⟨_, rfl, ?_, hR'', rr_build_black hRrlr hRrr,
                      fun _ => is_red_node_black ry rlr rr,
                      ⟨_, cbh_node_black hb'' (cbh_node_black hbrlr hbrr)⟩, ?_⟩
                    · exact ll_build (is_red_node_black ry rlr rr) hL''
                        (ll_build hrrb hLrlr hLrr)
                    · show in_order_go l'' ++ rly ::
                          in_order_go (RTree.node ry rlr rr .black) = _
                      conv_rhs => rw [io_node_r]
                      rw [hdelT, hio'', hdel2]
                      simp [in_order_go, List.append_assoc]
                | false =>
                    have hmrl : move_red_left (RTree.node x (RTree.node ly ll lr .black)
                        (RTree.node ry rl rr .black) .black)
                        = some (RTree.node x (RTree.node ly ll lr .red)
                            (RTree.node ry rl rr .red) .red) := by
                      simp [move_red_left, flip_colors, flip_node_color, flip,
                            left_of, right_of, hrlred]
                    have hstep : remove_recursive icmp v (fuel + 1)
                        (RTree.node x (RTree.node ly ll lr .black)
                          (RTree.node ry rl rr .black) .black)
                        = (remove_recursive icmp v fuel (RTree.node ly ll lr .red)).bind
                            fun u => fix_up (RTree.node x u
                              (RTree.node ry rl rr .red) .red) := by
                      simp [remove_recursive, icmp_of_lt hvx, is_red_node_black,
                            left_of, hllred, hmrl]
                    rcases remove_rec_spec fuel v ly ll lr .red a
                        (by simp only [rsize] at hsize ⊢; omega)
                        hLll hLlr hRll hRlr hbll hblr
                        (Or.inl ⟨rfl, hllred, hlrb⟩) hsl with
                      ⟨l'', hrec, hL'', hR'', hb'', hio'', -⟩
                    simp only [if_neg (by simp : ¬ (Color.red = Color.black))] at hb''
                    rw [hstep, hrec, Option.some_bind]
                    cases hl''red : is_red_node l'' with
                    | true =>
                        rcases red_node_shape hl''red with ⟨p, q0, s, rfl⟩
                        rcases red_children_black hl''red hR'' with ⟨hqb, hsb⟩
                        simp only [left_of, right_of] at hqb hsb
                        rcases rr_split hR'' with ⟨hRq, hRs, -⟩
                        rcases ll_split hL'' with ⟨-, hLq, hLs⟩
                        rcases cbh_node_inv hb'' with ⟨f, hbq, hbs, hf⟩
                        simp at hf
                        subst hf
                        have hfix : fix_up (RTree.node x (RTree.node p q0 s .red)
                            (RTree.node ry rl rr .red) .red)
                            = some (RTree.node x (RTree.node p q0 s .black)
                                (RTree.node ry rl rr .black) .black) := by
                          simp [fix_up, left_of, right_of, is_red_node_red,
                                rotate_left, rotate_right,
                                flip_colors, flip_node_color, flip]
                        rw [hfix]
                        refine ⟨_, rfl, ?_, rr_build_black hRq hRs,
                          rr_build_black hRrl hRrr, fun _ => is_red_node_black ry rl rr,
                          ⟨_, cbh_node_black (cbh_node_black hbq hbs)
                            (cbh_node_black hbrl hbrr)⟩, ?_⟩
                        · exact ll_build (is_red_node_black ry rl rr)
                            (ll_build hsb hLq hLs) (ll_build hrrb hLrl hLrr)
                        · rw [show in_order_go (RTree.node x (RTree.node p q0 s .black)
                                (RTree.node ry rl rr .black) .black)
                              = in_order_go (RTree.node p q0 s .red)
                                ++ x :: in_order_go (RTree.node ry rl rr .black) by
                            simp [in_order_go]]
                          conv_rhs => rw [io_node_r]
                          rw [hdelT, hio'']
                          simp [in_order_go]
                    | false =>
                        have hfix : fix_up (RTree.node x l''
                            (RTree.node ry rl rr .red) .red)
                            = some (RTree.node ry (RTree.node x l'' rl .red)
                                rr .red) := by
                          simp [fix_up, left_of, right_of, is_red_node_red,
                                rotate_left, hl''red, hrlred, hrrb]
                        rw [hfix]
                        refine ⟨_, rfl, ?_,
                          rr_build_red hl''red hrlred hR'' hRrl, hRrr,
                          by intro _; exact hrrb,
                          ⟨_, cbh_node_red (cbh_node_red hb'' hbrl) hbrr⟩, ?_⟩
                        · exact ll_build hrrb (ll_build hrlred hL'' hLrl) hLrr
                        · rw [show in_order_go (RTree.node ry
                                (RTree.node x l'' rl .red) rr .red)
                              = in_order_go l''
                                ++ x :: in_order_go (RTree.node ry rl rr .black) by
                            simp [in_order_go, List.append_assoc]]
                          conv_rhs => rw [io_node_r]
                          rw [hdelT, hio'']
                          simp [in_order_go]
      · -- not less: rotate/push right or splice here
        have hcvx : icmp v x = some Ordering.eq ∨ icmp v x = some Ordering.gt := by
          rcases lt_trichotomy v x with h | h | h
          · exact absurd h hvx
          · exact Or.inl (icmp_of_eq h)
          · exact Or.inr (icmp_of_gt h)
        cases r with
        | nil =>
            have hm : m = 1 := by simp [check_black_height] at hbr; omega
            subst hm
            have hlnil : l = RTree.nil := cbh_one_black_nil hbl hlred
            subst hlnil
            rcases hcvx with hc2 | hc2
            · have hveq : v = x := icmp_eq_iff.mp hc2
              subst hveq
              have hstep : remove_recursive icmp v (fuel + 1)
                  (RTree.node v .nil .nil .black) = some .nil := by
                simp [remove_recursive, hc2, is_red_node]
              rw [hstep]
              exact ⟨_, rfl, rfl, rfl, rfl, fun _ => rfl, ⟨1, rfl⟩,
                by simp [in_order_go, ldel]⟩
            · have hgt : x < v := icmp_gt_iff.mp hc2
              have hstep : remove_recursive icmp v (fuel + 1)
                  (RTree.node x .nil .nil .black)
                  = some (RTree.node x .nil .nil .black) := by
                simp [remove_recursive, hc2, is_red_node,
                      show ¬ icmp v x = some Ordering.eq by rw [icmp_eq_iff]; omega,
                      fix_up, left_of, right_of]
              rw [hstep]
              refine ⟨_, rfl, rfl, rfl, rfl, fun _ => rfl,
                ⟨2, by simp [check_black_height]⟩, ?_⟩
              simp [in_order_go, ldel, show ¬ x = v by omega]
        | node ry rl rr rc =>
            have hrcb : rc = Color.black := by
              cases rc
              · simp [is_red_node] at hrb
              · rfl
            subst hrcb
            rcases rr_split hRr with ⟨hRrl, hRrr, -⟩
            rcases ll_split hLr with ⟨hrrb, hLrl, hLrr⟩
            rcases cbh_node_inv hbr with ⟨a, hbrl, hbrr, ha⟩
            simp at ha
            subst ha
            rcases pairwise_node_r.mp hsr with ⟨hsrl, hsrr, hrlry, hryrr⟩
            cases hrlred : is_red_node rl with
            | true =>
                -- right-left red: no move_red_right
                rcases hcvx with hc2 | hc2
                · -- splice
                  have hveq : v = x := icmp_eq_iff.mp hc2
                  rcases remove_min_spec (rsize (RTree.node ry rl rr .black)) ry rl rr
                      .black a (le_refl _) hLrl hLrr hRrl hRrr hbrl hbrr
                      (Or.inr ⟨rfl, hrlred, hrrb⟩) with
                    ⟨r3, mv, hrm, hL3, hR3, hb3, hio3, hbk3⟩
                  simp only [if_pos rfl] at hb3
                  have hr3b : is_red_node r3 = false := hbk3 rfl
                  have hfind : find_min (RTree.node ry rl rr .black) = some mv := by
                    rw [find_min_eq_head, hio3]
                    rfl
                  have hstep : remove_recursive icmp v (fuel + 1)
                      (RTree.node x l (RTree.node ry rl rr .black) .black)
                      = fix_up (RTree.node mv l r3 .black) := by
                    simp [remove_recursive, hc2, hlred, is_red_node_black, left_of,
                          hrlred, hfind, hrm]
                  rw [hstep]
                  have hfix : fix_up (RTree.node mv l r3 .black)
                      = some (RTree.node mv l r3 .black) := by
                    simp [fix_up, left_of, right_of, hlred, hr3b]
                  rw [hfix]
                  have hdel2 : ldel v (in_order_go (RTree.node x l
                      (RTree.node ry rl rr .black) .black))
                      = in_order_go l ++ in_order_go (RTree.node ry rl rr .black) := by
                    rw [io_node_r, ldel_append,
                        ldel_of_forall_ne (fun b hb => by
                          have := hlx b hb; omega),
                        show (x :: in_order_go (RTree.node ry rl rr .black))
                          = v :: in_order_go (RTree.node ry rl rr .black) by rw [hveq],
                        ldel_cons_self (fun b hb => by
                          have := hxr b hb; omega),
                        ldel_of_forall_ne (fun b hb => by
                          have := hxr b hb; omega)]
                  refine ⟨_, rfl, ll_build hr3b hLl hL3, hRl, hR3,
                    fun _ => hr3b, ⟨_, cbh_node_black hbl hb3⟩, ?_⟩
                  show in_order_go l ++ mv :: in_order_go r3 = _
                  rw [hdel2, hio3]
                · -- descend right
                  have hgt : x < v := icmp_gt_iff.mp hc2
                  rcases remove_rec_spec fuel v ry rl rr .black a
                      (by simp only [rsize] at hsize ⊢; omega)
                      hLrl hLrr hRrl hRrr hbrl hbrr
                      (Or.inr (Or.inl ⟨rfl, hrlred, hrrb⟩)) hsr with
                    ⟨r3, hrec, hL3, hR3, hb3, hio3, hbk3⟩
                  simp only [if_pos rfl] at hb3
                  have hr3b : is_red_node r3 = false := hbk3 rfl
                  have hstep : remove_recursive icmp v (fuel + 1)
                      (RTree.node x l (RTree.node ry rl rr .black) .black)
                      = (remove_recursive icmp v fuel
                          (RTree.node ry rl rr .black)).bind
                          fun u => fix_up (RTree.node x l u .black) := by
                    simp [remove_recursive, hc2, hlred, is_red_node_black, left_of,
                          hrlred,
                          show ¬ icmp v x = some Ordering.eq by
                            rw [icmp_eq_iff]; omega]
                  rw [hstep, hrec, Option.some_bind]
                  have hfix : fix_up (RTree.node x l r3 .black)
                      = some (RTree.node x l r3 .black) := by
                    simp [fix_up, left_of, right_of, hlred, hr3b]
                  rw [hfix]
                  have hdel2 : ldel v (in_order_go (RTree.node x l
                      (RTree.node ry rl rr .black) .black))
                      = in_order_go l ++ x ::
                          ldel v (in_order_go (RTree.node ry rl rr .black)) := by
                    rw [io_node_r, ldel_append,
                        ldel_of_forall_ne (fun b hb => by
                          have := hlx b hb; omega),
                        ldel_cons_ne _ (show x ≠ v by omega)]
                  refine ⟨_, rfl, ll_build hr3b hLl hL3, hRl, hR3,
                    fun _ => hr3b, ⟨_, cbh_node_black hbl hb3⟩, ?_⟩
                  show in_order_go l ++ x :: in_order_go r3 = _
                  rw [hdel2, hio3]
            | false =>
                -- move_red_right reddens both children
                have ha1 : 1 ≤ a := cbh_pos hbrl
                rcases black_node_shape hbl hlred (by omega) with
                  ⟨ly, ll, lr, rfl, c, hbll, hblr, hc⟩
                have hca : a = c := by omega
                subst hca
                rcases rr_split hRl with ⟨hRll, hRlr, -⟩
                rcases ll_split hLl with ⟨hlrb, hLll, hLlr⟩
                rcases pairwise_node_r.mp hsl with ⟨hsll, hslr, hllly, hlylr⟩
                simp only [rsize] at hsize
                cases hllred : is_red_node ll with
                | true =>
                    -- left-left red: rotate inside move_red_right
                    rcases red_node_shape hllred with ⟨py, qq, ss, rfl⟩
                    rcases red_children_black hllred hRll with ⟨hqqb, hssb⟩
                    simp only [left_of, right_of] at hqqb hssb
                    rcases rr_split hRll with ⟨hRqq, hRss, -⟩
                    rcases ll_split hLll with ⟨-, hLqq, hLss⟩
                    rcases cbh_node_inv hbll with ⟨e, hbqq, hbss, he⟩
                    simp at he
                    subst he
                    have hmrr : move_red_right (RTree.node x
                        (RTree.node ly (RTree.node py qq ss .red) lr .black)
                        (RTree.node ry rl rr .black) .black)
                        = some (RTree.node ly (RTree.node py qq ss .black)
                            (RTree.node x lr (RTree.node ry rl rr .red) .black)
                            .black) := by
                      simp [move_red_right, flip_colors, flip_node_color, flip,
                            left_of, is_red_node_red, rotate_right]
                    have hlyx : ly < x := hlx ly (by rw [io_node_r]; simp)
                    have hvly : ¬ icmp v ly = some Ordering.eq := by
                      rw [icmp_eq_iff]
                      rcases hcvx with hc2 | hc2
                      · have := icmp_eq_iff.mp hc2; omega
                      · have := icmp_gt_iff.mp hc2; omega
                    have hstep : remove_recursive icmp v (fuel + 1)
                        (RTree.node x
                          (RTree.node ly (RTree.node py qq ss .red) lr .black)
                          (RTree.node ry rl rr .black) .black)
                        = (remove_recursive icmp v fuel
                            (RTree.node x lr (RTree.node ry rl rr .red) .black)).bind
                            fun u => fix_up (RTree.node ly
                              (RTree.node py qq ss .black) u .black) := by
                      rcases hcvx with hc2 | hc2 <;>
                        simp [remove_recursive, hc2, is_red_node_black, left_of,
                              hrlred, hmrr, hvly]
                    have hsort2 : List.Pairwise (· < ·)
                        (in_order_go (RTree.node x lr
                          (RTree.node ry rl rr .red) .black)) := by
                      refine pairwise_node_r.mpr ⟨hslr, ?_, ?_, ?_⟩
                      · exact pairwise_node_r.mpr ⟨hsrl, hsrr, hrlry, hryrr⟩
                      · intro b hb
                        exact hlx b (by rw [io_node_r]; simp [hb])
                      · intro b hb
                        refine hxr b ?_
                        rw [io_node_r] at hb ⊢
                        exact hb
                    rcases remove_rec_spec fuel v x lr (RTree.node ry rl rr .red)
                        .black a (by simp only [rsize] at hsize ⊢; omega)
                        hLlr (ll_build hrrb hLrl hLrr) hRlr
                        (rr_build_red hrlred hrrb hRrl hRrr) hblr
                        (cbh_node_red hbrl hbrr)
                        (Or.inr (Or.inr ⟨rfl, hlrb,
                          is_red_node_red ry rl rr, hvx⟩)) hsort2 with
                      ⟨r3, hrec, hL3, hR3, hb3, hio3, hbk3⟩
                    simp only [if_pos rfl] at hb3
                    have hr3b : is_red_node r3 = false := hbk3 rfl
                    rw [hstep, hrec, Option.some_bind]
                    have hfix : fix_up (RTree.node ly
                        (RTree.node py qq ss .black) r3 .black)
                        = some (RTree.node ly (RTree.node py qq ss .black)
                            r3 .black) := by
                      simp [fix_up, left_of, right_of, is_red_node_black, hr3b]
                    rw [hfix]
                    have hdel2 : ldel v (in_order_go (RTree.node x
                        (RTree.node ly (RTree.node py qq ss .red) lr .black)
                        (RTree.node ry rl rr .black) .black))
                        = in_order_go (RTree.node py qq ss .red) ++ ly ::
                            ldel v (in_order_go (RTree.node x lr
                              (RTree.node ry rl rr .red) .black)) := by
                      rw [io_node_r, io_node_r]
                      rw [show (in_order_go (RTree.node py qq ss .red)
                            ++ ly :: in_order_go lr)
                          ++ x :: in_order_go (RTree.node ry rl rr .black)
                          = in_order_go (RTree.node py qq ss .red)
                            ++ ly :: (in_order_go lr
                              ++ x :: in_order_go (RTree.node ry rl rr .black)) by
                        simp [List.append_assoc]]
                      rw [ldel_append,
                          ldel_of_forall_ne (fun b hb => by
                            have hb2 : b < ly := hllly b hb
                            rcases hcvx with hc2 | hc2
                            · have := icmp_eq_iff.mp hc2; omega
                            · have := icmp_gt_iff.mp hc2; omega),
                          ldel_cons_ne _ (by
                            rcases hcvx with hc2 | hc2
                            · have := icmp_eq_iff.mp hc2; omega
                            · have := icmp_gt_iff.mp hc2; omega)]
                      simp [in_order_go]
                    refine ⟨_, rfl, ?_, rr_build_black hRqq hRss, hR3,
                      fun _ => hr3b,
                      ⟨_, cbh_node_black (cbh_node_black hbqq hbss) hb3⟩, ?_⟩
                    · exact ll_build hr3b (ll_build hssb hLqq hLss) hL3
                    · show in_order_go (RTree.node py qq ss .black)
                          ++ ly :: in_order_go r3 = _
                      rw [hdel2, hio3]
                      simp [in_order_go]
                | false =>
                    -- plain color flip
                    have hmrr : move_red_right (RTree.node x
                        (RTree.node ly ll lr .black)
                        (RTree.node ry rl rr .black) .black)
                        = some (RTree.node x (RTree.node ly ll lr .red)
                            (RTree.node ry rl rr .red) .red) := by
                      simp [move_red_right, flip_colors, flip_node_color, flip,
                            left_of, hllred]
                    rcases hcvx with hc2 | hc2
                    · -- splice the minimum of the reddened right child
                      have hveq : v = x := icmp_eq_iff.mp hc2
                      rcases remove_min_spec (rsize (RTree.node ry rl rr .red))
                          ry rl rr .red a (le_refl _) hLrl hLrr hRrl hRrr
                          hbrl hbrr (Or.inl ⟨rfl, hrlred, hrrb⟩) with
                        ⟨r3, mv, hrm, hL3, hR3, hb3, hio3, -⟩
                      simp only [if_neg
                        (by simp : ¬ (Color.red = Color.black))] at hb3
                      have hfind : find_min (RTree.node ry rl rr .red)
                          = some mv := by
                        rw [find_min_eq_head, hio3]
                        rfl
                      have hstep : remove_recursive icmp v (fuel + 1)
                          (RTree.node x (RTree.node ly ll lr .black)
                            (RTree.node ry rl rr .black) .black)
                          = fix_up (RTree.node mv (RTree.node ly ll lr .red)
                              r3 .red) := by
                        simp [remove_recursive, hc2, is_red_node_black, left_of,
                              hrlred, hmrr, hfind, hrm]
                      rw [hstep]
                      have hdel2 : ldel v (in_order_go (RTree.node x
                          (RTree.node ly ll lr .black)
                          (RTree.node ry rl rr .black) .black))
                          = in_order_go (RTree.node ly ll lr .black)
                            ++ in_order_go (RTree.node ry rl rr .black) := by
                        rw [io_node_r, ldel_append,
                            ldel_of_forall_ne (fun b hb => by
                              have := hlx b hb; omega),
                            show (x :: in_order_go (RTree.node ry rl rr .black))
                              = v :: in_order_go (RTree.node ry rl rr .black) by
                                rw [hveq],
                            ldel_cons_self (fun b hb => by
                              have := hxr b hb; omega),
                            ldel_of_forall_ne (fun b hb => by
                              have := hxr b hb; omega)]
                      cases hr3red : is_red_node r3 with
                      | true =>
                          rcases red_node_shape hr3red with ⟨p, q0, s, rfl⟩
                          rcases red_children_black hr3red hR3 with ⟨hqb, hsb⟩
                          simp only [left_of, right_of] at hqb hsb
                          rcases rr_split hR3 with ⟨hRq, hRs, -⟩
                          rcases ll_split hL3 with ⟨-, hLq, hLs⟩
                          rcases cbh_node_inv hb3 with ⟨f, hbq, hbs, hf⟩
                          simp at hf
                          subst hf
                          have hfix : fix_up (RTree.node mv
                              (RTree.node ly ll lr .red)
                              (RTree.node p q0 s .red) .red)
                              = some (RTree.node mv
                                  (RTree.node ly ll lr .black)
                                  (RTree.node p q0 s .black) .black) := by
                            simp [fix_up, left_of, right_of, is_red_node_red,
                                  rotate_left, rotate_right,
                                  flip_colors, flip_node_color, flip]
                          rw [hfix]
                          refine ⟨_, rfl, ?_, rr_build_black hRll hRlr,
                            rr_build_black hRq hRs, fun _ => is_red_node_black p q0 s,
                            ⟨_, cbh_node_black (cbh_node_black hbll hblr)
                              (cbh_node_black hbq hbs)⟩, ?_⟩
                          · exact ll_build (is_red_node_black p q0 s)
                              (ll_build hlrb hLll hLlr) (ll_build hsb hLq hLs)
                          · rw [show in_order_go (RTree.node mv
                                  (RTree.node ly ll lr .black)
                                  (RTree.node p q0 s .black) .black)
                                = in_order_go (RTree.node ly ll lr .black)
                                  ++ mv :: in_order_go
                                    (RTree.node p q0 s .red) by
                              simp [in_order_go]]
                            rw [hdel2, show in_order_go (RTree.node ry rl rr .black)
                              = in_order_go (RTree.node ry rl rr .red) from rfl, hio3]
                      | false =>
                          have hfix : fix_up (RTree.node mv
                              (RTree.node ly ll lr .red) r3 .red)
                              = some (RTree.node mv (RTree.node ly ll lr .red)
                                  r3 .red) := by
                            simp [fix_up, left_of, right_of, is_red_node_red,
                                  hllred, hr3red]
                          rw [hfix]
                          refine ⟨_, rfl,
                            ll_build hr3red (ll_build hlrb hLll hLlr) hL3,
                            rr_build_red hllred hlrb hRll hRlr, hR3,
                            by intro _; exact hr3red,
                            ⟨_, cbh_node_red (cbh_node_red hbll hblr) hb3⟩, ?_⟩
                          show in_order_go (RTree.node ly ll lr .red)
                              ++ mv :: in_order_go r3 = _
                          rw [hdel2, show in_order_go (RTree.node ry rl rr .black)
                            = in_order_go (RTree.node ry rl rr .red) from rfl, hio3]
                          simp [in_order_go]
                    · -- descend right into the reddened right child
                      have hgt : x < v := icmp_gt_iff.mp hc2
                      rcases remove_rec_spec fuel v ry rl rr .red a
                          (by simp only [rsize] at hsize ⊢; omega)
                          hLrl hLrr hRrl hRrr hbrl hbrr
                          (Or.inl ⟨rfl, hrlred, hrrb⟩) hsr with
                        ⟨r3, hrec, hL3, hR3, hb3, hio3, -⟩
                      simp only [if_neg
                        (by simp : ¬ (Color.red = Color.black))] at hb3
                      have hstep : remove_recursive icmp v (fuel + 1)
                          (RTree.node x (RTree.node ly ll lr .black)
                            (RTree.node ry rl rr .black) .black)
                          = (remove_recursive icmp v fuel
                              (RTree.node ry rl rr .red)).bind
                              fun u => fix_up (RTree.node x
                                (RTree.node ly ll lr .red) u .red) := by
                        simp [remove_recursive, hc2, is_red_node_black, left_of,
                              hrlred, hmrr,
                              show ¬ icmp v x = some Ordering.eq by
                                rw [icmp_eq_iff]; omega]
                      rw [hstep, hrec, Option.some_bind]
                      have hdel2 : ldel v (in_order_go (RTree.node x
                          (RTree.node ly ll lr .black)
                          (RTree.node ry rl rr .black) .black))
                          = in_order_go (RTree.node ly ll lr .black)
                            ++ x :: ldel v (in_order_go
                              (RTree.node ry rl rr .black)) := by
                        rw [io_node_r, ldel_append,
                            ldel_of_forall_ne (fun b hb => by
                              have := hlx b hb; omega),
                            ldel_cons_ne _ (show x ≠ v by omega)]
                      cases hr3red : is_red_node r3 with
                      | true =>
                          rcases red_node_shape hr3red with ⟨p, q0, s, rfl⟩
                          rcases red_children_black hr3red hR3 with ⟨hqb, hsb⟩
                          simp only [left_of, right_of] at hqb hsb
                          rcases rr_split hR3 with ⟨hRq, hRs, -⟩
                          rcases ll_split hL3 with ⟨-, hLq, hLs⟩
                          rcases cbh_node_inv hb3 with ⟨f, hbq, hbs, hf⟩
                          simp at hf
                          subst hf
                          have hfix : fix_up (RTree.node x
                              (RTree.node ly ll lr .red)
                              (RTree.node p q0 s .red) .red)
                              = some (RTree.node x
                                  (RTree.node ly ll lr .black)
                                  (RTree.node p q0 s .black) .black) := by
                            simp [fix_up, left_of, right_of, is_red_node_red,
                                  rotate_left, rotate_right,
                                  flip_colors, flip_node_color, flip]
                          rw [hfix]
                          refine ⟨_, rfl, ?_, rr_build_black hRll hRlr,
                            rr_build_black hRq hRs, fun _ => is_red_node_black p q0 s,
                            ⟨_, cbh_node_black (cbh_node_black hbll hblr)
                              (cbh_node_black hbq hbs)⟩, ?_⟩
                          · exact ll_build (is_red_node_black p q0 s)
                              (ll_build hlrb hLll hLlr) (ll_build hsb hLq hLs)
                          · rw [show in_order_go (RTree.node x
                                  (RTree.node ly ll lr .black)
                                  (RTree.node p q0 s .black) .black)
                                = in_order_go (RTree.node ly ll lr .black)
                                  ++ x :: in_order_go
                                    (RTree.node p q0 s .red) by
                              simp [in_order_go]]
                            rw [hdel2, hio3]
                            simp [in_order_go]
                      | false =>
                          have hfix : fix_up (RTree.node x
                              (RTree.node ly ll lr .red) r3 .red)
                              = some (RTree.node x (RTree.node ly ll lr .red)
                                  r3 .red) := by
                            simp [fix_up, left_of, right_of, is_red_node_red,
                                  hllred, hr3red]
                          rw [hfix]
                          refine ⟨_, rfl,
                            ll_build hr3red (ll_build hlrb hLll hLlr) hL3,
                            rr_build_red hllred hlrb hRll hRlr, hR3,
                            by intro _; exact hr3red,
                            ⟨_, cbh_node_red (cbh_node_red hbll hblr) hb3⟩, ?_⟩
                          show in_order_go (RTree.node ly ll lr .red)
                              ++ x :: in_order_go r3 = _
                          rw [hdel2, hio3]
                          simp [in_order_go]

end Rbt

namespace Rbt

/-- All facts maintained by the public operations on a reachable
`RedBlackTree`: sorted keys, black root, left-leaning shape, no red-red
edge, uniform black height, and caches equal to a fresh re-scan. -/
structure Inv (t : RedBlackTree Int) : Prop where
  sorted : List.Pairwise (· < ·) (in_order_go t.root)
  black : is_red_node t.root = false
  llok : ll_ok t.root = true
  rr : check_red_property t.root = true
  bh : ∃ n, check_black_height t.root = some n
  minc : t.min_value = refind_min t.root
  maxc : t.max_value = refind_max t.root

theorem inv_new_r : Inv (new : RedBlackTree Int) :=
  ⟨List.Pairwise.nil, rfl, rfl, rfl, ⟨1, rfl⟩, rfl, rfl⟩

theorem insert_step_r {t : RedBlackTree Int} (hInv : Inv t) (v : Int) :
    ∃ t', insert icmp t v = some t' ∧ Inv t' ∧
      in_order_go t'.root = lins v (in_order_go t.root) := by
  obtain ⟨root, mnv, mxv⟩ := t
  obtain ⟨hs, hblk, hll, hrr, ⟨n, hbh⟩, hmn, hmx⟩ := hInv
  simp only at hs hblk hll hrr hbh hmn hmx
  rcases insert_rec_rb_spec v root n hll hrr hbh hs with
    ⟨root', hins, hL', hb', hRL', hRR', hRfull, hio'⟩
  have hsio : in_order_go (set_root_black root') = lins v (in_order_go root) := by
    rw [srb_io, hio']
  have hs2 : List.Pairwise (· < ·) (in_order_go (set_root_black root')) := by
    rw [hsio]
    exact pairwise_lins v hs
  cases root with
  | nil =>
      have hmn' : mnv = none := hmn
      have hmx' : mxv = none := hmx
      subst hmn' hmx'
      refine ⟨⟨set_root_black root', some v, some v⟩, ?_,
        ⟨hs2, srb_black root', by rw [srb_ll]; exact hL', srb_rr hRL' hRR',
          srb_bh hb', ?_, ?_⟩, hsio⟩
      · simp [insert, hins]
      · show some v = refind_min (set_root_black root')
        rw [refind_min_eq_head_r, hsio]
        rfl
      · show some v = refind_max (set_root_black root')
        rw [refind_max_eq_getLast_r, hsio]
        rfl
  | node rx rl rr c0 =>
      obtain ⟨a, xs, hio_eq⟩ : ∃ a xs, in_order_go (RTree.node rx rl rr c0) = a :: xs := by
        cases hh : in_order_go (RTree.node rx rl rr c0) with
        | nil => exact absurd hh (io_ne_nil_r rx rl rr c0)
        | cons a xs => exact ⟨a, xs, rfl⟩
      have hmn' : mnv = some a := by
        rw [hmn, refind_min_eq_head_r, hio_eq]
        rfl
      obtain ⟨m, hlast⟩ : ∃ m, (in_order_go (RTree.node rx rl rr c0)).getLast? = some m := by
        rw [hio_eq]
        cases hg : (a :: xs).getLast? with
        | none => simp at hg
        | some m => exact ⟨m, rfl⟩
      have hmx' : mxv = some m := by
        rw [hmx, refind_max_eq_getLast_r, hlast]
      subst hmn' hmx'
      refine ⟨⟨set_root_black root',
               if icmp v a = some .lt then some v else some a,
               if icmp v m = some .gt then some v else some m⟩, ?_,
        ⟨hs2, srb_black root', by rw [srb_ll]; exact hL', srb_rr hRL' hRR',
          srb_bh hb', ?_, ?_⟩, hsio⟩
      · simp [insert, hins]
      · show (if icmp v a = some .lt then some v else some a)
            = refind_min (set_root_black root')
        rw [refind_min_eq_head_r, hsio, hio_eq, head?_lins]
        by_cases hva : v < a
        · rw [if_pos (icmp_of_lt hva)]
          simp [hva]
        · rw [if_neg (fun hc => hva (icmp_lt_iff.mp hc))]
          simp [hva]
      · show (if icmp v m = some .gt then some v else some m)
            = refind_max (set_root_black root')
        rw [refind_max_eq_getLast_r, hsio, hio_eq]
        rw [show (a :: xs) = in_order_go (RTree.node rx rl rr c0) from hio_eq.symm]
        rw [getLast?_lins v hs, hlast]
        by_cases hmv : m < v
        · rw [if_pos (icmp_of_gt hmv)]
          simp [hmv]
        · rw [if_neg (fun hc => hmv (icmp_gt_iff.mp hc))]
          simp [hmv]

theorem remove_step_r {t : RedBlackTree Int} (hInv : Inv t) (v : Int) :
    ∃ t', remove icmp t v = some t' ∧ Inv t' ∧
      in_order_go t'.root = ldel v (in_order_go t.root) := by
  obtain ⟨root, mnv, mxv⟩ := t
  obtain ⟨hs, hblk, hll, hrr, ⟨n, hbh⟩, hmn, hmx⟩ := hInv
  simp only at hs hblk hll hrr hbh hmn hmx
  cases root with
  | nil =>
      refine ⟨⟨.nil, mnv, mxv⟩, rfl,
        ⟨hs, rfl, rfl, rfl, ⟨1, rfl⟩, hmn, hmx⟩, ?_⟩
      simp [in_order_go, ldel]
  | node x l r c0 =>
      have hcb : c0 = Color.black := by
        cases c0
        · simp [is_red_node] at hblk
        · rfl
      subst hcb
      rcases ll_split hll with ⟨hrb, hLl, hLr⟩
      rcases rr_split hrr with ⟨hRl, hRr, -⟩
      rcases cbh_node_inv hbh with ⟨a, hbl, hbr, -⟩
      rcases remove_root_spec (rsize l + rsize r) v x l r a
          (by simp only [rsize]; omega) hLl hLr hRl hRr hrb hbl hbr hs with
        ⟨t', hrec, hL', hRL', hRR', -, ⟨k, hbh'⟩, hio'⟩
      have hsz : rsize (RTree.node x l r .black) = (rsize l + rsize r) + 1 := by
        simp only [rsize]
        omega
      have hstep : remove icmp ⟨RTree.node x l r .black, mnv, mxv⟩ v
          = some ⟨set_root_black t', refind_min (set_root_black t'),
                  refind_max (set_root_black t')⟩ := by
        simp [remove, hsz, hrec]
      refine ⟨_, hstep, ⟨?_, srb_black t', by rw [srb_ll]; exact hL',
        srb_rr hRL' hRR', srb_bh hbh', rfl, rfl⟩, ?_⟩
      · show List.Pairwise (· < ·) (in_order_go (set_root_black t'))
        rw [srb_io, hio']
        exact pairwise_ldel v hs
      · show in_order_go (set_root_black t') = _
        rw [srb_io, hio']

theorem run_from_r (ops : List Op) :
    ∀ (t : RedBlackTree Int), Inv t →
      ∃ t', (ops.foldl (fun acc op => acc.bind fun u => rbStep u op) (some t)) = some t' ∧
        Inv t' ∧ in_order_go t'.root = opsModel (in_order_go t.root) ops := by
  induction ops with
  | nil => exact fun t h => ⟨t, rfl, h, rfl⟩
  | cons op ops ih =>
      intro t h
      cases op with
      | ins v =>
          rcases insert_step_r h v with ⟨t₁, hstep, hInv₁, hio₁⟩
          rcases ih t₁ hInv₁ with ⟨t', hrun, hInv', hio'⟩
          refine ⟨t', ?_, hInv', ?_⟩
          · rw [List.foldl_cons,
                show ((some t).bind fun u => rbStep u (Op.ins v)) = some t₁ by
                  simp [rbStep, hstep]]
            exact hrun
          · rw [hio', hio₁]
            rfl
      | del v =>
          rcases remove_step_r h v with ⟨t₁, hstep, hInv₁, hio₁⟩
          rcases ih t₁ hInv₁ with ⟨t', hrun, hInv', hio'⟩
          refine ⟨t', ?_, hInv', ?_⟩
          · rw [List.foldl_cons,
                show ((some t).bind fun u => rbStep u (Op.del v)) = some t₁ by
                  simp [rbStep, hstep]]
            exact hrun
          · rw [hio', hio₁]
            rfl

theorem run_spec_r (ops : List Op) :
    ∃ t', rbRun ops = some t' ∧ Inv t' ∧
      in_order_go t'.root = keysModel ops := by
  rcases run_from_r ops new inv_new_r with ⟨t', hrun, hInv, hio⟩
  exact ⟨t', hrun, hInv, hio⟩

theorem runD_spec_r (ops : List Op) :
    Inv (rbRunD ops) ∧ in_order_go (rbRunD ops).root = keysModel ops := by
  rcases run_spec_r ops with ⟨t', hrun, hInv, hio⟩
  unfold rbRunD
  rw [hrun]
  exact ⟨hInv, hio⟩

theorem run_isSome_r (ops : List Op) : (rbRun ops).isSome := by
  rcases run_spec_r ops with ⟨t', hrun, -, -⟩
  rw [hrun]
  rfl

/-- At rest, the validity checker of the source accepts every reachable
tree: the invariant implies `is_valid_red_black_tree`. -/
theorem inv_valid {t : RedBlackTree Int} (hInv : Inv t) :
    is_valid_red_black_tree t = true := by
  obtain ⟨-, hblk, -, hrr, ⟨n, hbh⟩, -, -⟩ := hInv
  unfold is_valid_red_black_tree
  rw [hrr, hbh]
  cases hroot : t.root with
  | nil => simp
  | node x l r c =>
      cases c
      · rw [hroot] at hblk
        simp [is_red_node] at hblk
      · simp

/-- Inserting a key already present returns the subtree entirely unchanged:
the walk reaches the key and every `balance` on the way back reproduces its
input node. -/
theorem insert_rec_mem_noop_r : ∀ {t : RTree Int} (v : Int), ll_ok t = true →
    check_red_property t = true →
    List.Pairwise (· < ·) (in_order_go t) → v ∈ in_order_go t →
    insert_recursive icmp v t = some t := by
  intro t
  induction t with
  | nil =>
      intro v _ _ _ hmem
      simp [in_order_go] at hmem
  | node x l r col ihl ihr =>
      intro v hLL hRR hs hmem
      rcases ll_split hLL with ⟨hrb, hLl, hLr⟩
      rcases rr_split hRR with ⟨hRl, hRr, -⟩
      rcases pairwise_node_r.mp hs with ⟨hsl, hsr, hlx, hxr⟩
      have hbal : balance (RTree.node x l r col) = some (RTree.node x l r col) := by
        cases hlr2 : is_red_node l with
        | false => simp [balance, left_of, right_of, hrb, hlr2]
        | true =>
            rcases red_node_shape hlr2 with ⟨p, q, s, rfl⟩
            have hq := (red_children_black (is_red_node_red p q s) hRl).1
            simp only [left_of] at hq
            simp [balance, left_of, right_of, hrb, hq, is_red_node_red]
      rcases lt_trichotomy v x with hvx | hvx | hvx
      · have hvl : v ∈ in_order_go l := by
          rw [io_node_r] at hmem
          rcases List.mem_append.mp hmem with h | h
          · exact h
          · rcases List.mem_cons.mp h with rfl | h2
            · omega
            · have := hxr v h2
              omega
        simp [insert_recursive, icmp_of_lt hvx, ihl v hLl hRl hsl hvl, hbal]
      · simp [insert_recursive, icmp_of_eq hvx]
      · have hvr : v ∈ in_order_go r := by
          rw [io_node_r] at hmem
          rcases List.mem_append.mp hmem with h | h
          · have := hlx v h
            omega
          · rcases List.mem_cons.mp h with rfl | h2
            · omega
            · exact h2
        simp [insert_recursive, icmp_of_gt hvx, ihr v hLr hRr hsr hvr, hbal]

theorem insert_mem_noop_r {t : RedBlackTree Int} (hInv : Inv t) (v : Int)
    (hmem : v ∈ in_order_go t.root) : insert icmp t v = some t := by
  obtain ⟨root, mnv, mxv⟩ := t
  obtain ⟨hs, hblk, hll, hrr, -, hmn, hmx⟩ := hInv
  simp only at hs hblk hll hrr hmn hmx hmem ⊢
  cases root with
  | nil => simp [in_order_go] at hmem
  | node rx rl rr c0 =>
      have hcb : c0 = Color.black := by
        cases c0
        · simp [is_red_node] at hblk
        · rfl
      subst hcb
      obtain ⟨a, xs, hio_eq⟩ : ∃ a xs,
          in_order_go (RTree.node rx rl rr .black) = a :: xs := by
        cases hh : in_order_go (RTree.node rx rl rr .black) with
        | nil => exact absurd hh (io_ne_nil_r rx rl rr .black)
        | cons a xs => exact ⟨a, xs, rfl⟩
      have hmn' : mnv = some a := by
        rw [hmn, refind_min_eq_head_r, hio_eq]
        rfl
      obtain ⟨m, hlast⟩ : ∃ m,
          (in_order_go (RTree.node rx rl rr .black)).getLast? = some m := by
        rw [hio_eq]
        cases hg : (a :: xs).getLast? with
        | none => simp at hg
        | some m => exact ⟨m, rfl⟩
      have hmx' : mxv = some m := by
        rw [hmx, refind_max_eq_getLast_r, hlast]
      subst hmn' hmx'
      have hle1 : a ≤ v := by
        rw [hio_eq] at hmem
        exact Bst.head_le_of_sorted (by rw [← hio_eq]; exact hs) hmem
      have hle2 : v ≤ m := Bst.le_getLast_of_sorted hs hlast hmem
      have hc1 : ¬ icmp v a = some .lt := by
        rw [icmp_lt_iff]
        omega
      have hc2 : ¬ icmp v m = some .gt := by
        rw [icmp_gt_iff]
        omega
      simp [insert, hc1, hc2, insert_rec_mem_noop_r v hll hrr hs hmem,
            set_root_black]

end Rbt

/-! ## Small list helpers shared below -/

theorem getLast?_cons_isSome : ∀ (a : α) (l : List α), ∃ m, (a :: l).getLast? = some m
  | a, [] => ⟨a, rfl⟩
  | a, b :: bs => by
      rw [List.getLast?_cons_cons]
      exact getLast?_cons_isSome b bs

theorem mem_of_getLast?_eq : ∀ {l : List α} {m : α}, l.getLast? = some m → m ∈ l := by
  intro l
  induction l with
  | nil => intro m h; simp at h
  | cons a as ih =>
      intro m h
      cases as with
      | nil =>
          simp at h
          simp [h]
      | cons b bs =>
          rw [List.getLast?_cons_cons] at h
          exact List.mem_cons_of_mem a (ih h)

/-- Running a concatenated operation sequence is running the two halves in
turn. -/
theorem opsModel_append (l₁ l₂ : List Op) : ∀ xs,
    opsModel xs (l₁ ++ l₂) = opsModel (opsModel xs l₁) l₂ := by
  induction l₁ with
  | nil => intro xs; rfl
  | cons op rest ih =>
      intro xs
      cases op with
      | ins v => simpa [opsModel] using ih (lins v xs)
      | del v => simpa [opsModel] using ih (ldel v xs)

/-! ## The stored-height checker certifies the height/balance invariants -/

namespace Avl

theorem is_balanced_go_of_inv {t : ATree α} (ht : HtOK t) (hb : BalOK t) :
    is_balanced_go t = true := by
  induction t with
  | nil => rfl
  | node x l r h ihl ihr =>
      obtain ⟨hh, hhl, hhr⟩ := ht
      obtain ⟨⟨b1, b2⟩, hbl, hbr⟩ := hb
      rw [is_balanced_go, balance_factor_eq hhl hhr, ihl hhl hbl, ihr hhr hbr]
      simp only [Bool.and_true, decide_eq_true_eq]
      omega

theorem contains_go_iff_a {t : ATree Int}
    (hs : List.Pairwise (· < ·) (in_order_go t)) (v : Int) :
    contains_go icmp v t = true ↔ v ∈ in_order_go t := by
  induction t with
  | nil => simp [contains_go, in_order_go]
  | node x l r h ihl ihr =>
      rcases pairwise_node_a.mp hs with ⟨hl, hr, hlx, hxr⟩
      rw [io_node_a]
      rcases lt_trichotomy v x with hvx | hvx | hvx
      · rw [contains_go, icmp_of_lt hvx, ihl hl]
        simp only [List.mem_append, List.mem_cons]
        constructor
        · exact fun h2 => Or.inl h2
        · rintro (h2 | h2 | h2)
          · exact h2
          · omega
          · have := hxr v h2; omega
      · subst hvx
        rw [contains_go, icmp_of_eq rfl]
        simp
      · rw [contains_go, icmp_of_gt hvx, ihr hr]
        simp only [List.mem_append, List.mem_cons]
        constructor
        · exact fun h2 => Or.inr (Or.inr h2)
        · rintro (h2 | h2 | h2)
          · have := hlx v h2; omega
          · omega
          · exact h2

end Avl

/-! ## Partial comparators (the key type is only `PartialOrd`)

`pcmp` behaves like the total order on `Int` except that `9` is incomparable
with everything (the way `f64::NAN` is); `qcmp` makes exactly `3` and `5`
mutually incomparable.  Both are legitimate `partial_cmp` instances a caller
could supply. -/

def pcmp (a b : Int) : Option Ordering :=
  if a = 9 ∨ b = 9 then none else icmp a b

def qcmp (a b : Int) : Option Ordering :=
  if a = 3 ∧ b = 5 ∨ a = 5 ∧ b = 3 then none else icmp a b

/-! ## Behaviour of the loops on a value incomparable with every key -/

namespace Bst

theorem contains_go_incomp {c : Int → Int → Option Ordering} {v : Int} :
    ∀ (t : BTree Int), (∀ k ∈ in_order_go t, c v k = none) →
      contains_go c v t = false
  | .nil, _ => rfl
  | .node x l r, h => by
      have hx : c v x = none := h x (by rw [io_node]; simp)
      simp [contains_go, hx]

theorem ceil_go_incomp {c : Int → Int → Option Ordering} {v : Int} :
    ∀ (t : BTree Int), (∀ k ∈ in_order_go t, c k v = none) →
      ∀ res, ceil_go c v t res = Option.or (in_order_go t).head? res
  | .nil, _, res => rfl
  | .node x l r, h, res => by
      have hx : c x v = none := h x (by rw [io_node]; simp)
      have hl := ceil_go_incomp l (fun k hk => h k (by rw [io_node]; simp [hk])) (some x)
      rw [ceil_go, if_neg (by simp [hx]), if_neg (by simp [hx]), hl, io_node]
      cases hio : in_order_go l with
      | nil => rfl
      | cons a as => rfl

theorem floor_go_incomp {c : Int → Int → Option Ordering} {v : Int} :
    ∀ (t : BTree Int), (∀ k ∈ in_order_go t, c k v = none) →
      ∀ res, floor_go c v t res = Option.or (in_order_go t).getLast? res
  | .nil, _, res => rfl
  | .node x l r, h, res => by
      have hx : c x v = none := h x (by rw [io_node]; simp)
      have hr := floor_go_incomp r (fun k hk => h k (by rw [io_node]; simp [hk])) (some x)
      rw [floor_go, if_neg (by simp [hx]), if_neg (by simp [hx]), hr, io_node,
          List.getLast?_append_cons]
      cases hio : in_order_go r with
      | nil => rfl
      | cons a as =>
          rw [List.getLast?_cons_cons]
          obtain ⟨m, hm⟩ := getLast?_cons_isSome a as
          rw [hm]
          rfl

theorem insert_incomp {t : BinarySearchTree Int} (hInv : Inv t)
    {c : Int → Int → Option Ordering} {v : Int}
    (hroot : t.root ≠ .nil)
    (hinc : ∀ k ∈ in_order_go t.root, c v k = none) :
    insert c t v = some t := by
  obtain ⟨root, mnv, mxv⟩ := t
  obtain ⟨hs, hmn, hmx⟩ := hInv
  simp only at hs hmn hmx hinc hroot ⊢
  cases root with
  | nil => exact absurd rfl hroot
  | node rx rl rr =>
      obtain ⟨a, xs, hio_eq⟩ : ∃ a xs, in_order_go (BTree.node rx rl rr) = a :: xs := by
        cases hh : in_order_go (BTree.node rx rl rr) with
        | nil => exact absurd hh (io_ne_nil rx rl rr)
        | cons a xs => exact ⟨a, xs, rfl⟩
      have hmn' : mnv = some a := by
        rw [hmn, refind_min_eq_head, hio_eq]
        rfl
      obtain ⟨m, hlast⟩ : ∃ m, (in_order_go (BTree.node rx rl rr)).getLast? = some m := by
        rw [hio_eq]
        exact getLast?_cons_isSome a xs
      have hmx' : mxv = some m := by
        rw [hmx, refind_max_eq_getLast, hlast]
      subst hmn' hmx'
      have hca : c v a = none := hinc a (by rw [hio_eq]; exact List.mem_cons_self a xs)
      have hcm : c v m = none := hinc m (mem_of_getLast?_eq hlast)
      have hcx : c v rx = none := hinc rx (by rw [io_node]; simp)
      simp [insert, hca, hcm, insert_go, hcx]

theorem remove_incomp {t : BinarySearchTree Int} (hInv : Inv t)
    {c : Int → Int → Option Ordering} {v : Int}
    (hinc : ∀ k ∈ in_order_go t.root, c v k = none) :
    remove c t v = some t := by
  obtain ⟨root, mnv, mxv⟩ := t
  obtain ⟨hs, hmn, hmx⟩ := hInv
  simp only at hs hmn hmx hinc ⊢
  cases root with
  | nil => simp [remove, remove_go, hmn, hmx]
  | node rx rl rr =>
      have hcx : c v rx = none := hinc rx (by rw [io_node]; simp)
      simp [remove, remove_go, hcx, hmn, hmx]

end Bst

namespace Avl

theorem contains_go_incomp_a {c : Int → Int → Option Ordering} {v : Int} :
    ∀ (t : ATree Int), (∀ k ∈ in_order_go t, c v k = none) →
      contains_go c v t = false
  | .nil, _ => rfl
  | .node x l r h0, h => by
      have hx : c v x = none := h x (by rw [io_node_a]; simp)
      simp [contains_go, hx]

theorem ceil_go_incomp_a {c : Int → Int → Option Ordering} {v : Int} :
    ∀ (t : ATree Int), (∀ k ∈ in_order_go t, c k v = none) →
      ∀ res, ceil_go c v t res = Option.or (in_order_go t).head? res
  | .nil, _, res => rfl
  | .node x l r h0, h, res => by
      have hx : c x v = none := h x (by rw [io_node_a]; simp)
      have hl := ceil_go_incomp_a l (fun k hk => h k (by rw [io_node_a]; simp [hk])) (some x)
      rw [ceil_go, if_neg (by simp [hx]), if_neg (by simp [hx]), hl, io_node_a]
      cases hio : in_order_go l with
      | nil => rfl
      | cons a as => rfl

theorem floor_go_incomp_a {c : Int → Int → Option Ordering} {v : Int} :
    ∀ (t : ATree Int), (∀ k ∈ in_order_go t, c k v = none) →
      ∀ res, floor_go c v t res = Option.or (in_order_go t).getLast? res
  | .nil, _, res => rfl
  | .node x l r h0, h, res => by
      have hx : c x v = none := h x (by rw [io_node_a]; simp)
      have hr := floor_go_incomp_a r (fun k hk => h k (by rw [io_node_a]; simp [hk])) (some x)
      rw [floor_go, if_neg (by simp [hx]), if_neg (by simp [hx]), hr, io_node_a,
          List.getLast?_append_cons]
      cases hio : in_order_go r with
      | nil => rfl
      | cons a as =>
          rw [List.getLast?_cons_cons]
          obtain ⟨m, hm⟩ := getLast?_cons_isSome a as
          rw [hm]
          rfl

theorem insert_incomp_a {t : AVLTree Int} (hInv : Inv t)
    {c : Int → Int → Option Ordering} {v : Int}
    (hroot : t.root ≠ .nil)
    (hinc : ∀ k ∈ in_order_go t.root, c v k = none) :
    insert c t v = some t := by
  obtain ⟨root, mnv, mxv⟩ := t
  obtain ⟨hs, hH, hB, hmn, hmx⟩ := hInv
  simp only at hs hmn hmx hinc hroot ⊢
  cases root with
  | nil => exact absurd rfl hroot
  | node rx rl rr rh =>
      have hcx : c v rx = none := hinc rx (by rw [io_node_a]; simp)
      simp [insert, insert_rec, hcx, hmn, hmx]

theorem remove_incomp_a {t : AVLTree Int} (hInv : Inv t)
    {c : Int → Int → Option Ordering} {v : Int}
    (hinc : ∀ k ∈ in_order_go t.root, c v k = none) :
    remove c t v = some t := by
  obtain ⟨root, mnv, mxv⟩ := t
  obtain ⟨hs, hH, hB, hmn, hmx⟩ := hInv
  simp only at hs hmn hmx hinc ⊢
  cases root with
  | nil => simp [remove, remove_node, hmn, hmx]
  | node rx rl rr rh =>
      have hcx : c v rx = none := hinc rx (by rw [io_node_a]; simp)
      simp [remove, remove_node, hcx, hmn, hmx]

end Avl

namespace Rbt

theorem contains_go_incomp_r {c : Int → Int → Option Ordering} {v : Int} :
    ∀ (t : RTree Int), (∀ k ∈ in_order_go t, c v k = none) →
      contains_go c v t = false
  | .nil, _ => rfl
  | .node x l r c0, h => by
      have hx : c v x = none := h x (by rw [io_node_r]; simp)
      simp [contains_go, hx]

theorem ceil_go_incomp_r {c : Int → Int → Option Ordering} {v : Int} :
    ∀ (t : RTree Int), (∀ k ∈ in_order_go t, c k v = none) →
      ∀ res, ceil_go c v t res = Option.or (in_order_go t).head? res
  | .nil, _, res => rfl
  | .node x l r c0, h, res => by
      have hx : c x v = none := h x (by rw [io_node_r]; simp)
      have hl := ceil_go_incomp_r l (fun k hk => h k (by rw [io_node_r]; simp [hk])) (some x)
      rw [ceil_go, if_neg (by simp [hx]), if_neg (by simp [hx]), hl, io_node_r]
      cases hio : in_order_go l with
      | nil => rfl
      | cons a as => rfl

theorem floor_go_incomp_r {c : Int → Int → Option Ordering} {v : Int} :
    ∀ (t : RTree Int), (∀ k ∈ in_order_go t, c k v = none) →
      ∀ res, floor_go c v t res = Option.or (in_order_go t).getLast? res
  | .nil, _, res => rfl
  | .node x l r c0, h, res => by
      have hx : c x v = none := h x (by rw [io_node_r]; simp)
      have hr := floor_go_incomp_r r (fun k hk => h k (by rw [io_node_r]; simp [hk])) (some x)
      rw [floor_go, if_neg (by simp [hx]), if_neg (by simp [hx]), hr, io_node_r,
          List.getLast?_append_cons]
      cases hio : in_order_go r with
      | nil => rfl
      | cons a as =>
          rw [List.getLast?_cons_cons]
          obtain ⟨m, hm⟩ := getLast?_cons_isSome a as
          rw [hm]
          rfl

theorem insert_incomp_r {t : RedBlackTree Int} (hInv : Inv t)
    {c : Int → Int → Option Ordering} {v : Int}
    (hroot : t.root ≠ .nil)
    (hinc : ∀ k ∈ in_order_go t.root, c v k = none) :
    insert c t v = some t := by
  obtain ⟨root, mnv, mxv⟩ := t
  obtain ⟨hs, hblk, hll, hrr2, -, hmn, hmx⟩ := hInv
  simp only at hs hblk hmn hmx hinc hroot ⊢
  cases root with
  | nil => exact absurd rfl hroot
  | node rx rl rr c0 =>
      have hcb : c0 = Color.black := by
        cases c0
        · simp [is_red_node] at hblk
        · rfl
      subst hcb
      obtain ⟨a, xs, hio_eq⟩ : ∃ a xs,
          in_order_go (RTree.node rx rl rr .black) = a :: xs := by
        cases hh : in_order_go (RTree.node rx rl rr .black) with
        | nil => exact absurd hh (io_ne_nil_r rx rl rr .black)
        | cons a xs => exact ⟨a, xs, rfl⟩
      have hmn' : mnv = some a := by
        rw [hmn, refind_min_eq_head_r, hio_eq]
        rfl
      obtain ⟨m, hlast⟩ : ∃ m,
          (in_order_go (RTree.node rx rl rr .black)).getLast? = some m := by
        rw [hio_eq]
        exact getLast?_cons_isSome a xs
      have hmx' : mxv = some m := by
        rw [hmx, refind_max_eq_getLast_r, hlast]
      subst hmn' hmx'
      have hca : c v a = none := hinc a (by rw [hio_eq]; exact List.mem_cons_self a xs)
      have hcm : c v m = none := hinc m (mem_of_getLast?_eq hlast)
      have hcx : c v rx = none := hinc rx (by rw [io_node_r]; simp)
      simp [insert, hca, hcm, insert_recursive, hcx, set_root_black]

end Rbt

/-! ## The breadth-first level count performed by `height()` -/

namespace Bst

/-- Number of levels of a subtree: `0` for an empty slot, otherwise one more
than the deeper child. -/
def levels : BTree α → Nat
  | .nil => 0
  | .node _ l r => 1 + Max.max (levels l) (levels r)

/-- Largest number of levels over all subtrees in a breadth-first queue. -/
def qlevels (q : List (BTree α)) : Nat :=
  q.foldr (fun t acc => Max.max (levels t) acc) 0

/-- The one-element (or empty) queue contribution of a child slot. -/
def childlist : BTree α → List (BTree α)
  | .nil => []
  | t => [t]

theorem qlevels_nil : qlevels ([] : List (BTree α)) = 0 := rfl

theorem qlevels_cons (t : BTree α) (q : List (BTree α)) :
    qlevels (t :: q) = Max.max (levels t) (qlevels q) := rfl

theorem qlevels_append (q₁ q₂ : List (BTree α)) :
    qlevels (q₁ ++ q₂) = Max.max (qlevels q₁) (qlevels q₂) := by
  induction q₁ with
  | nil =>
      simp only [List.nil_append, qlevels_nil]
      omega
  | cons t q ih =>
      simp only [List.cons_append, qlevels_cons, ih]
      omega

theorem level_children_cons_node (x : α) (l r : BTree α) (rest : List (BTree α)) :
    level_children (.node x l r :: rest)
      = childlist l ++ childlist r ++ level_children rest := by
  cases l <;> cases r <;> rfl

theorem mem_childlist {u t : BTree α} (h : u ∈ childlist t) : u = t ∧ t ≠ .nil := by
  cases t with
  | nil => simp [childlist] at h
  | node a b c =>
      simp only [childlist, List.mem_singleton] at h
      exact ⟨h, by simp⟩

theorem qlevels_childlist (t : BTree α) : qlevels (childlist t) = levels t := by
  cases t with
  | nil => rfl
  | node a b c => exact Nat.max_zero _

theorem levels_pos {t : BTree α} (h : t ≠ .nil) : 1 ≤ levels t := by
  cases t with
  | nil => exact absurd rfl h
  | node x l r => rw [levels]; omega

theorem levels_le_tsize : ∀ (t : BTree α), levels t ≤ BTree.tsize t
  | .nil => le_refl 0
  | .node x l r => by
      have hl := levels_le_tsize l
      have hr := levels_le_tsize r
      rw [levels, BTree.tsize]
      omega

theorem level_children_ne_nil :
    ∀ (q : List (BTree α)), ∀ u ∈ level_children q, u ≠ .nil
  | [] => by simp [level_children]
  | .nil :: rest => by
      rw [level_children]
      exact level_children_ne_nil rest
  | .node x l r :: rest => by
      intro u hu
      rw [level_children_cons_node] at hu
      rcases List.mem_append.mp hu with h1 | h1
      · rcases List.mem_append.mp h1 with h2 | h2
        · obtain ⟨rfl, hne⟩ := mem_childlist h2
          exact hne
        · obtain ⟨rfl, hne⟩ := mem_childlist h2
          exact hne
      · exact level_children_ne_nil rest u h1

theorem qlevels_pos {q : List (BTree α)} (hnn : ∀ u ∈ q, u ≠ .nil) (hne : q ≠ []) :
    1 ≤ qlevels q := by
  cases q with
  | nil => exact absurd rfl hne
  | cons t rest =>
      have := levels_pos (hnn t (List.mem_cons_self t rest))
      rw [qlevels_cons]
      omega

theorem qlevels_level_children :
    ∀ (q : List (BTree α)), (∀ u ∈ q, u ≠ .nil) →
      qlevels (level_children q) = qlevels q - 1
  | [], _ => rfl
  | .nil :: rest, h => absurd rfl (h BTree.nil (List.mem_cons_self _ _))
  | .node x l r :: rest, h => by
      have ih := qlevels_level_children rest
        (fun u hu => h u (List.mem_cons_of_mem _ hu))
      rw [level_children_cons_node, qlevels_append, qlevels_append, qlevels_childlist,
          qlevels_childlist, ih, qlevels_cons, levels]
      omega

theorem height_go_eq :
    ∀ (fuel : Nat) (q : List (BTree α)), (∀ u ∈ q, u ≠ .nil) → q ≠ [] →
      qlevels q ≤ fuel → height_go fuel q = qlevels q - 1
  | 0, q, hnn, hne, hle => absurd hle (by have := qlevels_pos hnn hne; omega)
  | _ + 1, [], _, hne, _ => absurd rfl hne
  | fuel + 1, t :: rest, hnn, hne, hle => by
      have hq1 := qlevels_pos hnn hne
      have hstep := qlevels_level_children (t :: rest) hnn
      simp only [height_go]
      cases hnxt : level_children (t :: rest) with
      | nil =>
          rw [hnxt] at hstep
          simp only [List.isEmpty_nil, if_true]
          rw [qlevels_nil] at hstep
          omega
      | cons u us =>
          rw [hnxt] at hstep
          simp only [List.isEmpty_cons, if_false, Bool.false_eq_true]
          have hnn' : ∀ w ∈ u :: us, w ≠ BTree.nil := by
            intro w hw
            exact level_children_ne_nil (t :: rest) w (by rw [hnxt]; exact hw)
          have h1 : 1 ≤ qlevels (u :: us) := qlevels_pos hnn' (by simp)
          rw [height_go_eq fuel (u :: us) hnn' (by simp) (by omega)]
          omega

theorem height_eq_levels (t : BinarySearchTree α) : height t = levels t.root - 1 := by
  obtain ⟨root, mnv, mxv⟩ := t
  cases root with
  | nil => rfl
  | node x l r =>
      show height_go (BTree.tsize (BTree.node x l r)) [BTree.node x l r]
          = levels (BTree.node x l r) - 1
      rw [height_go_eq _ _ (by intro u hu; simp at hu; subst hu; simp) (by simp)
            (by rw [qlevels_cons, qlevels_nil]
                have := levels_le_tsize (BTree.node x l r)
                omega),
          qlevels_cons, qlevels_nil]
      omega

end Bst

namespace Avl

/-- Number of levels of an AVL subtree. -/
def levels : ATree α → Nat
  | .nil => 0
  | .node _ l r _ => 1 + Max.max (levels l) (levels r)

/-- Largest number of levels over all subtrees in a breadth-first queue. -/
def qlevels (q : List (ATree α)) : Nat :=
  q.foldr (fun t acc => Max.max (levels t) acc) 0

/-- The one-element (or empty) queue contribution of a child slot. -/
def childlist : ATree α → List (ATree α)
  | .nil => []
  | t => [t]

theorem qlevels_nil_a : qlevels ([] : List (ATree α)) = 0 := rfl

theorem qlevels_cons_a (t : ATree α) (q : List (ATree α)) :
    qlevels (t :: q) = Max.max (levels t) (qlevels q) := rfl

theorem qlevels_append_a (q₁ q₂ : List (ATree α)) :
    qlevels (q₁ ++ q₂) = Max.max (qlevels q₁) (qlevels q₂) := by
  induction q₁ with
  | nil =>
      simp only [List.nil_append, qlevels_nil_a]
      omega
  | cons t q ih =>
      simp only [List.cons_append, qlevels_cons_a, ih]
      omega

theorem level_children_cons_node_a (x : α) (l r : ATree α) (h0 : Nat)
    (rest : List (ATree α)) :
    level_children (.node x l r h0 :: rest)
      = childlist l ++ childlist r ++ level_children rest := by
  cases l <;> cases r <;> rfl

theorem mem_childlist_a {u t : ATree α} (h : u ∈ childlist t) : u = t ∧ t ≠ .nil := by
  cases t with
  | nil => simp [childlist] at h
  | node a b c d =>
      simp only [childlist, List.mem_singleton] at h
      exact ⟨h, by simp⟩

theorem qlevels_childlist_a (t : ATree α) : qlevels (childlist t) = levels t := by
  cases t with
  | nil => rfl
  | node a b c d => exact Nat.max_zero _

theorem levels_pos_a {t : ATree α} (h : t ≠ .nil) : 1 ≤ levels t := by
  cases t with
  | nil => exact absurd rfl h
  | node x l r h0 => rw [levels]; omega

theorem levels_le_asize : ∀ (t : ATree α), levels t ≤ asize t
  | .nil => le_refl 0
  | .node x l r h0 => by
      have hl := levels_le_asize l
      have hr := levels_le_asize r
      rw [levels, asize]
      omega

theorem level_children_ne_nil_a :
    ∀ (q : List (ATree α)), ∀ u ∈ level_children q, u ≠ .nil
  | [] => by simp [level_children]
  | .nil :: rest => by
      rw [level_children]
      exact level_children_ne_nil_a rest
  | .node x l r h0 :: rest => by
      intro u hu
      rw [level_children_cons_node_a] at hu
      rcases List.mem_append.mp hu with h1 | h1
      · rcases List.mem_append.mp h1 with h2 | h2
        · obtain ⟨rfl, hne⟩ := mem_childlist_a h2
          exact hne
        · obtain ⟨rfl, hne⟩ := mem_childlist_a h2
          exact hne
      · exact level_children_ne_nil_a rest u h1

theorem qlevels_pos_a {q : List (ATree α)} (hnn : ∀ u ∈ q, u ≠ .nil) (hne : q ≠ []) :
    1 ≤ qlevels q := by
  cases q with
  | nil => exact absurd rfl hne
  | cons t rest =>
      have := levels_pos_a (hnn t (List.mem_cons_self t rest))
      rw [qlevels_cons_a]
      omega

theorem qlevels_level_children_a :
    ∀ (q : List (ATree α)), (∀ u ∈ q, u ≠ .nil) →
      qlevels (level_children q) = qlevels q - 1
  | [], _ => rfl
  | .nil :: rest, h => absurd rfl (h ATree.nil (List.mem_cons_self _ _))
  | .node x l r h0 :: rest, h => by
      have ih := qlevels_level_children_a rest
        (fun u hu => h u (List.mem_cons_of_mem _ hu))
      rw [level_children_cons_node_a, qlevels_append_a, qlevels_append_a,
          qlevels_childlist_a, qlevels_childlist_a, ih, qlevels_cons_a, levels]
      omega

theorem height_go_eq_a :
    ∀ (fuel : Nat) (q : List (ATree α)), (∀ u ∈ q, u ≠ .nil) → q ≠ [] →
      qlevels q ≤ fuel → height_go fuel q = qlevels q - 1
  | 0, q, hnn, hne, hle => absurd hle (by have := qlevels_pos_a hnn hne; omega)
  | _ + 1, [], _, hne, _ => absurd rfl hne
  | fuel + 1, t :: rest, hnn, hne, hle => by
      have hq1 := qlevels_pos_a hnn hne
      have hstep := qlevels_level_children_a (t :: rest) hnn
      simp only [height_go]
      cases hnxt : level_children (t :: rest) with
      | nil =>
          rw [hnxt] at hstep
          simp only [List.isEmpty_nil, if_true]
          rw [qlevels_nil_a] at hstep
          omega
      | cons u us =>
          rw [hnxt] at hstep
          simp only [List.isEmpty_cons, if_false, Bool.false_eq_true]
          have hnn' : ∀ w ∈ u :: us, w ≠ ATree.nil := by
            intro w hw
            exact level_children_ne_nil_a (t :: rest) w (by rw [hnxt]; exact hw)
          have h1 : 1 ≤ qlevels (u :: us) := qlevels_pos_a hnn' (by simp)
          rw [height_go_eq_a fuel (u :: us) hnn' (by simp) (by omega)]
          omega

theorem height_eq_levels_a (t : AVLTree α) : height t = levels t.root - 1 := by
  obtain ⟨root, mnv, mxv⟩ := t
  cases root with
  | nil => rfl
  | node x l r h0 =>
      show height_go (asize (ATree.node x l r h0)) [ATree.node x l r h0]
          = levels (ATree.node x l r h0) - 1
      rw [height_go_eq_a _ _ (by intro u hu; simp at hu; subst hu; simp) (by simp)
            (by rw [qlevels_cons_a, qlevels_nil_a]
                have := levels_le_asize (ATree.node x l r h0)
                omega),
          qlevels_cons_a, qlevels_nil_a]
      omega

end Avl

namespace Rbt

/-- Number of levels of a Red-Black subtree. -/
def levels : RTree α → Nat
  | .nil => 0
  | .node _ l r _ => 1 + Max.max (levels l) (levels r)

/-- Largest number of levels over all subtrees in a breadth-first queue. -/
def qlevels (q : List (RTree α)) : Nat :=
  q.foldr (fun t acc => Max.max (levels t) acc) 0

/-- The one-element (or empty) queue contribution of a child slot. -/
def childlist : RTree α → List (RTree α)
  | .nil => []
  | t => [t]

theorem qlevels_nil_r : qlevels ([] : List (RTree α)) = 0 := rfl

theorem qlevels_cons_r (t : RTree α) (q : List (RTree α)) :
    qlevels (t :: q) = Max.max (levels t) (qlevels q) := rfl

theorem qlevels_append_r (q₁ q₂ : List (RTree α)) :
    qlevels (q₁ ++ q₂) = Max.max (qlevels q₁) (qlevels q₂) := by
  induction q₁ with
  | nil =>
      simp only [List.nil_append, qlevels_nil_r]
      omega
  | cons t q ih =>
      simp only [List.cons_append, qlevels_cons_r, ih]
      omega

theorem level_children_cons_node_r (x : α) (l r : RTree α) (c0 : Color)
    (rest : List (RTree α)) :
    level_children (.node x l r c0 :: rest)
      = childlist l ++ childlist r ++ level_children rest := by
  cases l <;> cases r <;> rfl

theorem mem_childlist_r {u t : RTree α} (h : u ∈ childlist t) : u = t ∧ t ≠ .nil := by
  cases t with
  | nil => simp [childlist] at h
  | node a b c d =>
      simp only [childlist, List.mem_singleton] at h
      exact ⟨h, by simp⟩

theorem qlevels_childlist_r (t : RTree α) : qlevels (childlist t) = levels t := by
  cases t with
  | nil => rfl
  | node a b c d => exact Nat.max_zero _

theorem levels_pos_r {t : RTree α} (h : t ≠ .nil) : 1 ≤ levels t := by
  cases t with
  | nil => exact absurd rfl h
  | node x l r c0 => rw [levels]; omega

theorem levels_le_rsize : ∀ (t : RTree α), levels t ≤ rsize t
  | .nil => le_refl 0
  | .node x l r c0 => by
      have hl := levels_le_rsize l
      have hr := levels_le_rsize r
      rw [levels, rsize]
      omega

theorem level_children_ne_nil_r :
    ∀ (q : List (RTree α)), ∀ u ∈ level_children q, u ≠ .nil
  | [] => by simp [level_children]
  | .nil :: rest => by
      rw [level_children]
      exact level_children_ne_nil_r rest
  | .node x l r c0 :: rest => by
      intro u hu
      rw [level_children_cons_node_r] at hu
      rcases List.mem_append.mp hu with h1 | h1
      · rcases List.mem_append.mp h1 with h2 | h2
        · obtain ⟨rfl, hne⟩ := mem_childlist_r h2
          exact hne
        · obtain ⟨rfl, hne⟩ := mem_childlist_r h2
          exact hne
      · exact level_children_ne_nil_r rest u h1

theorem qlevels_pos_r {q : List (RTree α)} (hnn : ∀ u ∈ q, u ≠ .nil) (hne : q ≠ []) :
    1 ≤ qlevels q := by
  cases q with
  | nil => exact absurd rfl hne
  | cons t rest =>
      have := levels_pos_r (hnn t (List.mem_cons_self t rest))
      rw [qlevels_cons_r]
      omega

theorem qlevels_level_children_r :
    ∀ (q : List (RTree α)), (∀ u ∈ q, u ≠ .nil) →
      qlevels (level_children q) = qlevels q - 1
  | [], _ => rfl
  | .nil :: rest, h => absurd rfl (h RTree.nil (List.mem_cons_self _ _))
  | .node x l r c0 :: rest, h => by
      have ih := qlevels_level_children_r rest
        (fun u hu => h u (List.mem_cons_of_mem _ hu))
      rw [level_children_cons_node_r, qlevels_append_r, qlevels_append_r,
          qlevels_childlist_r, qlevels_childlist_r, ih, qlevels_cons_r, levels]
      omega

theorem height_go_eq_r :
    ∀ (fuel : Nat) (q : List (RTree α)), (∀ u ∈ q, u ≠ .nil) → q ≠ [] →
      qlevels q ≤ fuel → height_go fuel q = qlevels q - 1
  | 0, q, hnn, hne, hle => absurd hle (by have := qlevels_pos_r hnn hne; omega)
  | _ + 1, [], _, hne, _ => absurd rfl hne
  | fuel + 1, t :: rest, hnn, hne, hle => by
      have hq1 := qlevels_pos_r hnn hne
      have hstep := qlevels_level_children_r (t :: rest) hnn
      simp only [height_go]
      cases hnxt : level_children (t :: rest) with
      | nil =>
          rw [hnxt] at hstep
          simp only [List.isEmpty_nil, if_true]
          rw [qlevels_nil_r] at hstep
          omega
      | cons u us =>
          rw [hnxt] at hstep
          simp only [List.isEmpty_cons, if_false, Bool.false_eq_true]
          have hnn' : ∀ w ∈ u :: us, w ≠ RTree.nil := by
            intro w hw
            exact level_children_ne_nil_r (t :: rest) w (by rw [hnxt]; exact hw)
          have h1 : 1 ≤ qlevels (u :: us) := qlevels_pos_r hnn' (by simp)
          rw [height_go_eq_r fuel (u :: us) hnn' (by simp) (by omega)]
          omega

theorem height_eq_levels_r (t : RedBlackTree α) : height t = levels t.root - 1 := by
  obtain ⟨root, mnv, mxv⟩ := t
  cases root with
  | nil => rfl
  | node x l r c0 =>
      show height_go (rsize (RTree.node x l r c0)) [RTree.node x l r c0]
          = levels (RTree.node x l r c0) - 1
      rw [height_go_eq_r _ _ (by intro u hu; simp at hu; subst hu; simp) (by simp)
            (by rw [qlevels_cons_r, qlevels_nil_r]
                have := levels_le_rsize (RTree.node x l r c0)
                omega),
          qlevels_cons_r, qlevels_nil_r]
      omega

end Rbt

/-! ## `ceil`/`floor` on a value incomparable with every stored key -/

namespace Bst

theorem ceil_incomp {t : BinarySearchTree Int} {c : Int → Int → Option Ordering} {v : Int}
    (hroot : t.root ≠ .nil) (hinc : ∀ k ∈ in_order_go t.root, c k v = none) :
    ceil c t v = (in_order_go t.root).head? := by
  obtain ⟨root, mnv, mxv⟩ := t
  simp only at hroot hinc ⊢
  cases root with
  | nil => exact absurd rfl hroot
  | node x l r =>
      show ceil_go c v (BTree.node x l r) none = _
      rw [ceil_go_incomp (BTree.node x l r) hinc none]
      cases hh : (in_order_go (BTree.node x l r)).head? with
      | none => rfl
      | some m => rfl

theorem floor_incomp {t : BinarySearchTree Int} {c : Int → Int → Option Ordering} {v : Int}
    (hroot : t.root ≠ .nil) (hinc : ∀ k ∈ in_order_go t.root, c k v = none) :
    floor c t v = (in_order_go t.root).getLast? := by
  obtain ⟨root, mnv, mxv⟩ := t
  simp only at hroot hinc ⊢
  cases root with
  | nil => exact absurd rfl hroot
  | node x l r =>
      show floor_go c v (BTree.node x l r) none = _
      rw [floor_go_incomp (BTree.node x l r) hinc none]
      cases hh : (in_order_go (BTree.node x l r)).getLast? with
      | none => rfl
      | some m => rfl

end Bst

namespace Avl

theorem ceil_incomp_a {t : AVLTree Int} {c : Int → Int → Option Ordering} {v : Int}
    (hroot : t.root ≠ .nil) (hinc : ∀ k ∈ in_order_go t.root, c k v = none) :
    ceil c t v = (in_order_go t.root).head? := by
  obtain ⟨root, mnv, mxv⟩ := t
  simp only at hroot hinc ⊢
  cases root with
  | nil => exact absurd rfl hroot
  | node x l r h0 =>
      show ceil_go c v (ATree.node x l r h0) none = _
      rw [ceil_go_incomp_a (ATree.node x l r h0) hinc none]
      cases hh : (in_order_go (ATree.node x l r h0)).head? with
      | none => rfl
      | some m => rfl

theorem floor_incomp_a {t : AVLTree Int} {c : Int → Int → Option Ordering} {v : Int}
    (hroot : t.root ≠ .nil) (hinc : ∀ k ∈ in_order_go t.root, c k v = none) :
    floor c t v = (in_order_go t.root).getLast? := by
  obtain ⟨root, mnv, mxv⟩ := t
  simp only at hroot hinc ⊢
  cases root with
  | nil => exact absurd rfl hroot
  | node x l r h0 =>
      show floor_go c v (ATree.node x l r h0) none = _
      rw [floor_go_incomp_a (ATree.node x l r h0) hinc none]
      cases hh : (in_order_go (ATree.node x l r h0)).getLast? with
      | none => rfl
      | some m => rfl

end Avl

namespace Rbt

theorem ceil_incomp_r {t : RedBlackTree Int} {c : Int → Int → Option Ordering} {v : Int}
    (hroot : t.root ≠ .nil) (hinc : ∀ k ∈ in_order_go t.root, c k v = none) :
    ceil c t v = (in_order_go t.root).head? := by
  obtain ⟨root, mnv, mxv⟩ := t
  simp only at hroot hinc ⊢
  cases root with
  | nil => exact absurd rfl hroot
  | node x l r c0 =>
      show ceil_go c v (RTree.node x l r c0) none = _
      rw [ceil_go_incomp_r (RTree.node x l r c0) hinc none]
      cases hh : (in_order_go (RTree.node x l r c0)).head? with
      | none => rfl
      | some m => rfl

theorem floor_incomp_r {t : RedBlackTree Int} {c : Int → Int → Option Ordering} {v : Int}
    (hroot : t.root ≠ .nil) (hinc : ∀ k ∈ in_order_go t.root, c k v = none) :
    floor c t v = (in_order_go t.root).getLast? := by
  obtain ⟨root, mnv, mxv⟩ := t
  simp only at hroot hinc ⊢
  cases root with
  | nil => exact absurd rfl hroot
  | node x l r c0 =>
      show floor_go c v (RTree.node x l r c0) none = _
      rw [floor_go_incomp_r (RTree.node x l r c0) hinc none]
      cases hh : (in_order_go (RTree.node x l r c0)).getLast? with
      | none => rfl
      | some m => rfl

end Rbt

/-! ## The claims -/

/-- C1: after every sequence of public insert/remove operations on a
`RedBlackTree` starting from `new()`, the Red-Black invariants hold: the root
is black, no red node has a red child (`check_red_property`), every
root-to-`None` path passes the same number of black nodes
(`check_black_height`), and the source's own validity checker accepts the
tree. -/
theorem claim_C1 (ops : List Op) :
    Rbt.is_red_node (rbRunD ops).root = false ∧
    Rbt.check_red_property (rbRunD ops).root = true ∧
    (∃ n, Rbt.check_black_height (rbRunD ops).root = some n) ∧
    Rbt.is_valid_red_black_tree (rbRunD ops) = true := by
  obtain ⟨hInv, -⟩ := Rbt.runD_spec_r ops
  exact ⟨hInv.black, hInv.rr, hInv.bh, Rbt.inv_valid hInv⟩

/-- C2: after every sequence of public insert/remove operations on an
`AVLTree` starting from `new()`, every stored height field equals
`1 + max(height(left), height(right))` (`HtOK`, with empty = 0, leaf = 1),
every balance factor lies in `[-1, 1]` (`BalOK`), and the source's
`is_balanced` checker accepts the tree. -/
theorem claim_C2 (ops : List Op) :
    Avl.HtOK (avlRunD ops).root ∧ Avl.BalOK (avlRunD ops).root ∧
    Avl.is_balanced (avlRunD ops) = true := by
  obtain ⟨hInv, -⟩ := Avl.runD_spec_a ops
  exact ⟨hInv.ht, hInv.bal, Avl.is_balanced_go_of_inv hInv.ht hInv.bal⟩

/-- C3: after every sequence of public insert/remove operations on each of
the three trees, the `in_order()` traversal is strictly increasing. -/
theorem claim_C3 (ops : List Op) :
    List.Pairwise (· < ·) (Bst.in_order (bstRunD ops)) ∧
    List.Pairwise (· < ·) (Avl.in_order (avlRunD ops)) ∧
    List.Pairwise (· < ·) (Rbt.in_order (rbRunD ops)) := by
  obtain ⟨-, hb⟩ := Bst.runD_spec ops
  obtain ⟨-, ha⟩ := Avl.runD_spec_a ops
  obtain ⟨-, hr⟩ := Rbt.runD_spec_r ops
  refine ⟨?_, ?_, ?_⟩
  · show List.Pairwise (· < ·) (Bst.in_order_go (bstRunD ops).root)
    rw [hb]
    exact pairwise_keysModel ops
  · show List.Pairwise (· < ·) (Avl.in_order_go (avlRunD ops).root)
    rw [ha]
    exact pairwise_keysModel ops
  · show List.Pairwise (· < ·) (Rbt.in_order_go (rbRunD ops).root)
    rw [hr]
    exact pairwise_keysModel ops

/-- C4: over the totally ordered key domain, every key inserted and not
subsequently removed (membership in the key-set model `keysModel`) satisfies
`contains = true` on all three trees, and immediately after `remove(v)` the
key satisfies `contains = false` on all three trees. -/
theorem claim_C4 (ops : List Op) (v : Int) :
    (v ∈ keysModel ops →
      Bst.contains icmp (bstRunD ops) v = true ∧
      Avl.contains icmp (avlRunD ops) v = true ∧
      Rbt.contains icmp (rbRunD ops) v = true) ∧
    (Bst.contains icmp (bstRunD (ops ++ [Op.del v])) v = false ∧
     Avl.contains icmp (avlRunD (ops ++ [Op.del v])) v = false ∧
     Rbt.contains icmp (rbRunD (ops ++ [Op.del v])) v = false) := by
  constructor
  · intro hmem
    obtain ⟨hIb, hb⟩ := Bst.runD_spec ops
    obtain ⟨hIa, ha⟩ := Avl.runD_spec_a ops
    obtain ⟨hIr, hr⟩ := Rbt.runD_spec_r ops
    refine ⟨?_, ?_, ?_⟩
    · exact (Bst.contains_go_iff v hIb.sorted).mpr (by rw [hb]; exact hmem)
    · exact (Avl.contains_go_iff_a hIa.sorted v).mpr (by rw [ha]; exact hmem)
    · exact (Rbt.contains_go_iff_r hIr.sorted v).mpr (by rw [hr]; exact hmem)
  · obtain ⟨hIb, hb⟩ := Bst.runD_spec (ops ++ [Op.del v])
    obtain ⟨hIa, ha⟩ := Avl.runD_spec_a (ops ++ [Op.del v])
    obtain ⟨hIr, hr⟩ := Rbt.runD_spec_r (ops ++ [Op.del v])
    have hkm : keysModel (ops ++ [Op.del v]) = ldel v (keysModel ops) := by
      unfold keysModel
      rw [opsModel_append]
      rfl
    have hnb : v ∉ Bst.in_order_go (bstRunD (ops ++ [Op.del v])).root := by
      rw [hb, hkm]
      intro hc
      exact (mem_ldel.mp hc).2 rfl
    have hna : v ∉ Avl.in_order_go (avlRunD (ops ++ [Op.del v])).root := by
      rw [ha, hkm]
      intro hc
      exact (mem_ldel.mp hc).2 rfl
    have hnr : v ∉ Rbt.in_order_go (rbRunD (ops ++ [Op.del v])).root := by
      rw [hr, hkm]
      intro hc
      exact (mem_ldel.mp hc).2 rfl
    refine ⟨?_, ?_, ?_⟩
    · cases hcg : Bst.contains_go icmp v (bstRunD (ops ++ [Op.del v])).root with
      | false => exact hcg
      | true => exact absurd ((Bst.contains_go_iff v hIb.sorted).mp hcg) hnb
    · cases hcg : Avl.contains_go icmp v (avlRunD (ops ++ [Op.del v])).root with
      | false => exact hcg
      | true => exact absurd ((Avl.contains_go_iff_a hIa.sorted v).mp hcg) hna
    · cases hcg : Rbt.contains_go icmp v (rbRunD (ops ++ [Op.del v])).root with
      | false => exact hcg
      | true => exact absurd ((Rbt.contains_go_iff_r hIr.sorted v).mp hcg) hnr

/-- C4 witness at a concrete input. -/
theorem claim_C4_witness :
    Bst.contains icmp (bstRunD [Op.ins 1]) 1 = true ∧
    Bst.contains icmp (bstRunD ([Op.ins 1] ++ [Op.del 1])) 1 = false :=
  ⟨((claim_C4 [Op.ins 1] 1).1 (by decide)).1, (claim_C4 [Op.ins 1] 1).2.1⟩

/-- C5 (corrected): over the total order, the caches returned by `min`/`max`
are the head and last element of the sorted key set after any operation
sequence, and `min` is `none` exactly on the empty tree.  The original
claim's extension to arbitrary partially ordered keys is refuted by
`claim_C5_counterexample`. -/
theorem claim_C5 (ops : List Op) :
    (Bst.min (bstRunD ops) = (keysModel ops).head? ∧
     Bst.max (bstRunD ops) = (keysModel ops).getLast? ∧
     (Bst.min (bstRunD ops) = none ↔ Bst.in_order (bstRunD ops) = [])) ∧
    (Avl.min (avlRunD ops) = (keysModel ops).head? ∧
     Avl.max (avlRunD ops) = (keysModel ops).getLast? ∧
     (Avl.min (avlRunD ops) = none ↔ Avl.in_order (avlRunD ops) = [])) ∧
    (Rbt.min (rbRunD ops) = (keysModel ops).head? ∧
     Rbt.max (rbRunD ops) = (keysModel ops).getLast? ∧
     (Rbt.min (rbRunD ops) = none ↔ Rbt.in_order (rbRunD ops) = [])) := by
  obtain ⟨hIb, hb⟩ := Bst.runD_spec ops
  obtain ⟨hIa, ha⟩ := Avl.runD_spec_a ops
  obtain ⟨hIr, hr⟩ := Rbt.runD_spec_r ops
  have hbmin : Bst.min (bstRunD ops) = (keysModel ops).head? := by
    show (bstRunD ops).min_value = _
    rw [hIb.minc, Bst.refind_min_eq_head, hb]
  have hbmax : Bst.max (bstRunD ops) = (keysModel ops).getLast? := by
    show (bstRunD ops).max_value = _
    rw [hIb.maxc, Bst.refind_max_eq_getLast, hb]
  have hamin : Avl.min (avlRunD ops) = (keysModel ops).head? := by
    show (avlRunD ops).min_value = _
    rw [hIa.minc, Avl.refind_min_eq_head_a, ha]
  have hamax : Avl.max (avlRunD ops) = (keysModel ops).getLast? := by
    show (avlRunD ops).max_value = _
    rw [hIa.maxc, Avl.refind_max_eq_getLast_a, ha]
  have hrmin : Rbt.min (rbRunD ops) = (keysModel ops).head? := by
    show (rbRunD ops).min_value = _
    rw [hIr.minc, Rbt.refind_min_eq_head_r, hr]
  have hrmax : Rbt.max (rbRunD ops) = (keysModel ops).getLast? := by
    show (rbRunD ops).max_value = _
    rw [hIr.maxc, Rbt.refind_max_eq_getLast_r, hr]
  refine ⟨⟨hbmin, hbmax, ?_⟩, ⟨hamin, hamax, ?_⟩, ⟨hrmin, hrmax, ?_⟩⟩
  · rw [hbmin]
    show _ ↔ Bst.in_order_go (bstRunD ops).root = []
    rw [hb]
    cases keysModel ops <;> simp
  · rw [hamin]
    show _ ↔ Avl.in_order_go (avlRunD ops).root = []
    rw [ha]
    cases keysModel ops <;> simp
  · rw [hrmin]
    show _ ↔ Rbt.in_order_go (rbRunD ops).root = []
    rw [hr]
    cases keysModel ops <;> simp

/-- C5 counterexample for the general `PartialOrd` domain: under `qcmp`
(where `3` and `5` are incomparable) the reachable tree `{3, 4, 5}` reports
`min() = Some(3)` although `3` is not below the stored key `5`, so no true
minimum exists to report. -/
theorem claim_C5_counterexample :
    Bst.insert qcmp Bst.new 4
      = some ⟨.node 4 .nil .nil, some 4, some 4⟩ ∧
    Bst.insert qcmp ⟨.node 4 .nil .nil, some 4, some 4⟩ 3
      = some ⟨.node 4 (.node 3 .nil .nil) .nil, some 3, some 4⟩ ∧
    Bst.insert qcmp ⟨.node 4 (.node 3 .nil .nil) .nil, some 3, some 4⟩ 5
      = some ⟨.node 4 (.node 3 .nil .nil) (.node 5 .nil .nil), some 3, some 5⟩ ∧
    Bst.min (⟨.node 4 (.node 3 .nil .nil) (.node 5 .nil .nil), some 3, some 5⟩
      : BinarySearchTree Int) = some 3 ∧
    Bst.max (⟨.node 4 (.node 3 .nil .nil) (.node 5 .nil .nil), some 3, some 5⟩
      : BinarySearchTree Int) = some 5 ∧
    Bst.contains qcmp ⟨.node 4 (.node 3 .nil .nil) (.node 5 .nil .nil), some 3, some 5⟩ 5
      = true ∧
    qcmp 3 5 = none ∧ qcmp 5 3 = none := by decide

/-- C6: inserting an already-present key into any of the three trees returns
the identical tree value — same root structure, same caches, hence the same
key set, traversals and element count. -/
theorem claim_C6 (ops : List Op) (v : Int) (hmem : v ∈ keysModel ops) :
    Bst.insert icmp (bstRunD ops) v = some (bstRunD ops) ∧
    Avl.insert icmp (avlRunD ops) v = some (avlRunD ops) ∧
    Rbt.insert icmp (rbRunD ops) v = some (rbRunD ops) := by
  obtain ⟨hIb, hb⟩ := Bst.runD_spec ops
  obtain ⟨hIa, ha⟩ := Avl.runD_spec_a ops
  obtain ⟨hIr, hr⟩ := Rbt.runD_spec_r ops
  exact ⟨Bst.insert_mem_noop hIb v (by rw [hb]; exact hmem),
         Avl.insert_mem_noop_a hIa v (by rw [ha]; exact hmem),
         Rbt.insert_mem_noop_r hIr v (by rw [hr]; exact hmem)⟩

/-- C6 witness at a concrete input. -/
theorem claim_C6_witness :
    Bst.insert icmp (bstRunD [Op.ins 1]) 1 = some (bstRunD [Op.ins 1]) ∧
    Avl.insert icmp (avlRunD [Op.ins 1]) 1 = some (avlRunD [Op.ins 1]) ∧
    Rbt.insert icmp (rbRunD [Op.ins 1]) 1 = some (rbRunD [Op.ins 1]) :=
  claim_C6 [Op.ins 1] 1 (by decide)

/-- C7 (corrected): when `v` is incomparable with every stored key of a
non-empty tree, `contains` is `false`, and `insert` (all three trees) and
`remove` (BST and AVL) return the tree — root and caches — unchanged; but
`ceil`/`floor` do not return `None` as claimed: they return the smallest
resp. greatest key.  The Red-Black `remove` is not a no-op either
(`claim_C7_counterexample`). -/
theorem claim_C7 (ops : List Op) (c : Int → Int → Option Ordering) (v : Int)
    (hne : keysModel ops ≠ [])
    (hinc : ∀ k ∈ keysModel ops, c v k = none ∧ c k v = none) :
    (Bst.contains c (bstRunD ops) v = false ∧
     Bst.insert c (bstRunD ops) v = some (bstRunD ops) ∧
     Bst.remove c (bstRunD ops) v = some (bstRunD ops) ∧
     Bst.ceil c (bstRunD ops) v = (keysModel ops).head? ∧
     Bst.floor c (bstRunD ops) v = (keysModel ops).getLast?) ∧
    (Avl.contains c (avlRunD ops) v = false ∧
     Avl.insert c (avlRunD ops) v = some (avlRunD ops) ∧
     Avl.remove c (avlRunD ops) v = some (avlRunD ops) ∧
     Avl.ceil c (avlRunD ops) v = (keysModel ops).head? ∧
     Avl.floor c (avlRunD ops) v = (keysModel ops).getLast?) ∧
    (Rbt.contains c (rbRunD ops) v = false ∧
     Rbt.insert c (rbRunD ops) v = some (rbRunD ops) ∧
     Rbt.ceil c (rbRunD ops) v = (keysModel ops).head? ∧
     Rbt.floor c (rbRunD ops) v = (keysModel ops).getLast?) := by
  obtain ⟨hIb, hb⟩ := Bst.runD_spec ops
  obtain ⟨hIa, ha⟩ := Avl.runD_spec_a ops
  obtain ⟨hIr, hr⟩ := Rbt.runD_spec_r ops
  have hvb : ∀ k ∈ Bst.in_order_go (bstRunD ops).root, c v k = none :=
    fun k hk => (hinc k (by rwa [hb] at hk)).1
  have hkb : ∀ k ∈ Bst.in_order_go (bstRunD ops).root, c k v = none :=
    fun k hk => (hinc k (by rwa [hb] at hk)).2
  have hva : ∀ k ∈ Avl.in_order_go (avlRunD ops).root, c v k = none :=
    fun k hk => (hinc k (by rwa [ha] at hk)).1
  have hka : ∀ k ∈ Avl.in_order_go (avlRunD ops).root, c k v = none :=
    fun k hk => (hinc k (by rwa [ha] at hk)).2
  have hvr : ∀ k ∈ Rbt.in_order_go (rbRunD ops).root, c v k = none :=
    fun k hk => (hinc k (by rwa [hr] at hk)).1
  have hkr : ∀ k ∈ Rbt.in_order_go (rbRunD ops).root, c k v = none :=
    fun k hk => (hinc k (by rwa [hr] at hk)).2
  have hrb : (bstRunD ops).root ≠ BTree.nil := by
    intro h0
    apply hne
    rw [← hb, h0]
    rfl
  have hra : (avlRunD ops).root ≠ ATree.nil := by
    intro h0
    apply hne
    rw [← ha, h0]
    rfl
  have hrr : (rbRunD ops).root ≠ RTree.nil := by
    intro h0
    apply hne
    rw [← hr, h0]
    rfl
  refine ⟨⟨?_, ?_, ?_, ?_, ?_⟩, ⟨?_, ?_, ?_, ?_, ?_⟩, ⟨?_, ?_, ?_, ?_⟩⟩
  · exact Bst.contains_go_incomp (bstRunD ops).root hvb
  · exact Bst.insert_incomp hIb hrb hvb
  · exact Bst.remove_incomp hIb hvb
  · rw [Bst.ceil_incomp hrb hkb, hb]
  · rw [Bst.floor_incomp hrb hkb, hb]
  · exact Avl.contains_go_incomp_a (avlRunD ops).root hva
  · exact Avl.insert_incomp_a hIa hra hva
  · exact Avl.remove_incomp_a hIa hva
  · rw [Avl.ceil_incomp_a hra hka, ha]
  · rw [Avl.floor_incomp_a hra hka, ha]
  · exact Rbt.contains_go_incomp_r (rbRunD ops).root hvr
  · exact Rbt.insert_incomp_r hIr hrr hvr
  · rw [Rbt.ceil_incomp_r hrr hkr, hr]
  · rw [Rbt.floor_incomp_r hrr hkr, hr]

/-- C7 witness at a concrete input (`pcmp` makes `9` incomparable with
everything). -/
theorem claim_C7_witness :
    Bst.contains pcmp (bstRunD [Op.ins 1]) 9 = false ∧
    Bst.ceil pcmp (bstRunD [Op.ins 1]) 9 = (keysModel [Op.ins 1]).head? ∧
    Rbt.insert pcmp (rbRunD [Op.ins 1]) 9 = some (rbRunD [Op.ins 1]) := by
  have h := claim_C7 [Op.ins 1] pcmp 9 (by decide) (by decide)
  exact ⟨h.1.1, h.1.2.2.2.1, h.2.2.2.1⟩

/-- C7 counterexample: `ceil`/`floor` of an incomparable value return the
extreme keys instead of `None`, and the Red-Black `remove` of an
incomparable value silently restructures the tree instead of no-opping. -/
theorem claim_C7_counterexample :
    Bst.in_order (bstRunD [Op.ins 1]) = [1] ∧
    pcmp 9 1 = none ∧ pcmp 1 9 = none ∧
    Bst.ceil pcmp (bstRunD [Op.ins 1]) 9 = some 1 ∧
    Bst.floor pcmp (bstRunD [Op.ins 1]) 9 = some 1 ∧
    Rbt.in_order (rbRunD [Op.ins 11, Op.ins 3, Op.ins 17, Op.ins 2]) = [2, 3, 11, 17] ∧
    (∀ k ∈ [(2 : Int), 3, 11, 17], pcmp 9 k = none ∧ pcmp k 9 = none) ∧
    (Rbt.remove pcmp (rbRunD [Op.ins 11, Op.ins 3, Op.ins 17, Op.ins 2]) 9).isSome
      = true ∧
    Rbt.remove pcmp (rbRunD [Op.ins 11, Op.ins 3, Op.ins 17, Op.ins 2]) 9
      ≠ some (rbRunD [Op.ins 11, Op.ins 3, Op.ins 17, Op.ins 2]) := by decide

/-- C8: running any sequence of public insert/remove operations from `new()`
never panics on any of the three trees: every step returns `some`.  (All
remaining public operations — `contains`, `min`, `max`, `height`, the four
traversals, `number_of_elements`, `ceil`, `floor` — are embedded as total
functions because the source code of those loops cannot panic.) -/
theorem claim_C8 (ops : List Op) :
    (bstRun ops).isSome ∧ (avlRun ops).isSome ∧ (rbRun ops).isSome :=
  ⟨Bst.run_isSome ops, Avl.run_isSome_a ops, Rbt.run_isSome_r ops⟩

/-- C9 (corrected): inserting `[5,3,7,2,4,6,8]` gives `in_order
= [2,…,8]` on all three trees, BST `pre_order = [5,3,2,4,7,6,8]`, the AVL
`in_order` agrees with the BST's, and after removing `2` all three `min()`
return `3`; but the AVL `pre_order` does not differ from the BST's (no
rotation fires on this insertion order) — see `claim_C9_counterexample`. -/
theorem claim_C9 :
    Bst.in_order (bstRunD [Op.ins 5, Op.ins 3, Op.ins 7, Op.ins 2, Op.ins 4,
      Op.ins 6, Op.ins 8]) = [2, 3, 4, 5, 6, 7, 8] ∧
    Avl.in_order (avlRunD [Op.ins 5, Op.ins 3, Op.ins 7, Op.ins 2, Op.ins 4,
      Op.ins 6, Op.ins 8]) = [2, 3, 4, 5, 6, 7, 8] ∧
    Rbt.in_order (rbRunD [Op.ins 5, Op.ins 3, Op.ins 7, Op.ins 2, Op.ins 4,
      Op.ins 6, Op.ins 8]) = [2, 3, 4, 5, 6, 7, 8] ∧
    Bst.pre_order (bstRunD [Op.ins 5, Op.ins 3, Op.ins 7, Op.ins 2, Op.ins 4,
      Op.ins 6, Op.ins 8]) = [5, 3, 2, 4, 7, 6, 8] ∧
    Bst.min (bstRunD [Op.ins 5, Op.ins 3, Op.ins 7, Op.ins 2, Op.ins 4,
      Op.ins 6, Op.ins 8, Op.del 2]) = some 3 ∧
    Avl.min (avlRunD [Op.ins 5, Op.ins 3, Op.ins 7, Op.ins 2, Op.ins 4,
      Op.ins 6, Op.ins 8, Op.del 2]) = some 3 ∧
    Rbt.min (rbRunD [Op.ins 5, Op.ins 3, Op.ins 7, Op.ins 2, Op.ins 4,
      Op.ins 6, Op.ins 8, Op.del 2]) = some 3 := by decide

/-- C9 counterexample: on the scenario's insertion order the AVL tree needs
no rotation, so its `pre_order` equals the BST's instead of differing. -/
theorem claim_C9_counterexample :
    Avl.pre_order (avlRunD [Op.ins 5, Op.ins 3, Op.ins 7, Op.ins 2, Op.ins 4,
      Op.ins 6, Op.ins 8])
      = Bst.pre_order (bstRunD [Op.ins 5, Op.ins 3, Op.ins 7, Op.ins 2, Op.ins 4,
        Op.ins 6, Op.ins 8]) := by decide

/-- C10 (corrected): `height()` is not the breadth-first level count — it is
that count minus one (the loop increments only while a further level
remains), for every tree of all three variants. -/
theorem claim_C10 (t : BinarySearchTree Int) (u : AVLTree Int) (s : RedBlackTree Int) :
    Bst.height t = Bst.levels t.root - 1 ∧
    Avl.height u = Avl.levels u.root - 1 ∧
    Rbt.height s = Rbt.levels s.root - 1 :=
  ⟨Bst.height_eq_levels t, Avl.height_eq_levels_a u, Rbt.height_eq_levels_r s⟩

/-- C10 counterexample: a single-node tree has one breadth-first level but
`height() = 0`, not `1`. -/
theorem claim_C10_counterexample :
    Bst.height (bstRunD [Op.ins 5]) = 0 ∧ Bst.levels (bstRunD [Op.ins 5]).root = 1 ∧
    Avl.height (avlRunD [Op.ins 5]) = 0 ∧ Avl.levels (avlRunD [Op.ins 5]).root = 1 ∧
    Rbt.height (rbRunD [Op.ins 5]) = 0 ∧ Rbt.levels (rbRunD [Op.ins 5]).root = 1 := by
  decide

end DataForest
